import Mathlib

/-!
# Verification of the match-order-book engine

A shallow embedding of the price-time priority matching engine from the
`match-order-book` repository (NestJS backend, `OrderBook` / `MatcherEngine`
in `helper/matcher.ts`), together with proofs of the specified properties.

Modelling notes:

* Exact decimals (the TS code uses the external `big.js` library, which is not
  part of the repository's sources) are modelled from the spec, §4.1 "Decimal":
  a value is an integer mantissa `m` together with a power-of-ten exponent `e`,
  denoting the rational `m * 10^e`.  Arithmetic is exact; `Dec.toString`
  produces the canonical minimal decimal string (no superfluous trailing
  zeros, no trailing point).
* The priority queues (the external `heap-js` library, also absent from the
  sources) are modelled from the spec, §4.2: each side of the book is the
  multiset of its resting orders, kept as a `List`, and `peek`/`pop` return
  the best element under the side's comparator (`extractBest`).  The
  comparators are translated from the `OrderBook` constructor.  Snapshot
  iteration order of a binary heap's backing array is not modelled; snapshots
  here list the resting orders in insertion order, which carries the same
  multiset of entries.
* TS `BookOrder`s are heap-allocated objects that survive their removal from
  the book (removal merely unlinks them from the queue and the id-index, and
  `match` mutates `remaining` through shared references).  To make those
  object fields observable after removal, each book carries a `store`: the
  list of every order object ever created in the book, keyed by the unique
  arrival sequence `ts`, with `remaining` kept up to date exactly where the
  TS code mutates it.  Likewise each emitted `Trade` (whose fields are plain
  strings, as in the source) is paired with a `TradeAttr` recording which
  order objects (by `ts`) the trade's fields were read from at emission time;
  the engine's observable trade list is the first projection.  Both are
  instrumentation: no engine step reads them.
* The wall-clock `ts` field of TS trades (`Date.now()`) is nondeterministic
  and carries no engine semantics; it is omitted from the `Trade` record.
-/

/-! ## Sides and command types (from `types/trade.ts`) -/

inductive Side where
  | BUY : Side
  | SELL : Side
deriving DecidableEq, Repr

inductive OpType where
  | CREATE : OpType
  | DELETE : OpType
deriving DecidableEq, Repr

/-- The wire shape of an incoming command (`RawOrder` in `types/trade.ts`).
Numeric fields are carried as strings until parsed. -/
structure RawOrder where
  type_op : OpType
  account_id : String
  amount : String
  order_id : String
  pair : String
  limit_price : String
  side : Side
deriving DecidableEq, Repr

/-! ## Exact decimals

Modelled from the spec: the repository's decimal arithmetic lives in the
external `big.js` package (not under the repository's sources); spec §4.1
pins its contract: exact decimal values, total ordering, exact `add`/`sub`/
`min`, parsing of `sign? digits ('.' digits)?`, and canonical serialization
with trailing-zero normalization. -/

/-- An exact decimal number: the rational `m * 10^e`. -/
structure Dec where
  m : Int
  e : Int
deriving DecidableEq, Repr

namespace Dec

/-- The rational value denoted by a `Dec`. -/
def val (d : Dec) : ℚ := (d.m : ℚ) * (10 : ℚ) ^ d.e

/-- Mantissa of `a` rebased to the common exponent `min a.e b.e`. -/
def amant (a b : Dec) : Int := a.m * 10 ^ (a.e - min a.e b.e).toNat

/-- Mantissa of `b` rebased to the common exponent `min a.e b.e`. -/
def bmant (a b : Dec) : Int := b.m * 10 ^ (b.e - min a.e b.e).toNat

/-- Exact subtraction (`Big.minus`). -/
def sub (a b : Dec) : Dec := ⟨amant a b - bmant a b, min a.e b.e⟩

/-- Value comparison, `Big.lt`. -/
def ltb (a b : Dec) : Bool := amant a b < bmant a b

/-- Value comparison, `Big.lte`. -/
def leb (a b : Dec) : Bool := amant a b ≤ bmant a b

/-- Value comparison, `Big.gt`. -/
def gtb (a b : Dec) : Bool := bmant a b < amant a b

/-- Value comparison, `Big.gte`. -/
def geb (a b : Dec) : Bool := bmant a b ≤ amant a b

/-- Value equality, `Big.eq`. -/
def eqb (a b : Dec) : Bool := amant a b = bmant a b

/-- `d.gt(0)` in the source. -/
def isPos (d : Dec) : Bool := 0 < d.m

/-- `d.eq(0)` in the source. -/
def isZero (d : Dec) : Bool := d.m = 0

theorem zpow_min_pos (a b : Dec) : (0 : ℚ) < (10 : ℚ) ^ (min a.e b.e) :=
  zpow_pos (by norm_num) _

theorem val_eq_amant (a b : Dec) :
    a.val = ((amant a b : Int) : ℚ) * (10 : ℚ) ^ (min a.e b.e) := by
  unfold val amant
  push_cast
  rw [mul_assoc]
  congr 1
  rw [← zpow_natCast (10 : ℚ) (a.e - min a.e b.e).toNat, ← zpow_add₀ (by norm_num : (10:ℚ) ≠ 0)]
  congr 1
  omega

theorem val_eq_bmant (a b : Dec) :
    b.val = ((bmant a b : Int) : ℚ) * (10 : ℚ) ^ (min a.e b.e) := by
  unfold val bmant
  push_cast
  rw [mul_assoc]
  congr 1
  rw [← zpow_natCast (10 : ℚ) (b.e - min a.e b.e).toNat, ← zpow_add₀ (by norm_num : (10:ℚ) ≠ 0)]
  congr 1
  omega

theorem ltb_iff (a b : Dec) : ltb a b = true ↔ a.val < b.val := by
  rw [val_eq_amant a b, val_eq_bmant a b]
  unfold ltb
  rw [mul_lt_mul_right (zpow_min_pos a b)]
  simp [Int.cast_lt]

theorem leb_iff (a b : Dec) : leb a b = true ↔ a.val ≤ b.val := by
  rw [val_eq_amant a b, val_eq_bmant a b]
  unfold leb
  rw [mul_le_mul_right (zpow_min_pos a b)]
  simp [Int.cast_le]

theorem gtb_iff (a b : Dec) : gtb a b = true ↔ b.val < a.val := by
  rw [val_eq_amant a b, val_eq_bmant a b]
  unfold gtb
  rw [mul_lt_mul_right (zpow_min_pos a b)]
  simp [Int.cast_lt]

theorem geb_iff (a b : Dec) : geb a b = true ↔ b.val ≤ a.val := by
  rw [val_eq_amant a b, val_eq_bmant a b]
  unfold geb
  rw [mul_le_mul_right (zpow_min_pos a b)]
  simp [Int.cast_le]

theorem eqb_iff (a b : Dec) : eqb a b = true ↔ a.val = b.val := by
  rw [val_eq_amant a b, val_eq_bmant a b]
  unfold eqb
  constructor
  · intro h
    simp only [decide_eq_true_eq] at h
    rw [h]
  · intro h
    have := mul_right_cancel₀ (ne_of_gt (zpow_min_pos a b)) h
    simp only [decide_eq_true_eq]
    exact_mod_cast this

theorem sub_val (a b : Dec) : (sub a b).val = a.val - b.val := by
  rw [val_eq_amant a b, val_eq_bmant a b]
  unfold sub val
  simp only
  push_cast
  ring

theorem isPos_iff (d : Dec) : isPos d = true ↔ 0 < d.val := by
  unfold isPos val
  constructor
  · intro h
    simp only [decide_eq_true_eq] at h
    exact mul_pos (by exact_mod_cast h) (zpow_pos (by norm_num) _)
  · intro h
    simp only [decide_eq_true_eq]
    by_contra hc
    push_neg at hc
    have : (d.m : ℚ) ≤ 0 := by exact_mod_cast hc
    nlinarith [zpow_pos (show (0:ℚ) < 10 by norm_num) d.e]

theorem isZero_iff (d : Dec) : isZero d = true ↔ d.val = 0 := by
  unfold isZero val
  constructor
  · intro h
    simp only [decide_eq_true_eq] at h
    rw [h]; simp
  · intro h
    simp only [decide_eq_true_eq]
    rcases mul_eq_zero.mp h with h' | h'
    · exact_mod_cast h'
    · exact absurd h' (ne_of_gt (zpow_pos (by norm_num) _))

theorem sub_self_not_isPos (a : Dec) : isPos (sub a a) = false := by
  unfold isPos sub amant bmant
  simp

/-! ### Parsing decimal strings -/

/-- The character for a single decimal digit. -/
def digitChar (d : ℕ) : Char := Char.ofNat (48 + d)

/-- The numeric value of a decimal digit character, if it is one. -/
def digVal (c : Char) : Option ℕ :=
  if 48 ≤ c.toNat ∧ c.toNat ≤ 57 then some (c.toNat - 48) else none

/-- Read a run of decimal digit characters (most significant first). -/
def readDigits : List Char → Option (List ℕ)
  | [] => some []
  | c :: cs => do
      let d ← digVal c
      let ds ← readDigits cs
      some (d :: ds)

/-- The natural number denoted by a big-endian digit list. -/
def natOfDigitsBE (l : List ℕ) : ℕ := Nat.ofDigits 10 l.reverse

/-- Parse an unsigned decimal character sequence: digits with an optional
fractional part after a point, yielding a mantissa and an exponent. -/
def parseUnsigned (u : List Char) : Option (ℕ × Int) :=
  match u.dropWhile (fun c => c ≠ '.') with
  | [] =>
      if u.takeWhile (fun c => c ≠ '.') = [] then none else
      (readDigits (u.takeWhile (fun c => c ≠ '.'))).map (fun di => (natOfDigitsBE di, 0))
  | _ :: fp =>
      if u.takeWhile (fun c => c ≠ '.') = [] ∨ fp = [] then none else
      (readDigits (u.takeWhile (fun c => c ≠ '.'))).bind (fun di =>
        (readDigits fp).map (fun df =>
          (natOfDigitsBE (di ++ df), -(fp.length : Int))))

/-- Parse an optional minus sign followed by an unsigned decimal (spec §4.1). -/
def parseChars (cs : List Char) : Option Dec :=
  let neg : Bool := decide (cs.head? = some '-')
  let u := if neg then cs.tail else cs
  (parseUnsigned u).map (fun p => ⟨if neg then -(p.1 : Int) else (p.1 : Int), p.2⟩)

/-- `new Big(s)`: parse a decimal string. -/
def parseDec (s : String) : Option Dec := parseChars s.data

/-! ### Canonical serialization -/

/-- Strip factors of ten from a mantissa, bumping the exponent. -/
def stripTens (n : ℕ) (e : Int) : ℕ × Int :=
  if h : n % 10 = 0 ∧ n ≠ 0 then stripTens (n / 10) (e + 1) else (n, e)
termination_by n
decreasing_by exact Nat.div_lt_self (Nat.pos_of_ne_zero h.2) (by norm_num)

/-- Normal form of a decimal: zero is `⟨0, 0⟩`, otherwise the mantissa is not
divisible by ten. -/
def norm (d : Dec) : Dec :=
  if d.m = 0 then ⟨0, 0⟩
  else
    let p := stripTens d.m.natAbs d.e
    ⟨if d.m < 0 then -(p.1 : Int) else (p.1 : Int), p.2⟩

/-- The big-endian digit characters of a natural number (empty for zero). -/
def natDigits (n : ℕ) : List Char := ((Nat.digits 10 n).reverse).map digitChar

/-- Render a normalized positive mantissa and exponent as decimal characters. -/
def renderPos (n : ℕ) (e : Int) : List Char :=
  let ds := natDigits n
  if 0 ≤ e then ds ++ List.replicate e.toNat '0'
  else
    let k := (-e).toNat
    if k < ds.length then ds.take (ds.length - k) ++ '.' :: ds.drop (ds.length - k)
    else '0' :: '.' :: (List.replicate (k - ds.length) '0' ++ ds)

/-- `Big.toString`: canonical decimal serialization (no superfluous trailing
zeros, no trailing point). -/
def toString (d : Dec) : String :=
  let d' := norm d
  if d'.m = 0 then "0"
  else if d'.m < 0 then ⟨'-' :: renderPos d'.m.natAbs d'.e⟩
  else ⟨renderPos d'.m.natAbs d'.e⟩

/-- A decimal-digit character. -/
def isDig (c : Char) : Bool := 48 ≤ c.toNat ∧ c.toNat ≤ 57

/-- Canonical form of an integer part: "0" or digits with no leading zero. -/
def intPartOK (ip : List Char) : Bool :=
  decide (ip = ['0']) ||
    (decide (ip ≠ []) && ip.all isDig && decide (ip.head? ≠ some '0'))

/-- Canonical form of an unsigned decimal: an integer part without leading
zeros (or exactly "0"), and an optional fractional part that is nonempty and
does not end in zero. -/
def UnsignedCanon (u : List Char) : Bool :=
  match u.dropWhile (fun c => c ≠ '.') with
  | [] => intPartOK (u.takeWhile (fun c => c ≠ '.'))
  | _ :: fp =>
      intPartOK (u.takeWhile (fun c => c ≠ '.')) &&
        decide (fp ≠ []) && fp.all isDig && decide (fp.getLast? ≠ some '0')

/-- The canonical-form predicate of spec §4.1: an optional sign, an integer
part without leading zeros (or exactly "0"), and an optional fractional part
that is nonempty and does not end in zero; "-0" is excluded. -/
def IsCanonicalChars (cs : List Char) : Bool :=
  if decide (cs.head? = some '-') then UnsignedCanon cs.tail && decide (cs.tail ≠ ['0'])
  else UnsignedCanon cs

/-- Canonical-form predicate on strings. -/
def IsCanonical (s : String) : Bool := IsCanonicalChars s.data

/-! ### Digit-level facts -/

theorem digVal_digitChar : ∀ d, d < 10 → digVal (digitChar d) = some d := by decide

theorem digitChar_isDig : ∀ d, d < 10 → isDig (digitChar d) = true := by decide

theorem digitChar_ne_dot : ∀ d, d < 10 → digitChar d ≠ '.' := by decide

theorem digitChar_ne_minus : ∀ d, d < 10 → digitChar d ≠ '-' := by decide

theorem digitChar_eq_zero_iff : ∀ d, d < 10 → ((digitChar d = '0') ↔ d = 0) := by decide

theorem natDigits_lt (n : ℕ) : ∀ d ∈ (Nat.digits 10 n).reverse, d < 10 := by
  intro d hd
  exact Nat.digits_lt_base (by norm_num) (List.mem_reverse.mp hd)

theorem natDigits_no_dot (n : ℕ) : ∀ c ∈ natDigits n, c ≠ '.' := by
  intro c hc
  unfold natDigits at hc
  obtain ⟨d, hd, rfl⟩ := List.mem_map.mp hc
  exact digitChar_ne_dot d (natDigits_lt n d hd)

theorem natDigits_isDig (n : ℕ) : ∀ c ∈ natDigits n, isDig c = true := by
  intro c hc
  unfold natDigits at hc
  obtain ⟨d, hd, rfl⟩ := List.mem_map.mp hc
  exact digitChar_isDig d (natDigits_lt n d hd)

theorem natDigits_ne_nil {n : ℕ} (h : n ≠ 0) : natDigits n ≠ [] := by
  unfold natDigits
  simp [Nat.digits_ne_nil_iff_ne_zero, h]

theorem natDigits_head? {n : ℕ} (h : n ≠ 0) :
    ∃ d, d < 10 ∧ d ≠ 0 ∧ (natDigits n).head? = some (digitChar d) := by
  unfold natDigits
  have hne : Nat.digits 10 n ≠ [] := Nat.digits_ne_nil_iff_ne_zero.mpr h
  refine ⟨(Nat.digits 10 n).getLast hne, ?_, ?_, ?_⟩
  · exact Nat.digits_lt_base (by norm_num) (List.getLast_mem hne)
  · exact Nat.getLast_digit_ne_zero 10 h
  · rw [List.head?_map, List.head?_reverse, List.getLast?_eq_getLast _ hne]
    rfl

theorem natDigits_getLast? {n : ℕ} (h : n ≠ 0) :
    (natDigits n).getLast? = some (digitChar (n % 10)) := by
  unfold natDigits
  rw [List.getLast?_map, List.getLast?_reverse]
  rw [Nat.digits_def' (by norm_num : 1 < 10) (Nat.pos_of_ne_zero h)]
  simp

/-! ### Digit-list reading and evaluation -/

theorem readDigits_append (a b : List Char) :
    readDigits (a ++ b) =
      (readDigits a).bind (fun da => (readDigits b).map (fun db => da ++ db)) := by
  induction a with
  | nil => simp [readDigits]
  | cons c cs ih =>
      cases hc : digVal c with
      | none => simp [readDigits, hc]
      | some d =>
          cases hcs : readDigits cs with
          | none => simp [readDigits, hc, hcs, ih]
          | some ds =>
              cases hb : readDigits b with
              | none => simp [readDigits, hc, hcs, hb, ih]
              | some db => simp [readDigits, hc, hcs, hb, ih]

theorem readDigits_map_digitChar (l : List ℕ) (h : ∀ d ∈ l, d < 10) :
    readDigits (l.map digitChar) = some l := by
  induction l with
  | nil => simp [readDigits]
  | cons d ds ih =>
      simp only [List.map_cons, readDigits]
      rw [digVal_digitChar d (h d (by simp))]
      rw [ih (fun x hx => h x (by simp [hx]))]
      rfl

theorem readDigits_replicate_zero (k : ℕ) :
    readDigits (List.replicate k '0') = some (List.replicate k 0) := by
  have h0 : digitChar 0 = '0' := by decide
  have : List.replicate k '0' = (List.replicate k 0).map digitChar := by
    rw [List.map_replicate, h0]
  rw [this, readDigits_map_digitChar]
  intro d hd
  rw [List.eq_of_mem_replicate hd]
  norm_num

theorem natOfDigitsBE_append (a b : List ℕ) :
    natOfDigitsBE (a ++ b) = natOfDigitsBE a * 10 ^ b.length + natOfDigitsBE b := by
  unfold natOfDigitsBE
  rw [List.reverse_append, Nat.ofDigits_append, List.length_reverse]
  ring

theorem natOfDigitsBE_replicate_zero (k : ℕ) :
    natOfDigitsBE (List.replicate k 0) = 0 := by
  induction k with
  | zero => rfl
  | succ j ih =>
      have : List.replicate (j + 1) 0 = List.replicate j 0 ++ [0] := by
        rw [← List.replicate_succ']
      rw [this, natOfDigitsBE_append, ih]
      simp [natOfDigitsBE, Nat.ofDigits]

theorem natOfDigitsBE_digits (n : ℕ) :
    natOfDigitsBE ((Nat.digits 10 n).reverse) = n := by
  unfold natOfDigitsBE
  rw [List.reverse_reverse, Nat.ofDigits_digits]

/-! ### Normal forms -/

theorem stripTens_spec (n : ℕ) (e : Int) (h : n ≠ 0) :
    (stripTens n e).1 ≠ 0 ∧ (stripTens n e).1 % 10 ≠ 0 ∧
      ((stripTens n e).1 : ℚ) * (10 : ℚ) ^ (stripTens n e).2 = (n : ℚ) * (10 : ℚ) ^ e := by
  induction n using Nat.strong_induction_on generalizing e with
  | _ n ih =>
      rw [stripTens]
      by_cases hc : n % 10 = 0 ∧ n ≠ 0
      · rw [dif_pos hc]
        have hdvd : 10 ∣ n := Nat.dvd_of_mod_eq_zero hc.1
        have hn10 : n / 10 ≠ 0 := by
          intro h0
          obtain ⟨c, hcn⟩ := hdvd
          omega
        have hlt : n / 10 < n := Nat.div_lt_self (Nat.pos_of_ne_zero h) (by norm_num)
        obtain ⟨h1, h2, h3⟩ := ih (n / 10) hlt (e + 1) hn10
        refine ⟨h1, h2, ?_⟩
        rw [h3]
        obtain ⟨c, hcn⟩ := hdvd
        subst hcn
        rw [Nat.mul_div_cancel_left c (by norm_num : 0 < 10)]
        push_cast
        rw [zpow_add₀ (by norm_num : (10:ℚ) ≠ 0)]
        ring
      · rw [dif_neg hc]
        refine ⟨h, ?_, rfl⟩
        intro hmod
        exact hc ⟨hmod, h⟩

/-- Normalization predicate: zero is `⟨0, 0⟩`, nonzero mantissas are not
divisible by ten. -/
def Normalized (d : Dec) : Prop :=
  (d.m = 0 → d.e = 0) ∧ (d.m ≠ 0 → d.m.natAbs % 10 ≠ 0)

theorem cast_natAbs_q (m : Int) : ((m.natAbs : ℚ)) = |(m : ℚ)| := by
  rw [← Int.cast_natCast, Int.natCast_natAbs, Int.cast_abs]

theorem norm_val (d : Dec) : (norm d).val = d.val := by
  unfold norm
  by_cases h : d.m = 0
  · simp [h, val]
  · simp only [h, if_neg, not_false_iff]
    obtain ⟨h1, h2, h3⟩ := stripTens_spec d.m.natAbs d.e (by simpa using h)
    unfold val
    simp only
    by_cases hneg : d.m < 0
    · simp only [hneg, if_pos]
      push_cast
      rw [neg_mul, h3, cast_natAbs_q, abs_of_neg (by exact_mod_cast hneg : (d.m:ℚ) < 0)]
      ring
    · simp only [hneg, if_neg, not_false_iff]
      push_cast
      rw [h3, cast_natAbs_q,
        abs_of_nonneg (by exact_mod_cast not_lt.mp hneg : (0:ℚ) ≤ (d.m:ℚ))]

theorem norm_normalized (d : Dec) : Normalized (norm d) := by
  unfold norm Normalized
  by_cases h : d.m = 0
  · simp [h]
  · simp only [h, if_neg, not_false_iff]
    obtain ⟨h1, h2, h3⟩ := stripTens_spec d.m.natAbs d.e (by simpa using h)
    by_cases hneg : d.m < 0
    · simp only [hneg, if_pos]
      constructor
      · intro h0
        exact absurd (by omega : (stripTens d.m.natAbs d.e).1 = 0) h1
      · intro _
        simpa using h2
    · simp only [hneg, if_neg, not_false_iff]
      constructor
      · intro h0
        exact absurd (by omega : (stripTens d.m.natAbs d.e).1 = 0) h1
      · intro _
        simpa using h2

theorem norm_m_eq_zero_iff (d : Dec) : (norm d).m = 0 ↔ d.m = 0 := by
  unfold norm
  by_cases h : d.m = 0
  · simp [h]
  · simp only [h, if_neg, not_false_iff, iff_false]
    obtain ⟨h1, _, _⟩ := stripTens_spec d.m.natAbs d.e (by simpa using h)
    by_cases hneg : d.m < 0 <;> simp [hneg] <;> exact_mod_cast h1

theorem val_eq_zero_iff (d : Dec) : d.val = 0 ↔ d.m = 0 := by
  unfold val
  constructor
  · intro h
    rcases mul_eq_zero.mp h with h' | h'
    · exact_mod_cast h'
    · exact absurd h' (ne_of_gt (zpow_pos (by norm_num) _))
  · intro h
    rw [h]; simp

/-! ### Splitting character lists at the point -/

theorem takeWhile_no_dot {l : List Char} (h : ∀ c ∈ l, c ≠ '.') :
    l.takeWhile (fun c => c ≠ '.') = l ∧ l.dropWhile (fun c => c ≠ '.') = [] := by
  induction l with
  | nil => simp
  | cons c cs ih =>
      have hc : c ≠ '.' := h c (by simp)
      have ih' := ih (fun x hx => h x (List.mem_cons_of_mem _ hx))
      constructor
      · rw [List.takeWhile_cons, if_pos (by simp [hc]), ih'.1]
      · rw [List.dropWhile_cons, if_pos (by simp [hc]), ih'.2]

theorem takeWhile_append_dot {A B : List Char} (h : ∀ c ∈ A, c ≠ '.') :
    (A ++ '.' :: B).takeWhile (fun c => c ≠ '.') = A ∧
    (A ++ '.' :: B).dropWhile (fun c => c ≠ '.') = '.' :: B := by
  induction A with
  | nil =>
      constructor
      · rw [List.nil_append, List.takeWhile_cons, if_neg (by simp)]
      · rw [List.nil_append, List.dropWhile_cons, if_neg (by simp)]
  | cons c cs ih =>
      have hc : c ≠ '.' := h c (by simp)
      have ih' := ih (fun x hx => h x (List.mem_cons_of_mem _ hx))
      constructor
      · rw [List.cons_append, List.takeWhile_cons, if_pos (by simp [hc]), ih'.1]
      · rw [List.cons_append, List.dropWhile_cons, if_pos (by simp [hc]), ih'.2]

theorem head?_take {l : List Char} {j : ℕ} (hj : 0 < j) :
    (l.take j).head? = l.head? := by
  cases l with
  | nil => simp
  | cons c cs =>
      cases j with
      | zero => omega
      | succ j' => simp

/-! ### Parsing back a rendered decimal -/

theorem renderPos_cases (n : ℕ) (e : Int) :
    (0 ≤ e ∧ renderPos n e = natDigits n ++ List.replicate e.toNat '0') ∨
    (e < 0 ∧ (-e).toNat < (natDigits n).length ∧
      renderPos n e = (natDigits n).take ((natDigits n).length - (-e).toNat) ++
        '.' :: (natDigits n).drop ((natDigits n).length - (-e).toNat)) ∨
    (e < 0 ∧ (natDigits n).length ≤ (-e).toNat ∧
      renderPos n e = '0' :: '.' ::
        (List.replicate ((-e).toNat - (natDigits n).length) '0' ++ natDigits n)) := by
  unfold renderPos
  by_cases he : 0 ≤ e
  · exact Or.inl ⟨he, by rw [if_pos he]⟩
  · rw [if_neg he]
    by_cases hk : (-e).toNat < (natDigits n).length
    · exact Or.inr (Or.inl ⟨by omega, hk, by rw [if_pos hk]⟩)
    · exact Or.inr (Or.inr ⟨by omega, by omega, by rw [if_neg hk]⟩)

theorem parseUnsigned_renderPos (n : ℕ) (e : Int) (hn : n ≠ 0) :
    ∃ p : ℕ × Int, parseUnsigned (renderPos n e) = some p ∧
      ((p.1 : ℚ) * (10 : ℚ) ^ p.2 = (n : ℚ) * (10 : ℚ) ^ e) := by
  have hlt := natDigits_lt n
  have hdl : natDigits n = ((Nat.digits 10 n).reverse).map digitChar := rfl
  have hdsne : natDigits n ≠ [] := natDigits_ne_nil hn
  rcases renderPos_cases n e with ⟨he, hr⟩ | ⟨he, hk, hr⟩ | ⟨he, hk, hr⟩
  · -- no fractional part
    have hnodot : ∀ c ∈ natDigits n ++ List.replicate e.toNat '0', c ≠ '.' := by
      intro c hc
      rcases List.mem_append.mp hc with h | h
      · exact natDigits_no_dot n c h
      · rw [List.eq_of_mem_replicate h]; decide
    obtain ⟨ht, hd⟩ := takeWhile_no_dot hnodot
    have hread : readDigits (natDigits n ++ List.replicate e.toNat '0') =
        some ((Nat.digits 10 n).reverse ++ List.replicate e.toNat 0) := by
      rw [readDigits_append, hdl, readDigits_map_digitChar _ (natDigits_lt n),
        readDigits_replicate_zero]
      rfl
    have hval : natOfDigitsBE ((Nat.digits 10 n).reverse ++ List.replicate e.toNat 0) =
        n * 10 ^ e.toNat := by
      rw [natOfDigitsBE_append, natOfDigitsBE_digits, natOfDigitsBE_replicate_zero,
        List.length_replicate]
      omega
    refine ⟨(n * 10 ^ e.toNat, 0), ?_, ?_⟩
    · unfold parseUnsigned
      rw [hr, hd, ht]
      simp [hdsne, hread, hval]
    · simp only
      rw [zpow_zero, mul_one]
      push_cast
      rw [← zpow_natCast (10:ℚ) e.toNat, Int.toNat_of_nonneg he]
  · -- point inside the digits
    set j := (natDigits n).length - (-e).toNat with hj
    have htknodot : ∀ c ∈ (natDigits n).take j, c ≠ '.' :=
      fun c hc => natDigits_no_dot n c (List.take_subset _ _ hc)
    obtain ⟨ht, hd⟩ := takeWhile_append_dot (B := (natDigits n).drop j) htknodot
    have hjpos : 0 < j := by
      have : 0 < (natDigits n).length := List.length_pos.mpr hdsne
      omega
    have hdiglt : ∀ d ∈ (Nat.digits 10 n).reverse, d < 10 := natDigits_lt n
    have hreadtk : readDigits ((natDigits n).take j) =
        some (((Nat.digits 10 n).reverse).take j) := by
      rw [hdl, ← List.map_take]
      exact readDigits_map_digitChar _ (fun d hd' => hdiglt d (List.take_subset _ _ hd'))
    have hreaddp : readDigits ((natDigits n).drop j) =
        some (((Nat.digits 10 n).reverse).drop j) := by
      rw [hdl, ← List.map_drop]
      exact readDigits_map_digitChar _ (fun d hd' => hdiglt d (List.drop_subset _ _ hd'))
    have hlen : ((natDigits n).drop j).length = (-e).toNat := by
      rw [List.length_drop]
      omega
    have hipne : (natDigits n).take j ≠ [] := by
      intro hx
      rw [List.take_eq_nil_iff] at hx
      rcases hx with hx | hx
      · omega
      · exact hdsne hx
    have hfpne : (natDigits n).drop j ≠ [] := by
      intro hx
      have h0 : ((natDigits n).drop j).length = 0 := by rw [hx]; rfl
      rw [hlen] at h0
      omega
    have hval : natOfDigitsBE (((Nat.digits 10 n).reverse).take j ++
        ((Nat.digits 10 n).reverse).drop j) = n := by
      rw [List.take_append_drop, natOfDigitsBE_digits]
    have hexp : -((((natDigits n).drop j)).length : Int) = e := by
      rw [hlen]
      omega
    refine ⟨(n, e), ?_, by simp⟩
    unfold parseUnsigned
    rw [hr, hd, ht]
    simp only [hipne, hfpne, hreadtk, hreaddp]
    simp
    refine ⟨natOfDigitsBE_digits n, ?_⟩
    omega
  · -- leading "0."
    have hfpne : (List.replicate ((-e).toNat - (natDigits n).length) '0' ++ natDigits n) ≠ [] := by
      simp [hdsne]
    have hreadfp : readDigits (List.replicate ((-e).toNat - (natDigits n).length) '0' ++ natDigits n) =
        some (List.replicate ((-e).toNat - (natDigits n).length) 0 ++ (Nat.digits 10 n).reverse) := by
      rw [readDigits_append, readDigits_replicate_zero, hdl,
        readDigits_map_digitChar _ (natDigits_lt n)]
      rfl
    have h00 : natOfDigitsBE [0] = 0 := rfl
    have hval : natOfDigitsBE (([0] : List ℕ) ++ (List.replicate ((-e).toNat - (natDigits n).length) 0 ++
        (Nat.digits 10 n).reverse)) = n := by
      rw [natOfDigitsBE_append, natOfDigitsBE_append, natOfDigitsBE_replicate_zero,
        natOfDigitsBE_digits, h00]
      simp
    have hexp : -(((List.replicate ((-e).toNat - (natDigits n).length) '0' ++
        natDigits n)).length : Int) = e := by
      rw [List.length_append, List.length_replicate]
      have : (natDigits n).length ≤ (-e).toNat := hk
      omega
    refine ⟨(n, e), ?_, by simp⟩
    unfold parseUnsigned
    rw [hr]
    rw [show List.dropWhile (fun c => decide (c ≠ '.'))
        ('0' :: '.' :: (List.replicate ((-e).toNat - (natDigits n).length) '0' ++ natDigits n)) =
        '.' :: (List.replicate ((-e).toNat - (natDigits n).length) '0' ++ natDigits n) by
      rw [List.dropWhile_cons, if_pos (by decide), List.dropWhile_cons, if_neg (by decide)]]
    rw [show List.takeWhile (fun c => decide (c ≠ '.'))
        ('0' :: '.' :: (List.replicate ((-e).toNat - (natDigits n).length) '0' ++ natDigits n)) =
        ['0'] by
      rw [List.takeWhile_cons, if_pos (by decide), List.takeWhile_cons, if_neg (by decide)]]
    simp [hfpne, show readDigits ['0'] = some [0] by decide, hreadfp]
    constructor
    · simpa using hval
    · omega

theorem renderPos_head?_digit (n : ℕ) (e : Int) (hn : n ≠ 0) :
    ∃ d, d < 10 ∧ d ≠ 0 ∧ (renderPos n e).head? = some (digitChar d) ∨
      (renderPos n e).head? = some '0' := by
  obtain ⟨d, hd10, hd0, hh⟩ := natDigits_head? hn
  have hdsne : natDigits n ≠ [] := natDigits_ne_nil hn
  rcases renderPos_cases n e with ⟨he, hr⟩ | ⟨he, hk, hr⟩ | ⟨he, hk, hr⟩
  · exact ⟨d, Or.inl ⟨hd10, hd0, by
      rw [hr, List.head?_append_of_ne_nil _ hdsne, hh]⟩⟩
  · refine ⟨d, Or.inl ⟨hd10, hd0, ?_⟩⟩
    rw [hr]
    have hjpos : 0 < (natDigits n).length - (-e).toNat := by
      have : 0 < (natDigits n).length := List.length_pos.mpr hdsne
      omega
    have htkne : (natDigits n).take ((natDigits n).length - (-e).toNat) ≠ [] := by
      intro hx
      rw [List.take_eq_nil_iff] at hx
      rcases hx with hx | hx
      · omega
      · exact hdsne hx
    rw [List.head?_append_of_ne_nil _ htkne, head?_take hjpos, hh]
  · exact ⟨0, Or.inr (by rw [hr]; rfl)⟩

theorem renderPos_head?_ne_minus (n : ℕ) (e : Int) (hn : n ≠ 0) :
    (renderPos n e).head? ≠ some '-' := by
  obtain ⟨d, h⟩ := renderPos_head?_digit n e hn
  rcases h with ⟨hd10, _, hh⟩ | hh
  · rw [hh]
    intro hx
    exact digitChar_ne_minus d hd10 (by injection hx)
  · rw [hh]
    intro hx
    injection hx with hx
    exact absurd hx (by decide)

theorem renderPos_ne_singleton_zero (n : ℕ) (e : Int) (hn : n ≠ 0) :
    renderPos n e ≠ ['0'] := by
  have hdsne : natDigits n ≠ [] := natDigits_ne_nil hn
  obtain ⟨d, hd10, hd0, hh⟩ := natDigits_head? hn
  rcases renderPos_cases n e with ⟨he, hr⟩ | ⟨he, hk, hr⟩ | ⟨he, hk, hr⟩
  · rw [hr]
    intro hx
    have : (natDigits n ++ List.replicate e.toNat '0').head? = some '0' := by
      rw [hx]; rfl
    rw [List.head?_append_of_ne_nil _ hdsne, hh] at this
    injection this with this
    exact hd0 ((digitChar_eq_zero_iff d hd10).mp this)
  · rw [hr]
    intro hx
    have hlen : ((natDigits n).take ((natDigits n).length - (-e).toNat) ++
        '.' :: (natDigits n).drop ((natDigits n).length - (-e).toNat)).length = 1 := by
      rw [hx]; rfl
    rw [List.length_append] at hlen
    simp at hlen
    have : ((natDigits n).drop ((natDigits n).length - (-e).toNat)).length =
        min (-e).toNat (natDigits n).length := by
      rw [List.length_drop]
      omega
    omega
  · rw [hr]
    intro hx
    injection hx with _ hx
    exact absurd hx (by simp)

theorem unsignedCanon_renderPos (n : ℕ) (e : Int) (hn : n ≠ 0) (hmod : n % 10 ≠ 0) :
    UnsignedCanon (renderPos n e) = true := by
  have hdsne : natDigits n ≠ [] := natDigits_ne_nil hn
  obtain ⟨dh, hd10, hd0, hh⟩ := natDigits_head? hn
  have hlast := natDigits_getLast? hn
  have hlast0 : digitChar (n % 10) ≠ '0' := by
    intro hx
    exact hmod ((digitChar_eq_zero_iff _ (Nat.mod_lt n (by norm_num))).mp hx)
  rcases renderPos_cases n e with ⟨he, hr⟩ | ⟨he, hk, hr⟩ | ⟨he, hk, hr⟩
  · -- integer rendering: single run of digits
    have hnodot : ∀ c ∈ natDigits n ++ List.replicate e.toNat '0', c ≠ '.' := by
      intro c hc
      rcases List.mem_append.mp hc with h | h
      · exact natDigits_no_dot n c h
      · rw [List.eq_of_mem_replicate h]; decide
    obtain ⟨ht, hd⟩ := takeWhile_no_dot hnodot
    unfold UnsignedCanon
    rw [hr, hd, ht]
    unfold intPartOK
    have hall : (natDigits n ++ List.replicate e.toNat '0').all isDig = true := by
      rw [List.all_eq_true]
      intro c hc
      rcases List.mem_append.mp hc with h | h
      · exact natDigits_isDig n c h
      · rw [List.eq_of_mem_replicate h]; decide
    have hhd : (natDigits n ++ List.replicate e.toNat '0').head? = some (digitChar dh) := by
      rw [List.head?_append_of_ne_nil _ hdsne, hh]
    simp [hall, hhd, hdsne]
    right
    intro hx
    exact hd0 ((digitChar_eq_zero_iff dh hd10).mp hx)
  · -- point inside the digits
    set j := (natDigits n).length - (-e).toNat with hj
    have htknodot : ∀ c ∈ (natDigits n).take j, c ≠ '.' :=
      fun c hc => natDigits_no_dot n c (List.take_subset _ _ hc)
    obtain ⟨ht, hd⟩ := takeWhile_append_dot (B := (natDigits n).drop j) htknodot
    have hjpos : 0 < j := by
      have : 0 < (natDigits n).length := List.length_pos.mpr hdsne
      omega
    have hipne : (natDigits n).take j ≠ [] := by
      intro hx
      rw [List.take_eq_nil_iff] at hx
      rcases hx with hx | hx
      · omega
      · exact hdsne hx
    have hfpne : (natDigits n).drop j ≠ [] := by
      intro hx
      have h0 : ((natDigits n).drop j).length = 0 := by rw [hx]; rfl
      rw [List.length_drop] at h0
      omega
    unfold UnsignedCanon
    rw [hr, hd, ht]
    unfold intPartOK
    have halltk : ((natDigits n).take j).all isDig = true := by
      rw [List.all_eq_true]
      exact fun c hc => natDigits_isDig n c (List.take_subset _ _ hc)
    have halldp : ((natDigits n).drop j).all isDig = true := by
      rw [List.all_eq_true]
      exact fun c hc => natDigits_isDig n c (List.drop_subset _ _ hc)
    have hhd : ((natDigits n).take j).head? = some (digitChar dh) := by
      rw [head?_take hjpos, hh]
    have hlastdp : ((natDigits n).drop j).getLast? = some (digitChar (n % 10)) := by
      rw [← hlast]
      conv_rhs => rw [← List.take_append_drop j (natDigits n)]
      rw [List.getLast?_append_of_ne_nil _ hfpne]
    simp [halltk, halldp, hhd, hipne, hfpne, hlastdp]
    refine ⟨Or.inr ?_, fun hx => hlast0 hx⟩
    intro hx
    exact hd0 ((digitChar_eq_zero_iff dh hd10).mp hx)
  · -- leading "0."
    unfold UnsignedCanon
    rw [hr]
    rw [show List.dropWhile (fun c => decide (c ≠ '.'))
        ('0' :: '.' :: (List.replicate ((-e).toNat - (natDigits n).length) '0' ++ natDigits n)) =
        '.' :: (List.replicate ((-e).toNat - (natDigits n).length) '0' ++ natDigits n) by
      rw [List.dropWhile_cons, if_pos (by decide), List.dropWhile_cons, if_neg (by decide)]]
    rw [show List.takeWhile (fun c => decide (c ≠ '.'))
        ('0' :: '.' :: (List.replicate ((-e).toNat - (natDigits n).length) '0' ++ natDigits n)) =
        ['0'] by
      rw [List.takeWhile_cons, if_pos (by decide), List.takeWhile_cons, if_neg (by decide)]]
    unfold intPartOK
    have hfpne : (List.replicate ((-e).toNat - (natDigits n).length) '0' ++ natDigits n) ≠ [] := by
      simp [hdsne]
    have hall : (List.replicate ((-e).toNat - (natDigits n).length) '0' ++ natDigits n).all isDig
        = true := by
      rw [List.all_eq_true]
      intro c hc
      rcases List.mem_append.mp hc with h | h
      · rw [List.eq_of_mem_replicate h]; decide
      · exact natDigits_isDig n c h
    have hlastfp : (List.replicate ((-e).toNat - (natDigits n).length) '0' ++
        natDigits n).getLast? = some (digitChar (n % 10)) := by
      rw [List.getLast?_append_of_ne_nil _ hdsne, hlast]
    simp [hfpne, hall, hlastfp]
    exact fun hx => hlast0 hx

theorem natAbs_ne_zero_of_ne {m : Int} (h : m ≠ 0) : m.natAbs ≠ 0 := by
  simpa using h

theorem parseChars_not_minus {cs : List Char} (h : cs.head? ≠ some '-') :
    parseChars cs = (parseUnsigned cs).map (fun p => ⟨(p.1 : Int), p.2⟩) := by
  simp [parseChars, h]

theorem parseChars_minus (cs : List Char) :
    parseChars ('-' :: cs) = (parseUnsigned cs).map (fun p => ⟨-(p.1 : Int), p.2⟩) := by
  simp [parseChars]

/-- The canonical serialization of any decimal satisfies the canonical-form
predicate: no leading zeros, no superfluous trailing zeros, no trailing
point, no "-0". -/
theorem toString_canonical (d : Dec) : IsCanonical (Dec.toString d) = true := by
  unfold toString IsCanonical
  have hnorm := norm_normalized d
  by_cases hz : (norm d).m = 0
  · rw [if_pos hz]
    decide
  · rw [if_neg hz]
    have hmod : (norm d).m.natAbs % 10 ≠ 0 := hnorm.2 hz
    have hnabs : (norm d).m.natAbs ≠ 0 := natAbs_ne_zero_of_ne hz
    by_cases hneg : (norm d).m < 0
    · rw [if_pos hneg]
      show IsCanonicalChars ('-' :: renderPos (norm d).m.natAbs (norm d).e) = true
      unfold IsCanonicalChars
      rw [if_pos (by simp)]
      simp only [List.tail_cons]
      rw [unsignedCanon_renderPos _ _ hnabs hmod]
      simp [renderPos_ne_singleton_zero _ _ hnabs]
    · rw [if_neg hneg]
      show IsCanonicalChars (renderPos (norm d).m.natAbs (norm d).e) = true
      unfold IsCanonicalChars
      rw [if_neg (by simpa using renderPos_head?_ne_minus _ (norm d).e hnabs)]
      exact unsignedCanon_renderPos _ _ hnabs hmod

/-- Serialize-then-parse restores the value of any decimal. -/
theorem parseDec_toString (d : Dec) :
    ∃ d', parseDec (Dec.toString d) = some d' ∧ d'.val = d.val := by
  have hnorm := norm_normalized d
  have hnval := norm_val d
  by_cases hz : (norm d).m = 0
  · refine ⟨⟨0, 0⟩, ?_, ?_⟩
    · unfold toString
      rw [if_pos hz]
      decide
    · rw [← hnval]
      unfold val
      rw [hz]
      simp
  · have hnabs : (norm d).m.natAbs ≠ 0 := natAbs_ne_zero_of_ne hz
    obtain ⟨p, hp, hpval⟩ := parseUnsigned_renderPos (norm d).m.natAbs (norm d).e hnabs
    by_cases hneg : (norm d).m < 0
    · refine ⟨⟨-(p.1 : Int), p.2⟩, ?_, ?_⟩
      · unfold toString
        rw [if_neg hz, if_pos hneg]
        show parseChars ('-' :: renderPos (norm d).m.natAbs (norm d).e) = _
        rw [parseChars_minus, hp]
        rfl
      · show ((-(p.1 : Int) : Int) : ℚ) * (10:ℚ) ^ p.2 = d.val
        rw [← hnval]
        unfold val
        push_cast
        rw [neg_mul, hpval, cast_natAbs_q, abs_of_neg (by exact_mod_cast hneg : ((norm d).m:ℚ) < 0)]
        ring
    · refine ⟨⟨(p.1 : Int), p.2⟩, ?_, ?_⟩
      · unfold toString
        rw [if_neg hz, if_neg hneg]
        show parseChars (renderPos (norm d).m.natAbs (norm d).e) = _
        rw [parseChars_not_minus (renderPos_head?_ne_minus _ (norm d).e hnabs), hp]
        rfl
      · show (((p.1 : Int) : Int) : ℚ) * (10:ℚ) ^ p.2 = d.val
        rw [← hnval]
        unfold val
        push_cast
        rw [hpval, cast_natAbs_q,
          abs_of_nonneg (by exact_mod_cast not_lt.mp hneg : (0:ℚ) ≤ ((norm d).m:ℚ))]

/-- Uniqueness of normal forms: two normalized decimals with the same value
are structurally equal. -/
theorem normalized_val_inj {a b : Dec} (ha : Normalized a) (hb : Normalized b)
    (h : a.val = b.val) : a = b := by
  by_cases haz : a.m = 0
  · have hbz : b.m = 0 := by
      rw [← val_eq_zero_iff]
      rw [← h, val_eq_zero_iff]
      exact haz
    have he1 := ha.1 haz
    have he2 := hb.1 hbz
    cases a; cases b
    simp_all
  · have hbz : b.m ≠ 0 := by
      intro h0
      exact haz (by rw [← val_eq_zero_iff, h, val_eq_zero_iff]; exact h0)
    -- both nonzero: compare exponents
    wlog hle : a.e ≤ b.e generalizing a b
    · exact (this hb ha h.symm hbz haz (le_of_not_le hle)).symm
    have key : (a.m : ℚ) = (b.m : ℚ) * (10 : ℚ) ^ ((b.e - a.e).toNat) := by
      have h10 : ((10:ℚ) ^ a.e) ≠ 0 := ne_of_gt (zpow_pos (by norm_num) _)
      unfold val at h
      have : (a.m : ℚ) = (b.m : ℚ) * ((10:ℚ) ^ b.e / (10:ℚ) ^ a.e) := by
        field_simp at h ⊢
        linarith [h]
      rw [this, ← zpow_sub₀ (by norm_num : (10:ℚ) ≠ 0)]
      congr 1
      rw [← zpow_natCast (10:ℚ) (b.e - a.e).toNat]
      congr 1
      omega
    have keyz : a.m = b.m * 10 ^ ((b.e - a.e).toNat) := by
      exact_mod_cast key
    by_cases heq : a.e = b.e
    · cases a; cases b
      simp only at heq keyz ⊢
      subst heq
      simp only [Int.sub_self, Int.toNat_zero, pow_zero, mul_one] at keyz
      simp [keyz]
    · exfalso
      have hlt : a.e < b.e := lt_of_le_of_ne hle heq
      have hdvd : (10 : Int) ∣ a.m := by
        rw [keyz]
        exact Dvd.dvd.mul_left (dvd_pow_self 10 (by omega : (b.e - a.e).toNat ≠ 0)) b.m
      have hdvd2 : (10 : ℕ) ∣ a.m.natAbs := by
        have := Int.natAbs_dvd_natAbs.mpr hdvd
        simpa using this
      exact ha.2 haz (by omega)

/-- Serialization depends only on the value. -/
theorem toString_congr {a b : Dec} (h : a.val = b.val) : Dec.toString a = Dec.toString b := by
  have hn : norm a = norm b :=
    normalized_val_inj (norm_normalized a) (norm_normalized b)
      (by rw [norm_val, norm_val, h])
  unfold toString
  rw [hn]

/-- Serialization is value-injective. -/
theorem toString_val_inj {a b : Dec} (h : Dec.toString a = Dec.toString b) :
    a.val = b.val := by
  obtain ⟨da, hpa, hva⟩ := parseDec_toString a
  obtain ⟨db, hpb, hvb⟩ := parseDec_toString b
  rw [h, hpb] at hpa
  injection hpa with hpa
  rw [← hva, ← hvb, hpa]

theorem sub_self_isZero (a : Dec) : isZero (sub a a) = true := by
  unfold isZero sub amant bmant
  simp

theorem min_sel_val (a b : Dec) :
    (if ltb a b = true then a else b).val = min a.val b.val := by
  by_cases h : ltb a b = true
  · rw [if_pos h]
    rw [ltb_iff] at h
    rw [min_eq_left (le_of_lt h)]
  · rw [if_neg h]
    have : ¬ a.val < b.val := fun hc => h ((ltb_iff a b).mpr hc)
    rw [min_eq_right (not_lt.mp this)]

end Dec


/-! ## Book orders, trades, and instrumentation (from `types/trade.ts`) -/

/-- A resting or incoming order (`BookOrder`).  `ts` is the engine-assigned
arrival sequence used for FIFO tie-breaks, and doubles as the identity of the
underlying TS object. -/
structure BookOrder where
  id : String
  account : String
  side : Side
  pair : String
  price : Dec
  remaining : Dec
  ts : ℕ
deriving DecidableEq, Repr

/-- An emitted trade (`Trade`), fields as in the source.  The wall-clock `ts`
field (`Date.now()`) carries no engine semantics and is omitted. -/
structure Trade where
  pair : String
  buyOrderId : String
  sellOrderId : String
  price : String
  amount : String
deriving DecidableEq, Repr

/-- Instrumentation: which order objects (by `ts`) a trade read its fields
from at emission time, with the exact decimal quantity and prices involved.
In TS these are recoverable from the object references inside `match`; no
engine step reads this record. -/
structure TradeAttr where
  buyTs : ℕ
  sellTs : ℕ
  makerTs : ℕ
  takerTs : ℕ
  qty : Dec
  makerPrice : Dec
  takerPrice : Dec
deriving DecidableEq, Repr

/-- One entry of `OrderBook.normalize`. -/
structure SnapEntry where
  id : String
  account : String
  price : String
  remaining : String
deriving DecidableEq, Repr

/-- A book snapshot (`Order` in `types/trade.ts`). -/
structure Snapshot where
  pair : String
  bids : List SnapEntry
  asks : List SnapEntry
deriving DecidableEq, Repr

/-! ## The id-index (JS `Map<string, BookOrder>`) as an association list -/

/-- JS `Map.get`. -/
def idxGet (k : String) (l : List (String × BookOrder)) : Option BookOrder :=
  (l.find? (fun p => p.1 = k)).map Prod.snd

/-- JS `Map.set`: overwrite in place when the key exists, else append. -/
def idxSet (k : String) (v : BookOrder) (l : List (String × BookOrder)) :
    List (String × BookOrder) :=
  if l.any (fun p => p.1 = k) then l.map (fun p => if p.1 = k then (k, v) else p)
  else l ++ [(k, v)]

/-- JS `Map.delete`. -/
def idxDel (k : String) (l : List (String × BookOrder)) : List (String × BookOrder) :=
  l.filter (fun p => p.1 ≠ k)

/-- Instrumentation: the object store pairs every order object ever created
(with its `remaining` kept current) with its initial parsed amount.  This
mirrors the persistence of TS heap objects after removal from the book. -/
def updStore (t : ℕ) (r : Dec) (store : List (BookOrder × Dec)) : List (BookOrder × Dec) :=
  store.map (fun ent => if ent.1.ts = t then ({ent.1 with remaining := r}, ent.2) else ent)

/-! ## The priority queues

Modelled from the spec: the heaps come from the external `heap-js` package
(not under the repository's sources); spec §4.2 pins the contract: `peek`/
`pop` return the best element under the side's comparator, `push` inserts,
`remove` deletes by object identity.  A side is kept as the list of its
resting orders; `extractBest` realizes `peek`+`pop`. -/

/-- Comparator of the bid max-heap (from the `OrderBook` constructor):
highest price first, FIFO by `ts` on equal price.  `bidPrec a b` holds when
`a` strictly precedes `b`. -/
def bidPrec (a b : BookOrder) : Bool :=
  if Dec.eqb a.price b.price then a.ts < b.ts else Dec.gtb a.price b.price

/-- Comparator of the ask min-heap: lowest price first, FIFO by `ts` on equal
price. -/
def askPrec (a b : BookOrder) : Bool :=
  if Dec.eqb a.price b.price then a.ts < b.ts else Dec.ltb a.price b.price

/-- Extract a best element under the comparator together with the rest of the
side (`peek` + `pop` of the heap). -/
def extractBest (p : BookOrder → BookOrder → Bool) :
    List BookOrder → Option (BookOrder × List BookOrder)
  | [] => none
  | o :: rest =>
      match extractBest p rest with
      | none => some (o, [])
      | some (b, r) => if p b o then some (b, o :: r) else some (o, rest)

/-- `Heap.remove(o)`: delete the order object with sequence number `t`. -/
def removeTs (t : ℕ) : List BookOrder → List BookOrder
  | [] => []
  | o :: rest => if o.ts = t then rest else o :: removeTs t rest

/-! ### Comparator facts -/

theorem bidPrec_iff (a b : BookOrder) :
    bidPrec a b = true ↔
      (a.price.val = b.price.val ∧ a.ts < b.ts) ∨ b.price.val < a.price.val := by
  unfold bidPrec
  by_cases h : Dec.eqb a.price b.price = true
  · have hv := (Dec.eqb_iff _ _).mp h
    rw [if_pos h]
    simp [hv]
  · have hv : a.price.val ≠ b.price.val := fun hc => h ((Dec.eqb_iff _ _).mpr hc)
    rw [if_neg h, Dec.gtb_iff]
    simp [hv]

theorem askPrec_iff (a b : BookOrder) :
    askPrec a b = true ↔
      (a.price.val = b.price.val ∧ a.ts < b.ts) ∨ a.price.val < b.price.val := by
  unfold askPrec
  by_cases h : Dec.eqb a.price b.price = true
  · have hv := (Dec.eqb_iff _ _).mp h
    rw [if_pos h]
    simp [hv]
  · have hv : a.price.val ≠ b.price.val := fun hc => h ((Dec.eqb_iff _ _).mpr hc)
    rw [if_neg h, Dec.ltb_iff]
    simp [hv]

theorem bidPrec_false_iff (a b : BookOrder) :
    bidPrec a b = false ↔
      ¬((a.price.val = b.price.val ∧ a.ts < b.ts) ∨ b.price.val < a.price.val) := by
  rw [← bidPrec_iff]
  cases h : bidPrec a b <;> simp

theorem askPrec_false_iff (a b : BookOrder) :
    askPrec a b = false ↔
      ¬((a.price.val = b.price.val ∧ a.ts < b.ts) ∨ a.price.val < b.price.val) := by
  rw [← askPrec_iff]
  cases h : askPrec a b <;> simp

theorem bidPrec_asymm {a b : BookOrder} (h : bidPrec a b = true) : bidPrec b a = false := by
  rw [bidPrec_iff] at h
  rw [bidPrec_false_iff]
  rintro (⟨hp2, ht2⟩ | hp2) <;> rcases h with ⟨hp, ht⟩ | hp <;> first | omega | linarith

theorem askPrec_asymm {a b : BookOrder} (h : askPrec a b = true) : askPrec b a = false := by
  rw [askPrec_iff] at h
  rw [askPrec_false_iff]
  rintro (⟨hp2, ht2⟩ | hp2) <;> rcases h with ⟨hp, ht⟩ | hp <;> first | omega | linarith

theorem bidPrec_negtrans {x b o : BookOrder} (h1 : bidPrec x b = false)
    (h2 : bidPrec b o = false) : bidPrec x o = false := by
  rw [bidPrec_false_iff] at h1 h2 ⊢
  push_neg at h1 h2
  rintro (⟨hp, ht⟩ | hp)
  · have hxb : x.price.val = b.price.val := le_antisymm h1.2 (by linarith [h2.2])
    have hbo : b.price.val = o.price.val := by linarith
    have := h1.1 hxb
    have := h2.1 hbo
    omega
  · linarith [h1.2, h2.2]

theorem askPrec_negtrans {x b o : BookOrder} (h1 : askPrec x b = false)
    (h2 : askPrec b o = false) : askPrec x o = false := by
  rw [askPrec_false_iff] at h1 h2 ⊢
  push_neg at h1 h2
  rintro (⟨hp, ht⟩ | hp)
  · have hxb : x.price.val = b.price.val := le_antisymm (by linarith [h2.2]) h1.2
    have hbo : b.price.val = o.price.val := by linarith
    have := h1.1 hxb
    have := h2.1 hbo
    omega
  · linarith [h1.2, h2.2]

/-- `¬ askPrec x best` forces `best.price ≤ x.price`. -/
theorem askPrec_false_price_le {x best : BookOrder} (h : askPrec x best = false) :
    best.price.val ≤ x.price.val := by
  rw [askPrec_false_iff] at h
  push_neg at h
  exact h.2

/-- `¬ bidPrec x best` forces `x.price ≤ best.price`. -/
theorem bidPrec_false_price_le {x best : BookOrder} (h : bidPrec x best = false) :
    x.price.val ≤ best.price.val := by
  rw [bidPrec_false_iff] at h
  push_neg at h
  exact h.2

/-! ### `extractBest` facts -/

theorem extractBest_eq_none {p : BookOrder → BookOrder → Bool} {l : List BookOrder} :
    extractBest p l = none ↔ l = [] := by
  cases l with
  | nil => simp [extractBest]
  | cons o rest =>
      simp only [extractBest]
      cases h : extractBest p rest with
      | none => simp
      | some br =>
          obtain ⟨b, r⟩ := br
          by_cases hp : p b o = true <;> simp [hp]

theorem extractBest_perm {p : BookOrder → BookOrder → Bool} {l : List BookOrder}
    {b : BookOrder} {r : List BookOrder} (h : extractBest p l = some (b, r)) :
    l.Perm (b :: r) := by
  induction l generalizing b r with
  | nil => simp [extractBest] at h
  | cons o rest ih =>
      simp only [extractBest] at h
      cases hrec : extractBest p rest with
      | none =>
          rw [hrec] at h
          dsimp only at h
          simp only [Option.some.injEq, Prod.mk.injEq] at h
          obtain ⟨hb, hr⟩ := h
          subst hb; subst hr
          rw [extractBest_eq_none.mp hrec]
      | some br =>
          obtain ⟨b', r'⟩ := br
          rw [hrec] at h
          dsimp only at h
          have hperm := ih hrec
          by_cases hp : p b' o = true
          · rw [if_pos hp] at h
            simp only [Option.some.injEq, Prod.mk.injEq] at h
            obtain ⟨hb, hr⟩ := h
            subst hb; subst hr
            exact (hperm.cons o).trans (List.Perm.swap b' o r')
          · rw [if_neg hp] at h
            simp only [Option.some.injEq, Prod.mk.injEq] at h
            obtain ⟨hb, hr⟩ := h
            subst hb; subst hr
            exact List.Perm.refl _

theorem extractBest_min {p : BookOrder → BookOrder → Bool}
    (hasym : ∀ x y, p x y = true → p y x = false)
    (hnt : ∀ x y z, p x y = false → p y z = false → p x z = false)
    {l : List BookOrder} {b : BookOrder} {r : List BookOrder}
    (h : extractBest p l = some (b, r)) : ∀ x ∈ r, p x b = false := by
  induction l generalizing b r with
  | nil => simp [extractBest] at h
  | cons o rest ih =>
      simp only [extractBest] at h
      cases hrec : extractBest p rest with
      | none =>
          rw [hrec] at h
          dsimp only at h
          simp only [Option.some.injEq, Prod.mk.injEq] at h
          obtain ⟨hb, hr⟩ := h
          subst hb; subst hr
          simp
      | some br =>
          obtain ⟨b', r'⟩ := br
          rw [hrec] at h
          dsimp only at h
          have hmin := ih hrec
          by_cases hp : p b' o = true
          · rw [if_pos hp] at h
            simp only [Option.some.injEq, Prod.mk.injEq] at h
            obtain ⟨hb, hr⟩ := h
            subst hb; subst hr
            intro x hx
            rcases List.mem_cons.mp hx with hx | hx
            · subst hx
              exact hasym _ _ hp
            · exact hmin x hx
          · rw [if_neg hp] at h
            simp only [Option.some.injEq, Prod.mk.injEq] at h
            obtain ⟨hb, hr⟩ := h
            subst hb; subst hr
            intro x hx
            have hprm := extractBest_perm hrec
            have hpfalse : p b' o = false := by simpa using hp
            rcases List.mem_cons.mp (hprm.mem_iff.mp hx) with hx' | hx'
            · subst hx'
              exact hpfalse
            · exact hnt x b' o (hmin x hx') hpfalse

theorem extractBest_length {p : BookOrder → BookOrder → Bool} {l : List BookOrder}
    {b : BookOrder} {r : List BookOrder} (h : extractBest p l = some (b, r)) :
    l.length = r.length + 1 := by
  have := (extractBest_perm h).length_eq
  simpa using this

theorem extractBest_mem {p : BookOrder → BookOrder → Bool} {l : List BookOrder}
    {b : BookOrder} {r : List BookOrder} (h : extractBest p l = some (b, r)) : b ∈ l :=
  (extractBest_perm h).mem_iff.mpr (by simp)

/-! ## The crossing loop (`OrderBook.match`) -/

/-- The state mutated by the `while` loop of `OrderBook.match`: the incoming
order, the opposite side, the id-index, the trades, and the object store. -/
structure MatchSt where
  incoming : BookOrder
  side : List BookOrder
  idIndex : List (String × BookOrder)
  tradesA : List (Trade × TradeAttr)
  store : List (BookOrder × Dec)
deriving Repr

/-- The comparator of the side being consumed: asks for a BUY taker, bids
for a SELL taker. -/
def sidePrec (isBuy : Bool) : BookOrder → BookOrder → Bool :=
  if isBuy then askPrec else bidPrec

/-- The crossing check: a BUY crosses when its price is at least the best
ask's; a SELL crosses when its price is at most the best bid's. -/
def priceCross (isBuy : Bool) (inc best : BookOrder) : Bool :=
  if isBuy then Dec.geb inc.price best.price else Dec.leb inc.price best.price

/-- `tradeQty = min(incoming.remaining, best.remaining)` (decimal min, as
written in the source: `incoming.remaining.lt(best.remaining) ? ... : ...`). -/
def tradeQty (inc best : BookOrder) : Dec :=
  if Dec.ltb inc.remaining best.remaining then inc.remaining else best.remaining

/-- The `Trade` record emitted by one loop iteration. -/
def mkTrade (isBuy : Bool) (pr : String) (inc best : BookOrder) (qty : Dec) : Trade :=
  { pair := pr
    buyOrderId := if isBuy then inc.id else best.id
    sellOrderId := if isBuy then best.id else inc.id
    price := Dec.toString best.price
    amount := Dec.toString qty }

/-- Instrumentation for one emitted trade. -/
def mkAttr (isBuy : Bool) (inc best : BookOrder) (qty : Dec) : TradeAttr :=
  { buyTs := if isBuy then inc.ts else best.ts
    sellTs := if isBuy then best.ts else inc.ts
    makerTs := best.ts
    takerTs := inc.ts
    qty := qty
    makerPrice := best.price
    takerPrice := inc.price }

/-- One iteration body of the crossing loop: emit the trade, decrement both
remainings, and remove the best resting order (from the side and the
id-index) exactly when its remaining reaches zero. -/
def matchStep (isBuy : Bool) (pr : String) (st : MatchSt) (best : BookOrder)
    (rest : List BookOrder) : MatchSt :=
  if (best.remaining.sub (tradeQty st.incoming best)).isZero then
    { incoming := {st.incoming with
        remaining := st.incoming.remaining.sub (tradeQty st.incoming best)}
      side := rest
      idIndex := idxDel best.id st.idIndex
      tradesA := st.tradesA ++ [(mkTrade isBuy pr st.incoming best (tradeQty st.incoming best),
        mkAttr isBuy st.incoming best (tradeQty st.incoming best))]
      store := updStore best.ts (best.remaining.sub (tradeQty st.incoming best))
        (updStore st.incoming.ts (st.incoming.remaining.sub (tradeQty st.incoming best)) st.store) }
  else
    { incoming := {st.incoming with
        remaining := st.incoming.remaining.sub (tradeQty st.incoming best)}
      side := {best with remaining := best.remaining.sub (tradeQty st.incoming best)} :: rest
      idIndex := st.idIndex
      tradesA := st.tradesA ++ [(mkTrade isBuy pr st.incoming best (tradeQty st.incoming best),
        mkAttr isBuy st.incoming best (tradeQty st.incoming best))]
      store := updStore best.ts (best.remaining.sub (tradeQty st.incoming best))
        (updStore st.incoming.ts (st.incoming.remaining.sub (tradeQty st.incoming best)) st.store) }

/-- The `while` loop of `OrderBook.match`, fuel-indexed: each consumed unit
of fuel is one loop iteration that found a crossing best order.
`matchLoopF_enough` shows that `side.length + 1` units always complete. -/
def matchLoopF (isBuy : Bool) (pr : String) : ℕ → MatchSt → Option MatchSt
  | fuel, st =>
    if st.incoming.remaining.isPos then
      match extractBest (sidePrec isBuy) st.side with
      | none => some st
      | some (best, rest) =>
          if priceCross isBuy st.incoming best then
            match fuel with
            | 0 => none
            | fuel' + 1 => matchLoopF isBuy pr fuel' (matchStep isBuy pr st best rest)
          else some st
    else some st

/-! ### Small-step characterization of the loop -/

theorem matchLoopF_not_pos {isBuy : Bool} {pr : String} {fuel : ℕ} {st : MatchSt}
    (h : st.incoming.remaining.isPos = false) :
    matchLoopF isBuy pr fuel st = some st := by
  rw [matchLoopF, h]
  simp

theorem matchLoopF_no_best {isBuy : Bool} {pr : String} {fuel : ℕ} {st : MatchSt}
    (h : extractBest (sidePrec isBuy) st.side = none) :
    matchLoopF isBuy pr fuel st = some st := by
  rw [matchLoopF, h]
  by_cases hpos : st.incoming.remaining.isPos = true <;> simp [hpos]

theorem matchLoopF_no_cross {isBuy : Bool} {pr : String} {fuel : ℕ} {st : MatchSt}
    {best : BookOrder} {rest : List BookOrder}
    (hex : extractBest (sidePrec isBuy) st.side = some (best, rest))
    (hcr : priceCross isBuy st.incoming best = false) :
    matchLoopF isBuy pr fuel st = some st := by
  rw [matchLoopF, hex]
  by_cases hpos : st.incoming.remaining.isPos = true <;> simp [hpos, hcr]

theorem matchLoopF_cross {isBuy : Bool} {pr : String} {fuel : ℕ} {st : MatchSt}
    {best : BookOrder} {rest : List BookOrder}
    (hpos : st.incoming.remaining.isPos = true)
    (hex : extractBest (sidePrec isBuy) st.side = some (best, rest))
    (hcr : priceCross isBuy st.incoming best = true) :
    matchLoopF isBuy pr (fuel + 1) st =
      matchLoopF isBuy pr fuel (matchStep isBuy pr st best rest) := by
  rw [matchLoopF, hex]
  simp [hpos, hcr]

/-- In a partial fill (the best order survives), the traded quantity is the
whole incoming remaining. -/
theorem partial_qty {inc best : BookOrder}
    (hz : (best.remaining.sub (tradeQty inc best)).isZero = false) :
    tradeQty inc best = inc.remaining ∧ Dec.ltb inc.remaining best.remaining = true := by
  unfold tradeQty at hz ⊢
  by_cases hlt : Dec.ltb inc.remaining best.remaining = true
  · simp [hlt]
  · rw [if_neg hlt] at hz
    rw [Dec.sub_self_isZero best.remaining] at hz
    cases hz

/-! ### Termination: `side.length + 1` units of fuel always complete -/

theorem matchLoopF_enough (isBuy : Bool) (pr : String) :
    ∀ (fuel : ℕ) (st : MatchSt), st.side.length < fuel →
      ∃ out, matchLoopF isBuy pr fuel st = some out := by
  intro fuel
  induction fuel with
  | zero => intro st h; omega
  | succ f ih =>
      intro st h
      by_cases hpos : st.incoming.remaining.isPos = true
      · cases hex : extractBest (sidePrec isBuy) st.side with
        | none => exact ⟨st, matchLoopF_no_best hex⟩
        | some br =>
            obtain ⟨best, rest⟩ := br
            by_cases hcr : priceCross isBuy st.incoming best = true
            · rw [matchLoopF_cross hpos hex hcr]
              have hlen := extractBest_length hex
              by_cases hz : (best.remaining.sub (tradeQty st.incoming best)).isZero = true
              · apply ih
                unfold matchStep
                rw [if_pos hz]
                simp only
                omega
              · obtain ⟨hq, _⟩ := partial_qty (Bool.not_eq_true _ ▸ hz)
                refine ⟨_, matchLoopF_not_pos ?_⟩
                unfold matchStep
                rw [if_neg hz]
                simp only
                rw [hq]
                exact Dec.sub_self_not_isPos st.incoming.remaining
            · exact ⟨st, matchLoopF_no_cross hex (Bool.not_eq_true _ ▸ hcr)⟩
      · exact ⟨st, matchLoopF_not_pos (Bool.not_eq_true _ ▸ hpos)⟩

/-! ### Frame facts of the loop -/

/-- The `ts` spine of the store. -/
def storeTs (store : List (BookOrder × Dec)) : List ℕ := store.map (fun ent => ent.1.ts)

/-- The `ts` spine of a side. -/
def sideTs (l : List BookOrder) : List ℕ := l.map (fun o => o.ts)

theorem storeTs_updStore (t : ℕ) (r : Dec) (l : List (BookOrder × Dec)) :
    storeTs (updStore t r l) = storeTs l := by
  unfold storeTs updStore
  rw [List.map_map]
  apply List.map_congr_left
  intro ent _
  by_cases h : ent.1.ts = t <;> simp [h]

theorem updStore_mem {t : ℕ} {r : Dec} {l : List (BookOrder × Dec)}
    {ent : BookOrder × Dec} (h : ent ∈ updStore t r l) :
    ∃ ent0 ∈ l, ent = ent0 ∨ (ent0.1.ts = t ∧ ent = ({ent0.1 with remaining := r}, ent0.2)) := by
  unfold updStore at h
  obtain ⟨ent0, h0, heq⟩ := List.mem_map.mp h
  refine ⟨ent0, h0, ?_⟩
  by_cases hts : ent0.1.ts = t
  · rw [if_pos hts] at heq
    exact Or.inr ⟨hts, heq.symm⟩
  · rw [if_neg hts] at heq
    exact Or.inl heq.symm

theorem updStore_mem_ne {t : ℕ} {r : Dec} {l : List (BookOrder × Dec)}
    {ent : BookOrder × Dec} (h : ent ∈ l) (hts : ent.1.ts ≠ t) :
    ent ∈ updStore t r l := by
  unfold updStore
  exact List.mem_map.mpr ⟨ent, h, by rw [if_neg hts]⟩

theorem updStore_mem_eq {t : ℕ} {r : Dec} {l : List (BookOrder × Dec)}
    {ent : BookOrder × Dec} (h : ent ∈ l) (hts : ent.1.ts = t) :
    ({ent.1 with remaining := r}, ent.2) ∈ updStore t r l := by
  unfold updStore
  exact List.mem_map.mpr ⟨ent, h, by rw [if_pos hts]⟩

/-- The "is the same order object, remaining aside" relation. -/
def SameOrd (x0 x : BookOrder) : Prop := x = {x0 with remaining := x.remaining}

theorem sameOrd_refl (x : BookOrder) : SameOrd x x := by
  unfold SameOrd
  cases x
  rfl

theorem sameOrd_trans {x0 x1 x2 : BookOrder} (h1 : SameOrd x0 x1) (h2 : SameOrd x1 x2) :
    SameOrd x0 x2 := by
  unfold SameOrd at *
  cases x0; cases x1; cases x2
  simp_all

theorem sameOrd_fields {x0 x : BookOrder} (h : SameOrd x0 x) :
    x.id = x0.id ∧ x.account = x0.account ∧ x.side = x0.side ∧ x.pair = x0.pair ∧
      x.price = x0.price ∧ x.ts = x0.ts := by
  unfold SameOrd at h
  cases x0; cases x
  simp_all

/-- Frame facts of the crossing loop: the incoming order keeps all fields but
`remaining`; trades are appended; every surviving side order, and every store
entry, is the same object (by `ts`) as one in the initial state, with only
`remaining` updated; the store `ts` spine is untouched. -/
theorem matchLoopF_frame {isBuy : Bool} {pr : String} :
    ∀ {fuel : ℕ} {st out : MatchSt}, matchLoopF isBuy pr fuel st = some out →
      SameOrd st.incoming out.incoming ∧
      (∃ nt, out.tradesA = st.tradesA ++ nt) ∧
      (∀ x ∈ out.side, ∃ x0 ∈ st.side, SameOrd x0 x) ∧
      (∀ ent ∈ out.store, ∃ ent0 ∈ st.store, SameOrd ent0.1 ent.1 ∧ ent0.2 = ent.2) ∧
      storeTs out.store = storeTs st.store := by
  intro fuel
  induction fuel with
  | zero =>
      intro st out h
      by_cases hpos : st.incoming.remaining.isPos = true
      · cases hex : extractBest (sidePrec isBuy) st.side with
        | none =>
            rw [matchLoopF_no_best hex] at h
            injection h with h
            subst h
            exact ⟨sameOrd_refl _, ⟨[], by simp⟩,
              fun x hx => ⟨x, hx, sameOrd_refl _⟩,
              fun ent hent => ⟨ent, hent, sameOrd_refl _, rfl⟩, rfl⟩
        | some br =>
            obtain ⟨best, rest⟩ := br
            by_cases hcr : priceCross isBuy st.incoming best = true
            · rw [matchLoopF, hex] at h
              simp [hpos, hcr] at h
            · rw [matchLoopF_no_cross hex (Bool.not_eq_true _ ▸ hcr)] at h
              injection h with h
              subst h
              exact ⟨sameOrd_refl _, ⟨[], by simp⟩,
                fun x hx => ⟨x, hx, sameOrd_refl _⟩,
                fun ent hent => ⟨ent, hent, sameOrd_refl _, rfl⟩, rfl⟩
      · rw [matchLoopF_not_pos (Bool.not_eq_true _ ▸ hpos)] at h
        injection h with h
        subst h
        exact ⟨sameOrd_refl _, ⟨[], by simp⟩,
          fun x hx => ⟨x, hx, sameOrd_refl _⟩,
          fun ent hent => ⟨ent, hent, sameOrd_refl _, rfl⟩, rfl⟩
  | succ f ih =>
      intro st out h
      by_cases hpos : st.incoming.remaining.isPos = true
      · cases hex : extractBest (sidePrec isBuy) st.side with
        | none =>
            rw [matchLoopF_no_best hex] at h
            injection h with h
            subst h
            exact ⟨sameOrd_refl _, ⟨[], by simp⟩,
              fun x hx => ⟨x, hx, sameOrd_refl _⟩,
              fun ent hent => ⟨ent, hent, sameOrd_refl _, rfl⟩, rfl⟩
        | some br =>
            obtain ⟨best, rest⟩ := br
            by_cases hcr : priceCross isBuy st.incoming best = true
            · rw [matchLoopF_cross hpos hex hcr] at h
              obtain ⟨hinc, ⟨nt, hnt⟩, hside, hstore, hts⟩ := ih h
              have hperm := extractBest_perm hex
              have hbmem : best ∈ st.side := extractBest_mem hex
              -- step facts from `st` to `matchStep ... st best rest`
              have hstep_inc : SameOrd st.incoming (matchStep isBuy pr st best rest).incoming := by
                unfold matchStep SameOrd
                by_cases hz : (best.remaining.sub (tradeQty st.incoming best)).isZero = true <;>
                  simp [hz]
              have hstep_tr : ∃ nt1, (matchStep isBuy pr st best rest).tradesA =
                  st.tradesA ++ nt1 := by
                unfold matchStep
                by_cases hz : (best.remaining.sub (tradeQty st.incoming best)).isZero = true <;>
                  simp [hz]
              have hstep_side : ∀ x ∈ (matchStep isBuy pr st best rest).side,
                  ∃ x0 ∈ st.side, SameOrd x0 x := by
                unfold matchStep
                by_cases hz : (best.remaining.sub (tradeQty st.incoming best)).isZero = true
                · rw [if_pos hz]
                  intro x hx
                  exact ⟨x, hperm.mem_iff.mpr (List.mem_cons_of_mem _ hx), sameOrd_refl _⟩
                · rw [if_neg hz]
                  intro x hx
                  rcases List.mem_cons.mp hx with hx | hx
                  · subst hx
                    exact ⟨best, hbmem, by unfold SameOrd; rfl⟩
                  · exact ⟨x, hperm.mem_iff.mpr (List.mem_cons_of_mem _ hx), sameOrd_refl _⟩
              have hstep_store : ∀ ent ∈ (matchStep isBuy pr st best rest).store,
                  ∃ ent0 ∈ st.store, SameOrd ent0.1 ent.1 ∧ ent0.2 = ent.2 := by
                have key : ∀ ent ∈ updStore best.ts (best.remaining.sub (tradeQty st.incoming best))
                    (updStore st.incoming.ts (st.incoming.remaining.sub (tradeQty st.incoming best))
                      st.store), ∃ ent0 ∈ st.store, SameOrd ent0.1 ent.1 ∧ ent0.2 = ent.2 := by
                  intro ent hent
                  obtain ⟨ent1, hent1, hcase1⟩ := updStore_mem hent
                  obtain ⟨ent0, hent0, hcase0⟩ := updStore_mem hent1
                  refine ⟨ent0, hent0, ?_⟩
                  have h01 : SameOrd ent0.1 ent1.1 ∧ ent0.2 = ent1.2 := by
                    rcases hcase0 with hc | ⟨_, hc⟩ <;> rw [hc] <;>
                      exact ⟨sameOrd_refl _, rfl⟩
                  have h12 : SameOrd ent1.1 ent.1 ∧ ent1.2 = ent.2 := by
                    rcases hcase1 with hc | ⟨_, hc⟩ <;> rw [hc] <;>
                      exact ⟨sameOrd_refl _, rfl⟩
                  exact ⟨sameOrd_trans h01.1 h12.1, h01.2.trans h12.2⟩
                unfold matchStep
                by_cases hz : (best.remaining.sub (tradeQty st.incoming best)).isZero = true
                · rw [if_pos hz]
                  exact key
                · rw [if_neg hz]
                  exact key
              have hstep_ts : storeTs (matchStep isBuy pr st best rest).store = storeTs st.store := by
                unfold matchStep
                by_cases hz : (best.remaining.sub (tradeQty st.incoming best)).isZero = true
                · rw [if_pos hz]
                  simp only
                  rw [storeTs_updStore, storeTs_updStore]
                · rw [if_neg hz]
                  simp only
                  rw [storeTs_updStore, storeTs_updStore]
              refine ⟨sameOrd_trans hstep_inc hinc, ?_, ?_, ?_, ?_⟩
              · obtain ⟨nt1, hnt1⟩ := hstep_tr
                exact ⟨nt1 ++ nt, by rw [hnt, hnt1, List.append_assoc]⟩
              · intro x hx
                obtain ⟨x1, hx1, hs1⟩ := hside x hx
                obtain ⟨x0, hx0, hs0⟩ := hstep_side x1 hx1
                exact ⟨x0, hx0, sameOrd_trans hs0 hs1⟩
              · intro ent hent
                obtain ⟨ent1, hent1, hs1, he1⟩ := hstore ent hent
                obtain ⟨ent0, hent0, hs0, he0⟩ := hstep_store ent1 hent1
                exact ⟨ent0, hent0, sameOrd_trans hs0 hs1, he0.trans he1⟩
              · rw [hts, hstep_ts]
            · rw [matchLoopF_no_cross hex (Bool.not_eq_true _ ▸ hcr)] at h
              injection h with h
              subst h
              exact ⟨sameOrd_refl _, ⟨[], by simp⟩,
                fun x hx => ⟨x, hx, sameOrd_refl _⟩,
                fun ent hent => ⟨ent, hent, sameOrd_refl _, rfl⟩, rfl⟩
      · rw [matchLoopF_not_pos (Bool.not_eq_true _ ▸ hpos)] at h
        injection h with h
        subst h
        exact ⟨sameOrd_refl _, ⟨[], by simp⟩,
          fun x hx => ⟨x, hx, sameOrd_refl _⟩,
          fun ent hent => ⟨ent, hent, sameOrd_refl _, rfl⟩, rfl⟩

/-- Exhaustive case analysis of one observation of the loop. -/
theorem matchLoopF_cases {isBuy : Bool} {pr : String} {fuel : ℕ} {st out : MatchSt}
    (h : matchLoopF isBuy pr fuel st = some out) :
    (out = st ∧ (st.incoming.remaining.isPos = false ∨
      extractBest (sidePrec isBuy) st.side = none ∨
      ∃ best rest, extractBest (sidePrec isBuy) st.side = some (best, rest) ∧
        priceCross isBuy st.incoming best = false)) ∨
    ∃ best rest f', fuel = f' + 1 ∧
      st.incoming.remaining.isPos = true ∧
      extractBest (sidePrec isBuy) st.side = some (best, rest) ∧
      priceCross isBuy st.incoming best = true ∧
      matchLoopF isBuy pr f' (matchStep isBuy pr st best rest) = some out := by
  by_cases hpos : st.incoming.remaining.isPos = true
  · cases hex : extractBest (sidePrec isBuy) st.side with
    | none =>
        rw [matchLoopF_no_best hex] at h
        injection h with h
        exact Or.inl ⟨h.symm, Or.inr (Or.inl rfl)⟩
    | some br =>
        obtain ⟨best, rest⟩ := br
        by_cases hcr : priceCross isBuy st.incoming best = true
        · cases fuel with
          | zero =>
              rw [matchLoopF, hex] at h
              simp [hpos, hcr] at h
          | succ f =>
              rw [matchLoopF_cross hpos hex hcr] at h
              exact Or.inr ⟨best, rest, f, rfl, hpos, rfl, hcr, h⟩
        · rw [matchLoopF_no_cross hex (Bool.not_eq_true _ ▸ hcr)] at h
          injection h with h
          exact Or.inl ⟨h.symm, Or.inr (Or.inr ⟨best, rest, rfl,
            Bool.not_eq_true _ ▸ hcr⟩)⟩
  · rw [matchLoopF_not_pos (Bool.not_eq_true _ ▸ hpos)] at h
    injection h with h
    exact Or.inl ⟨h.symm, Or.inl (Bool.not_eq_true _ ▸ hpos)⟩

theorem sidePrec_asymm (isBuy : Bool) {a b : BookOrder}
    (h : sidePrec isBuy a b = true) : sidePrec isBuy b a = false := by
  unfold sidePrec at *
  cases isBuy
  · exact bidPrec_asymm (by simpa using h)
  · exact askPrec_asymm (by simpa using h)

theorem sidePrec_negtrans (isBuy : Bool) {x b o : BookOrder}
    (h1 : sidePrec isBuy x b = false) (h2 : sidePrec isBuy b o = false) :
    sidePrec isBuy x o = false := by
  unfold sidePrec at *
  cases isBuy
  · exact bidPrec_negtrans (by simpa using h1) (by simpa using h2)
  · exact askPrec_negtrans (by simpa using h1) (by simpa using h2)

/-- Same-price FIFO content of the comparators: a strictly earlier order at
the same price always precedes. -/
theorem sidePrec_false_no_earlier (isBuy : Bool) {x best : BookOrder}
    (h : sidePrec isBuy x best = false) :
    ¬(x.price.val = best.price.val ∧ x.ts < best.ts) := by
  unfold sidePrec at h
  cases isBuy
  · rw [if_neg (by simp)] at h
    rw [bidPrec_false_iff] at h
    exact fun hc => h (Or.inl hc)
  · rw [if_pos rfl] at h
    rw [askPrec_false_iff] at h
    exact fun hc => h (Or.inl hc)

/-- Fuel, side-`ts` and positivity facts of the loop. -/
theorem matchLoopF_side {isBuy : Bool} {pr : String} :
    ∀ {fuel : ℕ} {st out : MatchSt}, matchLoopF isBuy pr fuel st = some out →
      (sideTs st.side).Nodup →
      (sideTs out.side).Nodup ∧
      (∀ t ∈ sideTs out.side, t ∈ sideTs st.side) ∧
      ((∀ x ∈ st.side, x.remaining.isPos = true) → ∀ x ∈ out.side, x.remaining.isPos = true) := by
  intro fuel
  induction fuel with
  | zero =>
      intro st out h hnd
      rcases matchLoopF_cases h with ⟨heq, _⟩ | ⟨_, _, _, hf, _⟩
      · subst heq
        exact ⟨hnd, fun t ht => ht, fun hp => hp⟩
      · omega
  | succ f ih =>
      intro st out h hnd
      rcases matchLoopF_cases h with ⟨heq, _⟩ | ⟨best, rest, f', hf, hpos, hex, hcr, hrec⟩
      · subst heq
        exact ⟨hnd, fun t ht => ht, fun hp => hp⟩
      · have hf' : f' = f := by omega
        subst hf'
        have hperm : (sideTs st.side).Perm (best.ts :: sideTs rest) := by
          have := (extractBest_perm hex).map (fun o => o.ts)
          simpa [sideTs] using this
        have hndrest : (sideTs rest).Nodup := by
          have := hperm.nodup_iff.mp hnd
          exact (List.nodup_cons.mp this).2
        have hbts : best.ts ∉ sideTs rest := by
          have := hperm.nodup_iff.mp hnd
          exact (List.nodup_cons.mp this).1
        by_cases hz : (best.remaining.sub (tradeQty st.incoming best)).isZero = true
        · have hstep : matchStep isBuy pr st best rest =
              { incoming := {st.incoming with
                  remaining := st.incoming.remaining.sub (tradeQty st.incoming best)}
                side := rest
                idIndex := idxDel best.id st.idIndex
                tradesA := st.tradesA ++ [(mkTrade isBuy pr st.incoming best
                  (tradeQty st.incoming best), mkAttr isBuy st.incoming best
                  (tradeQty st.incoming best))]
                store := updStore best.ts (best.remaining.sub (tradeQty st.incoming best))
                  (updStore st.incoming.ts (st.incoming.remaining.sub
                    (tradeQty st.incoming best)) st.store) } := by
            unfold matchStep
            rw [if_pos hz]
          rw [hstep] at hrec
          obtain ⟨hnd', hsub, hpos'⟩ := ih hrec hndrest
          refine ⟨hnd', ?_, ?_⟩
          · intro t ht
            exact hperm.mem_iff.mpr (List.mem_cons_of_mem _ (hsub t ht))
          · intro hp
            apply hpos'
            intro x hx
            exact hp x ((extractBest_perm hex).mem_iff.mpr (List.mem_cons_of_mem _ hx))
        · have hstep : matchStep isBuy pr st best rest =
              { incoming := {st.incoming with
                  remaining := st.incoming.remaining.sub (tradeQty st.incoming best)}
                side := ({best with remaining := best.remaining.sub (tradeQty st.incoming best)} :: rest)
                idIndex := st.idIndex
                tradesA := st.tradesA ++ [(mkTrade isBuy pr st.incoming best
                  (tradeQty st.incoming best), mkAttr isBuy st.incoming best
                  (tradeQty st.incoming best))]
                store := updStore best.ts (best.remaining.sub (tradeQty st.incoming best))
                  (updStore st.incoming.ts (st.incoming.remaining.sub
                    (tradeQty st.incoming best)) st.store) } := by
            unfold matchStep
            rw [if_neg hz]
          rw [hstep] at hrec
          have hndside : (sideTs ({best with remaining := best.remaining.sub (tradeQty st.incoming best)} :: rest)).Nodup := by
            unfold sideTs
            rw [List.map_cons]
            exact List.nodup_cons.mpr ⟨by simpa [sideTs] using hbts, hndrest⟩
          obtain ⟨hnd', hsub, hpos'⟩ := ih hrec hndside
          refine ⟨hnd', ?_, ?_⟩
          · intro t ht
            have := hsub t ht
            unfold sideTs at this
            rw [List.map_cons] at this
            rcases List.mem_cons.mp this with hc | hc
            · rw [hc]
              exact hperm.mem_iff.mpr (by simp)
            · exact hperm.mem_iff.mpr (List.mem_cons_of_mem _ (by simpa [sideTs] using hc))
          · intro hp
            apply hpos'
            intro x hx
            rcases List.mem_cons.mp hx with hc | hc
            · subst hc
              obtain ⟨hq, hlt⟩ := partial_qty (Bool.not_eq_true _ ▸ hz)
              simp only
              rw [hq, Dec.isPos_iff, Dec.sub_val]
              rw [Dec.ltb_iff] at hlt
              linarith
            · exact hp x ((extractBest_perm hex).mem_iff.mpr (List.mem_cons_of_mem _ hc))

theorem matchStep_removal {isBuy : Bool} {pr : String} {st : MatchSt} {best : BookOrder}
    {rest : List BookOrder}
    (hz : (best.remaining.sub (tradeQty st.incoming best)).isZero = true) :
    matchStep isBuy pr st best rest =
      { incoming := {st.incoming with remaining := st.incoming.remaining.sub (tradeQty st.incoming best)}
        side := rest
        idIndex := idxDel best.id st.idIndex
        tradesA := st.tradesA ++ [(mkTrade isBuy pr st.incoming best (tradeQty st.incoming best),
          mkAttr isBuy st.incoming best (tradeQty st.incoming best))]
        store := updStore best.ts (best.remaining.sub (tradeQty st.incoming best))
          (updStore st.incoming.ts (st.incoming.remaining.sub (tradeQty st.incoming best)) st.store) } := by
  unfold matchStep
  rw [if_pos hz]

theorem matchStep_keep {isBuy : Bool} {pr : String} {st : MatchSt} {best : BookOrder}
    {rest : List BookOrder}
    (hz : (best.remaining.sub (tradeQty st.incoming best)).isZero = false) :
    matchStep isBuy pr st best rest =
      { incoming := {st.incoming with remaining := st.incoming.remaining.sub (tradeQty st.incoming best)}
        side := ({best with remaining := best.remaining.sub (tradeQty st.incoming best)} :: rest)
        idIndex := st.idIndex
        tradesA := st.tradesA ++ [(mkTrade isBuy pr st.incoming best (tradeQty st.incoming best),
          mkAttr isBuy st.incoming best (tradeQty st.incoming best))]
        store := updStore best.ts (best.remaining.sub (tradeQty st.incoming best))
          (updStore st.incoming.ts (st.incoming.remaining.sub (tradeQty st.incoming best)) st.store) } := by
  unfold matchStep
  rw [hz]
  simp

/-- The exit analysis of an uncrossed stop: every order on the side fails
the crossing check. -/
theorem exit_uncrossed {isBuy : Bool} {st : MatchSt} {best : BookOrder}
    {rest : List BookOrder}
    (hex : extractBest (sidePrec isBuy) st.side = some (best, rest))
    (hcr : priceCross isBuy st.incoming best = false) :
    ∀ x ∈ st.side,
      (isBuy = true → st.incoming.price.val < x.price.val) ∧
      (isBuy = false → x.price.val < st.incoming.price.val) := by
  intro x hx
  have hmembest : x = best ∨ x ∈ rest := List.mem_cons.mp ((extractBest_perm hex).mem_iff.mp hx)
  have hmin := extractBest_min (p := sidePrec isBuy) (fun x y h => sidePrec_asymm isBuy h)
    (fun x y z h1 h2 => sidePrec_negtrans isBuy h1 h2) hex
  constructor
  · intro hbuy
    subst hbuy
    unfold priceCross at hcr
    rw [if_pos rfl] at hcr
    have hlt : st.incoming.price.val < best.price.val := by
      have : ¬ best.price.val ≤ st.incoming.price.val :=
        fun hc => by rw [(Dec.geb_iff _ _).mpr hc] at hcr; cases hcr
      linarith [not_le.mp this]
    rcases hmembest with hc | hc
    · subst hc; exact hlt
    · have := hmin x hc
      unfold sidePrec at this
      rw [if_pos rfl] at this
      linarith [askPrec_false_price_le this]
  · intro hsell
    subst hsell
    unfold priceCross at hcr
    rw [if_neg (by simp)] at hcr
    have hlt : best.price.val < st.incoming.price.val := by
      have : ¬ st.incoming.price.val ≤ best.price.val :=
        fun hc => by rw [(Dec.leb_iff _ _).mpr hc] at hcr; cases hcr
      linarith [not_le.mp this]
    rcases hmembest with hc | hc
    · subst hc; exact hlt
    · have := hmin x hc
      unfold sidePrec at this
      rw [if_neg (by simp)] at this
      linarith [bidPrec_false_price_le this]

/-- When the loop stops with the incoming order still positive, no surviving
opposite order crosses its limit price. -/
theorem matchLoopF_uncrossed {isBuy : Bool} {pr : String} :
    ∀ {fuel : ℕ} {st out : MatchSt}, matchLoopF isBuy pr fuel st = some out →
      out.incoming.remaining.isPos = true →
      ∀ x ∈ out.side,
        (isBuy = true → st.incoming.price.val < x.price.val) ∧
        (isBuy = false → x.price.val < st.incoming.price.val) := by
  intro fuel
  induction fuel with
  | zero =>
      intro st out h hpos' x hx
      rcases matchLoopF_cases h with ⟨heq, hexit⟩ | ⟨_, _, _, hf, _⟩
      · subst heq
        rcases hexit with hc | hc | ⟨best, rest, hex, hcr⟩
        · rw [hpos'] at hc; cases hc
        · rw [extractBest_eq_none.mp hc] at hx; cases hx
        · exact exit_uncrossed hex hcr x hx
      · omega
  | succ f ih =>
      intro st out h hpos' x hx
      rcases matchLoopF_cases h with ⟨heq, hexit⟩ | ⟨best, rest, f', hf, hpos, hex, hcr, hrec⟩
      · subst heq
        rcases hexit with hc | hc | ⟨best, rest, hex, hcr⟩
        · rw [hpos'] at hc; cases hc
        · rw [extractBest_eq_none.mp hc] at hx; cases hx
        · exact exit_uncrossed hex hcr x hx
      · have hf' : f' = f := by omega
        subst hf'
        have := ih hrec hpos' x hx
        have hincsame : (matchStep isBuy pr st best rest).incoming.price = st.incoming.price := by
          by_cases hz : (best.remaining.sub (tradeQty st.incoming best)).isZero = true
          · rw [matchStep_removal hz]
          · rw [matchStep_keep (Bool.not_eq_true _ ▸ hz)]
        rw [hincsame] at this
        exact this

/-! ### New-trade characterization -/

/-- Properties of a trade newly emitted by one `match` call, relative to the
loop's starting state `st` and the final surviving side `outSide`. -/
def NewTradeOK (isBuy : Bool) (pr : String) (st : MatchSt) (outSide : List BookOrder)
    (e : Trade × TradeAttr) : Prop :=
  e.1.pair = pr ∧
  e.1.price = Dec.toString e.2.makerPrice ∧
  e.1.amount = Dec.toString e.2.qty ∧
  e.2.takerTs = st.incoming.ts ∧
  e.2.takerPrice = st.incoming.price ∧
  (∃ m0 ∈ st.side, m0.ts = e.2.makerTs ∧ m0.price = e.2.makerPrice ∧
    ((isBuy = true ∧ e.2.buyTs = st.incoming.ts ∧ e.2.sellTs = m0.ts ∧
      e.1.buyOrderId = st.incoming.id ∧ e.1.sellOrderId = m0.id) ∨
     (isBuy = false ∧ e.2.sellTs = st.incoming.ts ∧ e.2.buyTs = m0.ts ∧
      e.1.sellOrderId = st.incoming.id ∧ e.1.buyOrderId = m0.id))) ∧
  ((isBuy = true → e.2.makerPrice.val ≤ e.2.takerPrice.val) ∧
   (isBuy = false → e.2.takerPrice.val ≤ e.2.makerPrice.val)) ∧
  (∀ x ∈ outSide, ¬(x.price.val = e.2.makerPrice.val ∧ x.ts < e.2.makerTs))

/-- Every trade emitted during one `match` call is a maker-priced cross with
the loop's incoming order as taker, and FIFO-minimal among the survivors. -/
theorem matchLoopF_trades {isBuy : Bool} {pr : String} :
    ∀ {fuel : ℕ} {st out : MatchSt}, matchLoopF isBuy pr fuel st = some out →
      ∃ nt, out.tradesA = st.tradesA ++ nt ∧
        ∀ e ∈ nt, NewTradeOK isBuy pr st out.side e := by
  intro fuel
  induction fuel with
  | zero =>
      intro st out h
      rcases matchLoopF_cases h with ⟨heq, _⟩ | ⟨_, _, _, hf, _⟩
      · subst heq
        exact ⟨[], by simp, by simp⟩
      · omega
  | succ f ih =>
      intro st out h
      rcases matchLoopF_cases h with ⟨heq, _⟩ | ⟨best, rest, f', hf, hpos, hex, hcr, hrec⟩
      · subst heq
        exact ⟨[], by simp, by simp⟩
      · have hf' : f' = f := by omega
        subst hf'
        obtain ⟨nt', hnt', hok'⟩ := ih hrec
        have hbmem := extractBest_mem hex
        have hmin := extractBest_min (p := sidePrec isBuy) (fun x y h => sidePrec_asymm isBuy h)
          (fun x y z h1 h2 => sidePrec_negtrans isBuy h1 h2) hex
        have hframe := matchLoopF_frame hrec
        obtain ⟨_, _, hsideframe, _, _⟩ := hframe
        -- the step state in both branches
        set e0 : Trade × TradeAttr := (mkTrade isBuy pr st.incoming best (tradeQty st.incoming best),
          mkAttr isBuy st.incoming best (tradeQty st.incoming best)) with he0
        have hstepA : (matchStep isBuy pr st best rest).tradesA = st.tradesA ++ [e0] := by
          by_cases hz : (best.remaining.sub (tradeQty st.incoming best)).isZero = true
          · rw [matchStep_removal hz]
          · rw [matchStep_keep (Bool.not_eq_true _ ▸ hz)]
        have hstepinc : (matchStep isBuy pr st best rest).incoming =
            {st.incoming with remaining := st.incoming.remaining.sub (tradeQty st.incoming best)} := by
          by_cases hz : (best.remaining.sub (tradeQty st.incoming best)).isZero = true
          · rw [matchStep_removal hz]
          · rw [matchStep_keep (Bool.not_eq_true _ ▸ hz)]
        have hstepside : ∀ m1 ∈ (matchStep isBuy pr st best rest).side,
            ∃ m0 ∈ st.side, m0.id = m1.id ∧ m0.ts = m1.ts ∧ m0.price = m1.price := by
          by_cases hz : (best.remaining.sub (tradeQty st.incoming best)).isZero = true
          · rw [matchStep_removal hz]
            intro m1 hm1
            exact ⟨m1, (extractBest_perm hex).mem_iff.mpr (List.mem_cons_of_mem _ hm1),
              rfl, rfl, rfl⟩
          · rw [matchStep_keep (Bool.not_eq_true _ ▸ hz)]
            intro m1 hm1
            rcases List.mem_cons.mp hm1 with hc | hc
            · subst hc
              exact ⟨best, hbmem, rfl, rfl, rfl⟩
            · exact ⟨m1, (extractBest_perm hex).mem_iff.mpr (List.mem_cons_of_mem _ hc),
                rfl, rfl, rfl⟩
        refine ⟨e0 :: nt', by rw [hnt', hstepA, List.append_assoc]; rfl, ?_⟩
        intro e he
        rcases List.mem_cons.mp he with hc | hc
        · -- the trade emitted by this iteration
          subst hc
          refine ⟨rfl, rfl, rfl, rfl, rfl, ?_, ?_, ?_⟩
          · refine ⟨best, hbmem, rfl, rfl, ?_⟩
            cases isBuy
            · exact Or.inr ⟨rfl, rfl, rfl, rfl, rfl⟩
            · exact Or.inl ⟨rfl, rfl, rfl, rfl, rfl⟩
          · constructor
            · intro hbuy
              subst hbuy
              unfold priceCross at hcr
              rw [if_pos rfl] at hcr
              exact (Dec.geb_iff _ _).mp hcr
            · intro hsell
              subst hsell
              unfold priceCross at hcr
              rw [if_neg (by simp)] at hcr
              exact (Dec.leb_iff _ _).mp hcr
          · intro x hx
            obtain ⟨x1, hx1, hs1⟩ := hsideframe x hx
            obtain ⟨hxid, hxacc, hxside, hxpair, hxprice, hxts⟩ := sameOrd_fields hs1
            by_cases hz : (best.remaining.sub (tradeQty st.incoming best)).isZero = true
            · rw [matchStep_removal hz] at hx1
              have := sidePrec_false_no_earlier isBuy (hmin x1 hx1)
              intro hcon
              exact this ⟨by rw [← hxprice]; exact hcon.1, by rw [← hxts]; exact hcon.2⟩
            · rw [matchStep_keep (Bool.not_eq_true _ ▸ hz)] at hx1
              rcases List.mem_cons.mp hx1 with hcq | hcq
              · intro hcon
                have hxb : x.ts = best.ts := by rw [hxts, hcq]
                have hmk : (mkAttr isBuy st.incoming best
                    (tradeQty st.incoming best)).makerTs = best.ts := rfl
                rw [hmk] at hcon
                omega
              · have := sidePrec_false_no_earlier isBuy (hmin x1 hcq)
                intro hcon
                exact this ⟨by rw [← hxprice]; exact hcon.1, by rw [← hxts]; exact hcon.2⟩
        · -- trades emitted by later iterations: transport along the step
          have hok := hok' e hc
          obtain ⟨hp1, hp2, hp3, hp4, hp5, ⟨m1, hm1, hmts, hmprice, hids⟩, hp7, hp8⟩ := hok
          rw [hstepinc] at hp4 hp5 hids
          obtain ⟨m0, hm0, h0id, h0ts, h0price⟩ := hstepside m1 hm1
          refine ⟨hp1, hp2, hp3, hp4, hp5, ⟨m0, hm0, by rw [h0ts, hmts],
            by rw [h0price, hmprice], ?_⟩, hp7, hp8⟩
          rcases hids with ⟨hb, h1, h2, h3, h4⟩ | ⟨hb, h1, h2, h3, h4⟩
          · exact Or.inl ⟨hb, h1, by rw [h0ts]; exact h2, h3, by rw [h0id]; exact h4⟩
          · exact Or.inr ⟨hb, h1, by rw [h0ts]; exact h2, h3, by rw [h0id]; exact h4⟩

/-! ### Conservation through the loop -/

/-- The exact decimal volume attributed to order object `t` by a trade list:
one term per trade in which the object participates. -/
def attrsSum (l : List (Trade × TradeAttr)) (t : ℕ) : ℚ :=
  (l.map (fun e => if e.2.buyTs = t ∨ e.2.sellTs = t then e.2.qty.val else 0)).sum

theorem attrsSum_append (l1 l2 : List (Trade × TradeAttr)) (t : ℕ) :
    attrsSum (l1 ++ l2) t = attrsSum l1 t + attrsSum l2 t := by
  unfold attrsSum
  rw [List.map_append, List.sum_append]

theorem attrsSum_single (e : Trade × TradeAttr) (t : ℕ) :
    attrsSum [e] t = if e.2.buyTs = t ∨ e.2.sellTs = t then e.2.qty.val else 0 := by
  unfold attrsSum
  simp

theorem store_ts_unique {store : List (BookOrder × Dec)} (hnd : (storeTs store).Nodup)
    {e1 e2 : BookOrder × Dec} (h1 : e1 ∈ store) (h2 : e2 ∈ store)
    (ht : e1.1.ts = e2.1.ts) : e1 = e2 := by
  induction store with
  | nil => cases h1
  | cons hd tl ih =>
      have hnd' : (storeTs tl).Nodup ∧ hd.1.ts ∉ storeTs tl := by
        unfold storeTs at hnd ⊢
        rw [List.map_cons] at hnd
        exact ⟨(List.nodup_cons.mp hnd).2, (List.nodup_cons.mp hnd).1⟩
      rcases List.mem_cons.mp h1 with hc1 | hc1 <;> rcases List.mem_cons.mp h2 with hc2 | hc2
      · rw [hc1, hc2]
      · exfalso
        apply hnd'.2
        exact List.mem_map.mpr ⟨e2, hc2, by rw [← ht, hc1]⟩
      · exfalso
        apply hnd'.2
        exact List.mem_map.mpr ⟨e1, hc1, by rw [ht, hc2]⟩
      · exact ih hnd'.1 hc1 hc2

theorem updStore_mem_form {t : ℕ} {r : Dec} {l : List (BookOrder × Dec)}
    {ent : BookOrder × Dec} (h : ent ∈ updStore t r l) :
    ∃ ent0 ∈ l, ent =
      (if ent0.1.ts = t then ({ent0.1 with remaining := r}, ent0.2) else ent0) := by
  unfold updStore at h
  obtain ⟨ent0, h0, heq⟩ := List.mem_map.mp h
  exact ⟨ent0, h0, heq.symm⟩

theorem updStore_form_ts (t : ℕ) (r : Dec) (ent0 : BookOrder × Dec) :
    ((if ent0.1.ts = t then ({ent0.1 with remaining := r}, ent0.2) else ent0)).1.ts
      = ent0.1.ts := by
  by_cases h : ent0.1.ts = t <;> simp [h]

theorem updStore2_mem {t1 t2 : ℕ} {r1 r2 : Dec} {l : List (BookOrder × Dec)}
    {ent : BookOrder × Dec}
    (h : ent ∈ updStore t1 r1 (updStore t2 r2 l)) :
    ∃ ent0 ∈ l, ent =
      (if ent0.1.ts = t1 then ({ent0.1 with remaining := r1}, ent0.2)
       else if ent0.1.ts = t2 then ({ent0.1 with remaining := r2}, ent0.2) else ent0) := by
  obtain ⟨ent1, h1, heq1⟩ := updStore_mem_form h
  obtain ⟨ent0, h0, heq0⟩ := updStore_mem_form h1
  refine ⟨ent0, h0, ?_⟩
  have hts : ent1.1.ts = ent0.1.ts := by
    rw [heq0]
    exact updStore_form_ts t2 r2 ent0
  by_cases hb : ent0.1.ts = t1
  · rw [if_pos hb, heq1, if_pos (hts.trans hb), heq0]
    by_cases ha : ent0.1.ts = t2
    · rw [if_pos ha]
    · rw [if_neg ha]
  · rw [if_neg hb]
    have hts1 : ¬ ent1.1.ts = t1 := by rw [hts]; exact hb
    rw [heq1, if_neg hts1, heq0]

/-- Conservation and store synchronization are loop invariants. -/
theorem matchLoopF_conserve {isBuy : Bool} {pr : String} :
    ∀ {fuel : ℕ} {st out : MatchSt}, matchLoopF isBuy pr fuel st = some out →
      (storeTs st.store).Nodup →
      (sideTs st.side).Nodup →
      st.incoming.ts ∉ sideTs st.side →
      (∀ x ∈ st.side, ∃ a0, (x, a0) ∈ st.store) →
      (∃ a0, (st.incoming, a0) ∈ st.store) →
      (∀ ent ∈ st.store, ent.2.val = attrsSum st.tradesA ent.1.ts + ent.1.remaining.val) →
      (∀ x ∈ out.side, ∃ a0, (x, a0) ∈ out.store) ∧
      (∃ a0, (out.incoming, a0) ∈ out.store) ∧
      (∀ ent ∈ out.store, ent.2.val = attrsSum out.tradesA ent.1.ts + ent.1.remaining.val) := by
  intro fuel
  induction fuel with
  | zero =>
      intro st out h hnd hsnd hdisj hsyncs hsynci hcons
      rcases matchLoopF_cases h with ⟨heq, _⟩ | ⟨_, _, _, hf, _⟩
      · subst heq
        exact ⟨hsyncs, hsynci, hcons⟩
      · omega
  | succ f ih =>
      intro st out h hnd hsnd hdisj hsyncs hsynci hcons
      rcases matchLoopF_cases h with ⟨heq, _⟩ | ⟨best, rest, f', hf, hpos, hex, hcr, hrec⟩
      · subst heq
        exact ⟨hsyncs, hsynci, hcons⟩
      · have hf' : f' = f := by omega
        subst hf'
        have hbmem := extractBest_mem hex
        have hperm := extractBest_perm hex
        have hpermts : (sideTs st.side).Perm (best.ts :: sideTs rest) := by
          have := hperm.map (fun o => o.ts)
          simpa [sideTs] using this
        have hndrest : (sideTs rest).Nodup := (List.nodup_cons.mp (hpermts.nodup_iff.mp hsnd)).2
        have hbts_rest : best.ts ∉ sideTs rest :=
          (List.nodup_cons.mp (hpermts.nodup_iff.mp hsnd)).1
        have hbne : best.ts ≠ st.incoming.ts := by
          intro hcq
          apply hdisj
          rw [← hcq]
          exact List.mem_map.mpr ⟨best, hbmem, rfl⟩
        obtain ⟨ab, hab⟩ := hsyncs best hbmem
        obtain ⟨ai, hai⟩ := hsynci
        -- notation for the step quantities
        set q := tradeQty st.incoming best with hq
        set rb := best.remaining.sub q with hrb
        set ri := st.incoming.remaining.sub q with hri
        set e0 : Trade × TradeAttr := (mkTrade isBuy pr st.incoming best q,
          mkAttr isBuy st.incoming best q) with he0
        have he0buy : e0.2.buyTs = (if isBuy then st.incoming.ts else best.ts) := rfl
        have he0sell : e0.2.sellTs = (if isBuy then best.ts else st.incoming.ts) := rfl
        have he0qty : e0.2.qty = q := rfl
        have htouch : ∀ t : ℕ, t ≠ best.ts → t ≠ st.incoming.ts →
            attrsSum [e0] t = 0 := by
          intro t h1 h2
          rw [attrsSum_single, if_neg]
          rw [he0buy, he0sell]
          cases isBuy <;> simp <;> omega
        have htouchb : attrsSum [e0] best.ts = q.val := by
          rw [attrsSum_single, if_pos]
          · rw [he0qty]
          · rw [he0buy, he0sell]
            cases isBuy <;> simp
        have htouchi : attrsSum [e0] st.incoming.ts = q.val := by
          rw [attrsSum_single, if_pos]
          · rw [he0qty]
          · rw [he0buy, he0sell]
            cases isBuy <;> simp
        -- the updated store and its conservation
        have hstore' : ∀ ent ∈ updStore best.ts rb (updStore st.incoming.ts ri st.store),
            ent.2.val = attrsSum (st.tradesA ++ [e0]) ent.1.ts + ent.1.remaining.val := by
          intro ent hent
          obtain ⟨ent0, h0, hform⟩ := updStore2_mem hent
          by_cases hc1 : ent0.1.ts = best.ts
          · have hent0 : ent0 = (best, ab) := store_ts_unique hnd h0 hab hc1
            rw [if_pos hc1] at hform
            rw [hform, attrsSum_append]
            simp only
            rw [hent0]
            simp only
            have hconsb := hcons ent0 h0
            rw [hent0] at hconsb
            simp only at hconsb
            have hrbv : rb.val = best.remaining.val - q.val := by rw [hrb, Dec.sub_val]
            rw [htouchb, hconsb, hrbv]
            ring
          · by_cases hc2 : ent0.1.ts = st.incoming.ts
            · have hent0 : ent0 = (st.incoming, ai) := store_ts_unique hnd h0 hai hc2
              rw [if_neg hc1, if_pos hc2] at hform
              rw [hform, attrsSum_append]
              simp only
              rw [hent0]
              simp only
              have hconsi := hcons ent0 h0
              rw [hent0] at hconsi
              simp only at hconsi
              have hriv : ri.val = st.incoming.remaining.val - q.val := by
                rw [hri, Dec.sub_val]
              rw [htouchi, hconsi, hriv]
              ring
            · rw [if_neg hc1, if_neg hc2] at hform
              rw [hform, attrsSum_append, htouch ent0.1.ts hc1 hc2]
              rw [hcons ent0 h0]
              ring
        have hndstore' : (storeTs (updStore best.ts rb
            (updStore st.incoming.ts ri st.store))).Nodup := by
          rw [storeTs_updStore, storeTs_updStore]
          exact hnd
        have hmem_unchanged : ∀ x ∈ rest, ∀ a0, (x, a0) ∈ st.store →
            (x, a0) ∈ updStore best.ts rb (updStore st.incoming.ts ri st.store) := by
          intro x hx a0 hmem
          have hx1 : x.ts ≠ st.incoming.ts := by
            intro hcq
            apply hdisj
            rw [← hcq]
            exact List.mem_map.mpr ⟨x, hperm.mem_iff.mpr (List.mem_cons_of_mem _ hx), rfl⟩
          have hx2 : x.ts ≠ best.ts := by
            intro hcq
            apply hbts_rest
            rw [← hcq]
            exact List.mem_map.mpr ⟨x, hx, rfl⟩
          exact updStore_mem_ne (updStore_mem_ne hmem hx1) hx2
        have hmem_inc : ({st.incoming with remaining := ri}, ai) ∈
            updStore best.ts rb (updStore st.incoming.ts ri st.store) := by
          have h1 := updStore_mem_eq (t := st.incoming.ts) (r := ri) hai rfl
          exact updStore_mem_ne h1 (by simpa using hbne.symm)
        have hmem_best : ({best with remaining := rb}, ab) ∈
            updStore best.ts rb (updStore st.incoming.ts ri st.store) := by
          have h1 := updStore_mem_ne (t := st.incoming.ts) (r := ri) hab hbne
          exact updStore_mem_eq h1 rfl
        by_cases hz : rb.isZero = true
        · rw [matchStep_removal (hrb ▸ hz)] at hrec
          apply ih hrec
          · simpa using hndstore'
          · simpa using hndrest
          · simpa using fun hcq => hdisj (hpermts.mem_iff.mpr (List.mem_cons_of_mem _ hcq))
          · intro x hx
            simp only at hx
            obtain ⟨a0, ha0⟩ := hsyncs x (hperm.mem_iff.mpr (List.mem_cons_of_mem _ hx))
            exact ⟨a0, by simpa using hmem_unchanged x hx a0 ha0⟩
          · exact ⟨ai, by simpa using hmem_inc⟩
          · simpa using hstore'
        · rw [matchStep_keep (hrb ▸ (Bool.not_eq_true _ ▸ hz))] at hrec
          apply ih hrec
          · simpa using hndstore'
          · simp only [sideTs, List.map_cons]
            exact List.nodup_cons.mpr ⟨by simpa [sideTs] using hbts_rest, hndrest⟩
          · simp only [sideTs, List.map_cons, List.mem_cons]
            rintro (hcq | hcq)
            · exact hbne (by simpa using hcq.symm)
            · exact hdisj (hpermts.mem_iff.mpr (List.mem_cons_of_mem _ (by simpa [sideTs] using hcq)))
          · intro x hx
            simp only at hx
            rcases List.mem_cons.mp hx with hcq | hcq
            · subst hcq
              exact ⟨ab, by simpa using hmem_best⟩
            · obtain ⟨a0, ha0⟩ := hsyncs x (hperm.mem_iff.mpr (List.mem_cons_of_mem _ hcq))
              exact ⟨a0, by simpa using hmem_unchanged x hcq a0 ha0⟩
          · exact ⟨ai, by simpa using hmem_inc⟩
          · simpa using hstore'

theorem sideTs_append (l1 l2 : List BookOrder) :
    sideTs (l1 ++ l2) = sideTs l1 ++ sideTs l2 := by
  simp [sideTs]

theorem storeTs_append (l1 l2 : List (BookOrder × Dec)) :
    storeTs (l1 ++ l2) = storeTs l1 ++ storeTs l2 := by
  simp [storeTs]

/-- A store entry whose order is neither on the facing side nor the incoming
order is never rewritten by the loop. -/
theorem matchLoopF_store_untouched {isBuy : Bool} {pr : String} :
    ∀ {fuel : ℕ} {st out : MatchSt}, matchLoopF isBuy pr fuel st = some out →
      ∀ ent ∈ st.store, ent.1.ts ∉ sideTs st.side → ent.1.ts ≠ st.incoming.ts →
      ent ∈ out.store := by
  intro fuel
  induction fuel with
  | zero =>
      intro st out h ent hent hside hinc
      rcases matchLoopF_cases h with ⟨heq, _⟩ | ⟨_, _, _, hf, _⟩
      · subst heq
        exact hent
      · omega
  | succ f ih =>
      intro st out h ent hent hside hinc
      rcases matchLoopF_cases h with ⟨heq, _⟩ | ⟨best, rest, f', hf, hpos, hex, hcr, hrec⟩
      · subst heq
        exact hent
      · have hf' : f' = f := by omega
        subst hf'
        have hbmem := extractBest_mem hex
        have hperm := extractBest_perm hex
        have hbts : best.ts ∈ sideTs st.side := List.mem_map.mpr ⟨best, hbmem, rfl⟩
        have hne_best : ent.1.ts ≠ best.ts := fun hc => hside (hc ▸ hbts)
        have hmem' : ent ∈ (matchStep isBuy pr st best rest).store := by
          unfold matchStep
          by_cases hz : (best.remaining.sub (tradeQty st.incoming best)).isZero = true
          · rw [if_pos hz]
            exact updStore_mem_ne (updStore_mem_ne hent hinc) hne_best
          · rw [if_neg hz]
            exact updStore_mem_ne (updStore_mem_ne hent hinc) hne_best
        have hrestsub : ∀ t ∈ sideTs rest, t ∈ sideTs st.side := by
          intro t ht
          have := hperm.map (fun o => o.ts)
          exact (List.Perm.mem_iff (by simpa [sideTs] using this)).mpr
            (List.mem_cons_of_mem _ ht)
        have hside' : ent.1.ts ∉ sideTs (matchStep isBuy pr st best rest).side := by
          unfold matchStep
          by_cases hz : (best.remaining.sub (tradeQty st.incoming best)).isZero = true
          · rw [if_pos hz]
            intro hc
            exact hside (hrestsub _ hc)
          · rw [if_neg hz]
            intro hc
            simp only [sideTs, List.map_cons, List.mem_cons] at hc
            rcases hc with hc | hc
            · exact hne_best (by simpa using hc)
            · exact hside (hrestsub _ hc)
        have hinc' : ent.1.ts ≠ (matchStep isBuy pr st best rest).incoming.ts := by
          unfold matchStep
          by_cases hz : (best.remaining.sub (tradeQty st.incoming best)).isZero = true
          · rw [if_pos hz]
            exact hinc
          · rw [if_neg hz]
            exact hinc
        exact ih hrec ent hmem' hside' hinc'

/-! ## The order book -/

/-- Per-pair book state (`OrderBook`).  `tradesA` and `store` carry the
instrumentation described above; the observable trade list is
`OrderBook.trades`. -/
structure OrderBook where
  pair : String
  bids : List BookOrder
  asks : List BookOrder
  idIndex : List (String × BookOrder)
  seq : ℕ
  tradesA : List (Trade × TradeAttr)
  store : List (BookOrder × Dec)
deriving Repr

/-- The observable trade list of a book. -/
def OrderBook.trades (b : OrderBook) : List Trade := b.tradesA.map Prod.fst

/-- `new OrderBook(pair)`. -/
def OrderBook.emptyBook (pr : String) : OrderBook :=
  { pair := pr, bids := [], asks := [], idIndex := [], seq := 0, tradesA := [], store := [] }

/-- `OrderBook.add`: index the order and push it onto its side. -/
def OrderBook.add (b : OrderBook) (o : BookOrder) : OrderBook :=
  if o.side = Side.BUY then
    { b with idIndex := idxSet o.id o b.idIndex, bids := b.bids ++ [o] }
  else
    { b with idIndex := idxSet o.id o b.idIndex, asks := b.asks ++ [o] }

/-- `OrderBook.remove`: delete the order object from its side's heap and the
id-index. -/
def OrderBook.removeOrder (b : OrderBook) (o : BookOrder) : OrderBook :=
  if o.side = Side.BUY then
    { b with bids := removeTs o.ts b.bids, idIndex := idxDel o.id b.idIndex }
  else
    { b with asks := removeTs o.ts b.asks, idIndex := idxDel o.id b.idIndex }

/-- The order object materialized by a CREATE command (`ts = seq`). -/
def newOrder (b : OrderBook) (raw : RawOrder) (price amount : Dec) : BookOrder :=
  { id := raw.order_id, account := raw.account_id, side := raw.side,
    pair := raw.pair, price := price, remaining := amount, ts := b.seq }

/-- The state of the `while` loop of `OrderBook.match` at entry: the incoming
order faces the opposite side; the new order object is already recorded in
the store. -/
def startState (b : OrderBook) (raw : RawOrder) (price amount : Dec) : MatchSt :=
  { incoming := newOrder b raw price amount
    side := if raw.side = Side.BUY then b.asks else b.bids
    idIndex := b.idIndex
    tradesA := b.tradesA
    store := b.store ++ [(newOrder b raw price amount, amount)] }

/-- The book state after `this.match(order)` returns: the consumed opposite
side, the id-index, the trades and the store are written back, and the
sequence counter has been bumped by the CREATE. -/
def afterMatch (b : OrderBook) (raw : RawOrder) (out : MatchSt) : OrderBook :=
  if raw.side = Side.BUY then
    { b with seq := b.seq + 1, asks := out.side, idIndex := out.idIndex,
             tradesA := out.tradesA, store := out.store }
  else
    { b with seq := b.seq + 1, bids := out.side, idIndex := out.idIndex,
             tradesA := out.tradesA, store := out.store }

/-- `OrderBook.process`: the command state machine.  `none` signals a thrown
`InvalidDecimal` (`new Big(...)` on a malformed string), which fails the
whole run.  A CREATE materializes the order, runs the crossing loop
(`side.length + 1` units of fuel always suffice, `matchLoopF_enough`), and
adds the order to its side exactly when its remaining is still positive. -/
def OrderBook.process (b : OrderBook) (raw : RawOrder) : Option OrderBook :=
  match raw.type_op with
  | OpType.DELETE =>
      some (match idxGet raw.order_id b.idIndex with
            | none => b
            | some found => b.removeOrder found)
  | OpType.CREATE =>
      match Dec.parseDec raw.limit_price, Dec.parseDec raw.amount with
      | some price, some amount =>
          (matchLoopF (decide (raw.side = Side.BUY)) b.pair
              ((if raw.side = Side.BUY then b.asks else b.bids).length + 1)
              (startState b raw price amount)).map
            (fun out =>
              if out.incoming.remaining.isPos then (afterMatch b raw out).add out.incoming
              else afterMatch b raw out)
      | _, _ => none

/-- `OrderBook.normalize`: the snapshot of the resting orders.  The binary
heap's backing-array iteration order is not modelled; the snapshot carries
the same entries in insertion order. -/
def OrderBook.normalize (b : OrderBook) : Snapshot :=
  { pair := b.pair
    bids := b.bids.map (fun o =>
      { id := o.id
        account := o.account
        price := Dec.toString o.price
        remaining := Dec.toString o.remaining })
    asks := b.asks.map (fun o =>
      { id := o.id
        account := o.account
        price := Dec.toString o.price
        remaining := Dec.toString o.remaining }) }

/-! ## The book invariant -/

/-- The resting orders of a book. -/
def restingOrders (b : OrderBook) : List BookOrder := b.bids ++ b.asks

/-- Well-formedness of an emitted trade against the book's object store: the
trade's string fields were read off the recorded participant objects, one of
which is the maker and the other the taker. -/
def AttrOK (store : List (BookOrder × Dec)) (e : Trade × TradeAttr) : Prop :=
  e.1.price = Dec.toString e.2.makerPrice ∧
  e.1.amount = Dec.toString e.2.qty ∧
  (∃ eb ∈ store, eb.1.ts = e.2.buyTs ∧ eb.1.id = e.1.buyOrderId) ∧
  (∃ es ∈ store, es.1.ts = e.2.sellTs ∧ es.1.id = e.1.sellOrderId) ∧
  (∃ em ∈ store, em.1.ts = e.2.makerTs ∧ em.1.price = e.2.makerPrice) ∧
  (∃ et ∈ store, et.1.ts = e.2.takerTs ∧ et.1.price = e.2.takerPrice) ∧
  ((e.2.makerTs = e.2.sellTs ∧ e.2.takerTs = e.2.buyTs) ∨
   (e.2.makerTs = e.2.buyTs ∧ e.2.takerTs = e.2.sellTs))

/-- The reachable-state invariant of an order book. -/
structure BookInv (b : OrderBook) : Prop where
  bids_side : ∀ o ∈ b.bids, o.side = Side.BUY
  asks_side : ∀ o ∈ b.asks, o.side = Side.SELL
  resting_store : ∀ o ∈ restingOrders b, ∃ a0, (o, a0) ∈ b.store
  store_nodup : (storeTs b.store).Nodup
  store_lt_seq : ∀ ent ∈ b.store, ent.1.ts < b.seq
  resting_nodup : (sideTs (restingOrders b)).Nodup
  resting_pos : ∀ o ∈ restingOrders b, o.remaining.isPos = true
  nocross : ∀ x ∈ b.bids, ∀ y ∈ b.asks, x.price.val < y.price.val
  conserve : ∀ ent ∈ b.store, ent.2.val = attrsSum b.tradesA ent.1.ts + ent.1.remaining.val
  attrok : ∀ e ∈ b.tradesA, AttrOK b.store e
  fifo : ∀ A ∈ restingOrders b, ∀ ent ∈ b.store, A.side = ent.1.side →
    A.price.val = ent.1.price.val → A.ts < ent.1.ts →
    ∀ e ∈ b.tradesA, e.2.buyTs ≠ ent.1.ts ∧ e.2.sellTs ≠ ent.1.ts
  store_pair : ∀ ent ∈ b.store, ent.1.pair = b.pair
  trade_pair : ∀ e ∈ b.tradesA, e.1.pair = b.pair

theorem BookInv.emptyBook (pr : String) : BookInv (OrderBook.emptyBook pr) := by
  constructor <;> simp [OrderBook.emptyBook, restingOrders, storeTs, sideTs]

/-- Resting orders carry timestamps below the sequence counter. -/
theorem resting_ts_lt {b : OrderBook} (hinv : BookInv b) {o : BookOrder}
    (ho : o ∈ restingOrders b) : o.ts < b.seq := by
  obtain ⟨a0, ha0⟩ := hinv.resting_store o ho
  exact hinv.store_lt_seq (o, a0) ha0

/-- Attribute timestamps of recorded trades are below the sequence counter. -/
theorem attr_ts_lt {b : OrderBook} (hinv : BookInv b) {e : Trade × TradeAttr}
    (he : e ∈ b.tradesA) :
    e.2.buyTs < b.seq ∧ e.2.sellTs < b.seq ∧ e.2.makerTs < b.seq ∧ e.2.takerTs < b.seq := by
  obtain ⟨_, _, ⟨eb, hb, hb1, _⟩, ⟨es, hs, hs1, _⟩, ⟨em, hm, hm1, _⟩, ⟨et, ht, ht1, _⟩, _⟩ :=
    hinv.attrok e he
  exact ⟨hb1 ▸ hinv.store_lt_seq eb hb, hs1 ▸ hinv.store_lt_seq es hs,
    hm1 ▸ hinv.store_lt_seq em hm, ht1 ▸ hinv.store_lt_seq et ht⟩

theorem attrsSum_zero_of_fresh {l : List (Trade × TradeAttr)} {t : ℕ}
    (h : ∀ e ∈ l, e.2.buyTs ≠ t ∧ e.2.sellTs ≠ t) : attrsSum l t = 0 := by
  unfold attrsSum
  rw [List.sum_eq_zero]
  intro x hx
  obtain ⟨e, he, rfl⟩ := List.mem_map.mp hx
  rw [if_neg]
  rintro (hc | hc)
  · exact (h e he).1 hc
  · exact (h e he).2 hc

theorem removeTs_sublist (t : ℕ) (l : List BookOrder) : (removeTs t l).Sublist l := by
  induction l with
  | nil => simp [removeTs]
  | cons o rest ih =>
      unfold removeTs
      by_cases h : o.ts = t
      · rw [if_pos h]
        exact List.sublist_cons_self o rest
      · rw [if_neg h]
        exact ih.cons₂ o

theorem removeTs_subset {t : ℕ} {l : List BookOrder} {x : BookOrder}
    (h : x ∈ removeTs t l) : x ∈ l := (removeTs_sublist t l).mem h

/-- Transport of a store entry's immutable fields across the loop: any entry
of the pre-store has a post-store entry with the same `ts`, `id`, `side`,
`pair`, `price` and initial amount. -/
theorem store_witness_transport {store1 store2 : List (BookOrder × Dec)}
    (hnd : (storeTs store1).Nodup)
    (hts : storeTs store2 = storeTs store1)
    (htrace : ∀ ent ∈ store2, ∃ ent0 ∈ store1, SameOrd ent0.1 ent.1 ∧ ent0.2 = ent.2)
    {ent : BookOrder × Dec} (hent : ent ∈ store1) :
    ∃ ent' ∈ store2, ent'.1.ts = ent.1.ts ∧ ent'.1.id = ent.1.id ∧
      ent'.1.side = ent.1.side ∧ ent'.1.pair = ent.1.pair ∧
      ent'.1.price = ent.1.price ∧ ent'.2 = ent.2 := by
  have hmem : ent.1.ts ∈ storeTs store2 := by
    rw [hts]
    exact List.mem_map.mpr ⟨ent, hent, rfl⟩
  obtain ⟨ent', hent', hts'⟩ := List.mem_map.mp hmem
  obtain ⟨ent0, h0, hso, he2⟩ := htrace ent' hent'
  obtain ⟨hid, hacc, hside, hpair, hprice, htseq⟩ := sameOrd_fields hso
  have h00 : ent0 = ent := store_ts_unique hnd h0 hent (by rw [← htseq, hts'])
  subst h00
  exact ⟨ent', hent', hts', hid, hside, hpair, hprice, he2.symm⟩

/-- `AttrOK` is monotone in the store. -/
theorem AttrOK_mono {s1 s2 : List (BookOrder × Dec)} (hsub : ∀ ent ∈ s1, ent ∈ s2)
    {e : Trade × TradeAttr} (h : AttrOK s1 e) : AttrOK s2 e := by
  obtain ⟨h1, h2, ⟨eb, hb, hb1, hb2⟩, ⟨es, hs, hs1, hs2⟩, ⟨em, hm, hm1, hm2⟩,
    ⟨et, ht, ht1, ht2⟩, hd⟩ := h
  exact ⟨h1, h2, ⟨eb, hsub eb hb, hb1, hb2⟩, ⟨es, hsub es hs, hs1, hs2⟩,
    ⟨em, hsub em hm, hm1, hm2⟩, ⟨et, hsub et ht, ht1, ht2⟩, hd⟩

/-- `AttrOK` transports along the loop's store rewrite: only `remaining`
changes, which `AttrOK` never reads. -/
theorem AttrOK_transport {store1 store2 : List (BookOrder × Dec)}
    (hnd : (storeTs store1).Nodup)
    (hts : storeTs store2 = storeTs store1)
    (htrace : ∀ ent ∈ store2, ∃ ent0 ∈ store1, SameOrd ent0.1 ent.1 ∧ ent0.2 = ent.2)
    {e : Trade × TradeAttr} (h : AttrOK store1 e) : AttrOK store2 e := by
  obtain ⟨h1, h2, ⟨eb, hb, hb1, hb2⟩, ⟨es, hs, hs1, hs2⟩, ⟨em, hm, hm1, hm2⟩,
    ⟨et, ht, ht1, ht2⟩, hd⟩ := h
  obtain ⟨eb', hb', hbts, hbid, _, _, _, _⟩ := store_witness_transport hnd hts htrace hb
  obtain ⟨es', hs', hsts, hsid, _, _, _, _⟩ := store_witness_transport hnd hts htrace hs
  obtain ⟨em', hm', hmts, _, _, _, hmp, _⟩ := store_witness_transport hnd hts htrace hm
  obtain ⟨et', ht', htts, _, _, _, htp, _⟩ := store_witness_transport hnd hts htrace ht
  exact ⟨h1, h2, ⟨eb', hb', hbts.trans hb1, hbid.trans hb2⟩,
    ⟨es', hs', hsts.trans hs1, hsid.trans hs2⟩,
    ⟨em', hm', hmts.trans hm1, hmp.trans hm2⟩,
    ⟨et', ht', htts.trans ht1, htp.trans ht2⟩, hd⟩

/-- Removing a resting order (the DELETE path) preserves the invariant. -/
theorem BookInv.removeOrderInv {b : OrderBook} (hinv : BookInv b) (found : BookOrder) :
    BookInv (b.removeOrder found) := by
  have hgen : ∀ bids' asks' idx', bids'.Sublist b.bids → asks'.Sublist b.asks →
      BookInv { b with bids := bids', asks := asks', idIndex := idx' } := by
    intro bids' asks' idx' hb ha
    have hrsub : (restingOrders { b with bids := bids', asks := asks', idIndex := idx' }).Sublist
        (restingOrders b) := hb.append ha
    constructor
    · intro o ho
      exact hinv.bids_side o (hb.mem ho)
    · intro o ho
      exact hinv.asks_side o (ha.mem ho)
    · intro o ho
      exact hinv.resting_store o (hrsub.mem ho)
    · exact hinv.store_nodup
    · exact hinv.store_lt_seq
    · have hsub2 : (sideTs (restingOrders { b with bids := bids', asks := asks', idIndex := idx' })).Sublist (sideTs (restingOrders b)) := by
        unfold sideTs
        exact hrsub.map _
      exact hsub2.nodup hinv.resting_nodup
    · intro o ho
      exact hinv.resting_pos o (hrsub.mem ho)
    · intro x hx y hy
      exact hinv.nocross x (hb.mem hx) y (ha.mem hy)
    · exact hinv.conserve
    · exact hinv.attrok
    · intro A hA ent hent h1 h2 h3 e he
      exact hinv.fifo A (hrsub.mem hA) ent hent h1 h2 h3 e he
    · exact hinv.store_pair
    · exact hinv.trade_pair
  unfold OrderBook.removeOrder
  by_cases hside : found.side = Side.BUY
  · rw [if_pos hside]
    exact hgen _ _ _ (removeTs_sublist _ _) (List.Sublist.refl _)
  · rw [if_neg hside]
    exact hgen _ _ _ (List.Sublist.refl _) (removeTs_sublist _ _)

/-- Characterization of the CREATE path of `process`: the crossing loop runs
to completion on `startState`, and the result is written back, the incoming
order being added to its own side exactly when its remaining is positive. -/
theorem process_create_char {b b' : OrderBook} {raw : RawOrder} {price amount : Dec}
    (hop : raw.type_op = OpType.CREATE)
    (hp : Dec.parseDec raw.limit_price = some price)
    (ha : Dec.parseDec raw.amount = some amount)
    (h : b.process raw = some b') :
    ∃ out, matchLoopF (decide (raw.side = Side.BUY)) b.pair
        ((if raw.side = Side.BUY then b.asks else b.bids).length + 1)
        (startState b raw price amount) = some out ∧
      b' = (if out.incoming.remaining.isPos then (afterMatch b raw out).add out.incoming
            else afterMatch b raw out) := by
  unfold OrderBook.process at h
  rw [hop] at h
  dsimp only at h
  rw [hp, ha] at h
  obtain ⟨out, hout, hb'⟩ := Option.map_eq_some'.mp h
  exact ⟨out, hout, hb'.symm⟩


set_option maxHeartbeats 1000000 in
theorem BookInv.createInv {b : OrderBook} (hinv : BookInv b) {raw : RawOrder}
    (hpair : raw.pair = b.pair) {price amount : Dec} {out : MatchSt}
    (hout : matchLoopF (decide (raw.side = Side.BUY)) b.pair
        ((if raw.side = Side.BUY then b.asks else b.bids).length + 1)
        (startState b raw price amount) = some out) :
    BookInv (if out.incoming.remaining.isPos then (afterMatch b raw out).add out.incoming
             else afterMatch b raw out) := by
  obtain ⟨hso, _, hsurv, htrace, hstorets⟩ := matchLoopF_frame hout
  obtain ⟨hiid, hiacc, hiside, hipair, hiprice, hits⟩ := sameOrd_fields hso
  have hst0store : (startState b raw price amount).store =
      b.store ++ [(newOrder b raw price amount, amount)] := rfl
  have hst0tr : (startState b raw price amount).tradesA = b.tradesA := rfl
  have hst0ts : storeTs (startState b raw price amount).store =
      storeTs b.store ++ [b.seq] := by
    rw [hst0store, storeTs_append]
    rfl
  have hlt : ∀ t ∈ storeTs b.store, t < b.seq := by
    intro t ht
    obtain ⟨ent, hent, rfl⟩ := List.mem_map.mp ht
    exact hinv.store_lt_seq ent hent
  have hnd0 : (storeTs (startState b raw price amount).store).Nodup := by
    rw [hst0ts, List.nodup_append]
    refine ⟨hinv.store_nodup, List.nodup_singleton _, ?_⟩
    intro t ht hmem
    exact absurd (List.mem_singleton.mp hmem) (hlt t ht).ne
  have hrest_lt : ∀ t ∈ sideTs (restingOrders b), t < b.seq := by
    intro t ht
    obtain ⟨o, ho, rfl⟩ := List.mem_map.mp ht
    exact resting_ts_lt hinv ho
  have hresnd : (sideTs b.bids).Nodup ∧ (sideTs b.asks).Nodup ∧
      List.Disjoint (sideTs b.bids) (sideTs b.asks) := by
    have h0 := hinv.resting_nodup
    rw [restingOrders, sideTs_append, List.nodup_append] at h0
    exact h0
  have hst0sideB : raw.side = Side.BUY →
      (startState b raw price amount).side = b.asks := by
    intro hbuy
    simp [startState, hbuy]
  have hst0sideS : raw.side ≠ Side.BUY →
      (startState b raw price amount).side = b.bids := by
    intro hbuy
    simp [startState, hbuy]
  have hside_resting : ∀ x ∈ (startState b raw price amount).side,
      x ∈ restingOrders b := by
    intro x hx
    by_cases hbuy : raw.side = Side.BUY
    · rw [hst0sideB hbuy] at hx
      exact List.mem_append_right _ hx
    · rw [hst0sideS hbuy] at hx
      exact List.mem_append_left _ hx
  have hsnd0 : (sideTs (startState b raw price amount).side).Nodup := by
    by_cases hbuy : raw.side = Side.BUY
    · rw [hst0sideB hbuy]
      exact hresnd.2.1
    · rw [hst0sideS hbuy]
      exact hresnd.1
  have hdisj0 : (startState b raw price amount).incoming.ts ∉
      sideTs (startState b raw price amount).side := by
    intro hmem
    obtain ⟨o, ho, hots⟩ := List.mem_map.mp hmem
    exact absurd hots (resting_ts_lt hinv (hside_resting o ho)).ne
  have hsyncs0 : ∀ x ∈ (startState b raw price amount).side,
      ∃ a0, (x, a0) ∈ (startState b raw price amount).store := by
    intro x hx
    obtain ⟨a0, ha0⟩ := hinv.resting_store x (hside_resting x hx)
    exact ⟨a0, by rw [hst0store]; exact List.mem_append_left _ ha0⟩
  have hsynci0 : ∃ a0, ((startState b raw price amount).incoming, a0) ∈
      (startState b raw price amount).store := by
    refine ⟨amount, ?_⟩
    rw [hst0store]
    exact List.mem_append_right _ (List.mem_singleton.mpr rfl)
  have hfreshattr : attrsSum b.tradesA b.seq = 0 :=
    attrsSum_zero_of_fresh (fun e he =>
      ⟨(attr_ts_lt hinv he).1.ne, (attr_ts_lt hinv he).2.1.ne⟩)
  have hcons0 : ∀ ent ∈ (startState b raw price amount).store,
      ent.2.val = attrsSum (startState b raw price amount).tradesA ent.1.ts +
        ent.1.remaining.val := by
    rw [hst0store, hst0tr]
    intro ent hent
    rcases List.mem_append.mp hent with h | h
    · exact hinv.conserve ent h
    · rw [List.mem_singleton] at h
      subst h
      show amount.val = attrsSum b.tradesA b.seq + amount.val
      rw [hfreshattr]
      ring
  have hpos0 : ∀ x ∈ (startState b raw price amount).side,
      x.remaining.isPos = true := by
    intro x hx
    exact hinv.resting_pos x (hside_resting x hx)
  obtain ⟨hsyncs, hsynci, hcons⟩ :=
    matchLoopF_conserve hout hnd0 hsnd0 hdisj0 hsyncs0 hsynci0 hcons0
  obtain ⟨hosnd, hosub, hoposf⟩ := matchLoopF_side hout hsnd0
  have hopos := hoposf hpos0
  obtain ⟨nt, hnt, hntok⟩ := matchLoopF_trades hout
  have huncr := matchLoopF_uncrossed hout
  have huntouched := matchLoopF_store_untouched hout
  have hmaxts : ∀ ent ∈ out.store, ent.1.ts ≤ b.seq := by
    intro ent hent
    have h1 : ent.1.ts ∈ storeTs out.store := List.mem_map.mpr ⟨ent, hent, rfl⟩
    rw [hstorets, hst0ts] at h1
    rcases List.mem_append.mp h1 with h | h
    · exact (hlt _ h).le
    · rw [List.mem_singleton] at h
      exact h.le
  have hent0split : ∀ ent ∈ out.store,
      (∃ ent0 ∈ b.store, SameOrd ent0.1 ent.1 ∧ ent0.2 = ent.2) ∨
      (SameOrd (newOrder b raw price amount) ent.1 ∧ ent.2 = amount ∧
        ent.1.ts = b.seq) := by
    intro ent hent
    obtain ⟨ent0, hent0, hso0, he20⟩ := htrace ent hent
    rw [hst0store] at hent0
    rcases List.mem_append.mp hent0 with h | h
    · exact Or.inl ⟨ent0, h, hso0, he20⟩
    · rw [List.mem_singleton] at h
      subst h
      refine Or.inr ⟨hso0, he20.symm, ?_⟩
      rw [(sameOrd_fields hso0).2.2.2.2.2]
      rfl
  have hts_eq_seq : ∀ ent ∈ out.store, ent.1.ts = b.seq →
      SameOrd (newOrder b raw price amount) ent.1 ∧ ent.2 = amount := by
    intro ent hent hts
    rcases hent0split ent hent with ⟨ent0, h0, hso0, _⟩ | ⟨hso0, h2, _⟩
    · rw [(sameOrd_fields hso0).2.2.2.2.2] at hts
      exact absurd hts (hinv.store_lt_seq ent0 h0).ne
    · exact ⟨hso0, h2⟩
  have hts_resting : ∀ ent ∈ out.store, ∀ o ∈ restingOrders b, ent.1.ts = o.ts →
      ent.1.side = o.side ∧ ent.1.price = o.price := by
    intro ent hent o ho hts
    obtain ⟨ao, hao⟩ := hinv.resting_store o ho
    rcases hent0split ent hent with ⟨ent0, h0, hso0, _⟩ | ⟨hso0, _, hseq⟩
    · have hts0 : ent0.1.ts = o.ts := by
        rw [← (sameOrd_fields hso0).2.2.2.2.2]
        exact hts
      have heq := store_ts_unique hinv.store_nodup h0 hao hts0
      rw [heq] at hso0
      obtain ⟨_, _, hsideq, _, hpriceq, _⟩ := sameOrd_fields hso0
      exact ⟨hsideq, hpriceq⟩
    · rw [hseq] at hts
      exact absurd hts.symm (resting_ts_lt hinv ho).ne
  by_cases hbuy : raw.side = Side.BUY
  · have hdec : (decide (raw.side = Side.BUY)) = true := by simp [hbuy]
    have hst0side := hst0sideB hbuy
    have hincside : out.incoming.side = Side.BUY := by rw [hiside]; exact hbuy
    have hincts : out.incoming.ts = b.seq := hits
    have hincprice : out.incoming.price = price := hiprice
    have hsurv2 : ∀ x ∈ out.side, ∃ x0 ∈ b.asks, SameOrd x0 x := by
      intro x hx
      obtain ⟨x0, hx0, hsx⟩ := hsurv x hx
      rw [hst0side] at hx0
      exact ⟨x0, hx0, hsx⟩
    have hosub2 : ∀ t ∈ sideTs out.side, t ∈ sideTs b.asks := by
      intro t ht
      have h1 := hosub t ht
      rwa [hst0side] at h1
    have hsidelt : ∀ x ∈ out.side, x.ts < b.seq := by
      intro x hx
      obtain ⟨x0, hx0, hsx⟩ := hsurv2 x hx
      rw [(sameOrd_fields hsx).2.2.2.2.2]
      exact resting_ts_lt hinv (List.mem_append_right _ hx0)
    have hsidesell : ∀ x ∈ out.side, x.side = Side.SELL := by
      intro x hx
      obtain ⟨x0, hx0, hsx⟩ := hsurv2 x hx
      rw [(sameOrd_fields hsx).2.2.1]
      exact hinv.asks_side x0 hx0
    have hbidstore : ∀ o ∈ b.bids, ∀ a0, (o, a0) ∈ b.store → (o, a0) ∈ out.store := by
      intro o ho a0 ha0
      refine huntouched (o, a0) ?_ ?_ ?_
      · rw [hst0store]
        exact List.mem_append_left _ ha0
      · rw [hst0side]
        intro hmem
        exact hresnd.2.2 (List.mem_map.mpr ⟨o, ho, rfl⟩) hmem
      · exact (resting_ts_lt hinv (List.mem_append_left _ ho)).ne
    have hNT : ∀ e ∈ nt, e.1.pair = b.pair ∧ e.1.price = Dec.toString e.2.makerPrice ∧
        e.1.amount = Dec.toString e.2.qty ∧
        e.2.takerTs = b.seq ∧ e.2.takerPrice = price ∧
        e.2.buyTs = b.seq ∧ e.1.buyOrderId = raw.order_id ∧
        (∃ m0 ∈ b.asks, m0.ts = e.2.makerTs ∧ m0.price = e.2.makerPrice ∧
          e.2.sellTs = m0.ts ∧ e.1.sellOrderId = m0.id) ∧
        e.2.makerPrice.val ≤ price.val ∧
        (∀ x ∈ out.side, ¬(x.price.val = e.2.makerPrice.val ∧ x.ts < e.2.makerTs)) := by
      intro e he
      obtain ⟨hepair, heprice, heamt, htkts, htkp, ⟨m0, hm0, hm0ts, hm0p, hcase⟩, hrel, hmin⟩ :=
        hntok e he
      rw [hst0side] at hm0
      rcases hcase with ⟨_, hbts, hsts, hbid, hsid⟩ | ⟨hfalse, _⟩
      · refine ⟨hepair, heprice, heamt, htkts, htkp, hbts, hbid,
          ⟨m0, hm0, hm0ts, hm0p, hsts, hsid⟩, ?_, hmin⟩
        have h1 := hrel.1 hdec
        rw [htkp] at h1
        exact h1
      · simp [hbuy] at hfalse
    have huncr2 : out.incoming.remaining.isPos = true →
        ∀ y ∈ out.side, price.val < y.price.val := by
      intro hp y hy
      exact (huncr hp y hy).1 hdec
    have hcore : ∀ incL : List BookOrder, ∀ idx : List (String × BookOrder),
        (∀ o ∈ incL, o = out.incoming) → (sideTs incL).Nodup →
        (incL ≠ [] → out.incoming.remaining.isPos = true) →
        BookInv { b with seq := b.seq + 1, bids := b.bids ++ incL, asks := out.side, idIndex := idx, tradesA := out.tradesA, store := out.store } := by
      intro incL idx hincL hndI hposL
      have hmemInc : ∀ o ∈ incL, o = out.incoming ∧ out.incoming.remaining.isPos = true :=
        fun o ho => ⟨hincL o ho, hposL (List.ne_nil_of_mem ho)⟩
      have hseqI : ∀ t ∈ sideTs incL, t = b.seq := by
        intro t ht
        obtain ⟨o, ho, rfl⟩ := List.mem_map.mp ht
        rw [(hmemInc o ho).1, hincts]
      constructor
      · intro o ho
        rcases List.mem_append.mp ho with h | h
        · exact hinv.bids_side o h
        · rw [(hmemInc o h).1]
          exact hincside
      · intro o ho
        exact hsidesell o ho
      · intro o ho
        simp only [restingOrders] at ho
        rcases List.mem_append.mp ho with h | h
        · rcases List.mem_append.mp h with hb | hI
          · obtain ⟨a0, ha0⟩ := hinv.resting_store o (List.mem_append_left _ hb)
            exact ⟨a0, hbidstore o hb a0 ha0⟩
          · rw [(hmemInc o hI).1]
            exact hsynci
        · exact hsyncs o h
      · show (storeTs out.store).Nodup
        rw [hstorets]
        exact hnd0
      · intro ent hent
        have h1 := hmaxts ent hent
        show ent.1.ts < b.seq + 1
        omega
      · show (sideTs ((b.bids ++ incL) ++ out.side)).Nodup
        rw [sideTs_append, sideTs_append, List.nodup_append, List.nodup_append]
        refine ⟨⟨hresnd.1, hndI, ?_⟩, hosnd, ?_⟩
        · intro t htb htI
          have h1 := hseqI t htI
          have h2 := hrest_lt t (by rw [restingOrders, sideTs_append]; exact List.mem_append_left _ htb)
          omega
        · intro t ht htS
          have hta : t ∈ sideTs b.asks := hosub2 t htS
          rcases List.mem_append.mp ht with htb | htI
          · exact hresnd.2.2 htb hta
          · have h1 := hseqI t htI
            have h2 := hrest_lt t (by rw [restingOrders, sideTs_append]; exact List.mem_append_right _ hta)
            omega
      · intro o ho
        simp only [restingOrders] at ho
        rcases List.mem_append.mp ho with h | h
        · rcases List.mem_append.mp h with hb | hI
          · exact hinv.resting_pos o (List.mem_append_left _ hb)
          · rw [(hmemInc o hI).1]
            exact (hmemInc o hI).2
        · exact hopos o h
      · intro x hx y hy
        rcases List.mem_append.mp hx with hxb | hxI
        · obtain ⟨y0, hy0, hsy⟩ := hsurv2 y hy
          rw [(sameOrd_fields hsy).2.2.2.2.1]
          exact hinv.nocross x hxb y0 hy0
        · rw [(hmemInc x hxI).1, hincprice]
          exact huncr2 (hmemInc x hxI).2 y hy
      · intro ent hent
        exact hcons ent hent
      · intro e he
        have he2 : e ∈ b.tradesA ++ nt := by
          rw [← hst0tr, ← hnt]
          exact he
        rcases List.mem_append.mp he2 with h | h
        · refine AttrOK_transport hnd0 hstorets htrace (AttrOK_mono ?_ (hinv.attrok e h))
          intro ent hent
          rw [hst0store]
          exact List.mem_append_left _ hent
        · obtain ⟨hepair2, heprice2, heamt2, htkts2, htkp2, hbts2, hbid2,
            ⟨m0, hm0, hm0ts, hm0p, hsts2, hsid2⟩, hle2, hmin2⟩ := hNT e h
          obtain ⟨ai, hai⟩ := hsynci
          obtain ⟨am, ham⟩ := hinv.resting_store m0 (List.mem_append_right _ hm0)
          have hamst0 : (m0, am) ∈ (startState b raw price amount).store := by
            rw [hst0store]
            exact List.mem_append_left _ ham
          obtain ⟨em2, hem2, hemts, hemid, _, _, hemprice, _⟩ :=
            store_witness_transport hnd0 hstorets htrace hamst0
          refine ⟨heprice2, heamt2, ⟨(out.incoming, ai), hai, ?_, ?_⟩,
            ⟨em2, hem2, ?_, ?_⟩, ⟨em2, hem2, ?_, ?_⟩, ⟨(out.incoming, ai), hai, ?_, ?_⟩, ?_⟩
          · rw [hincts, hbts2]
          · rw [hbid2]
            exact hiid
          · rw [hemts, hsts2]
          · rw [hemid, hsid2]
          · rw [hemts, ← hm0ts]
          · rw [hemprice, hm0p]
          · rw [hincts, htkts2]
          · rw [hincprice, htkp2]
          · exact Or.inl ⟨by rw [hsts2, hm0ts], by rw [htkts2, hbts2]⟩
      · intro A hA ent hent hAside hAprice hAts e he
        simp only [restingOrders] at hA
        have he2 : e ∈ b.tradesA ++ nt := by
          rw [← hst0tr, ← hnt]
          exact he
        have hAnotI : A ∈ b.bids ∨ A ∈ out.side := by
          rcases List.mem_append.mp hA with hA1 | hAS
          · rcases List.mem_append.mp hA1 with hAb | hAI
            · exact Or.inl hAb
            · exfalso
              have h1 := (hmemInc A hAI).1
              have h2 := hmaxts ent hent
              rw [h1, hincts] at hAts
              omega
          · exact Or.inr hAS
        rcases List.mem_append.mp he2 with heOld | heNew
        · rcases hent0split ent hent with ⟨ent0, h0, hso0, _⟩ | ⟨_, _, hseq⟩
          · obtain ⟨_, _, hside0, _, hprice0, hts0⟩ := sameOrd_fields hso0
            rw [hts0]
            rcases hAnotI with hAb | hAS
            · refine hinv.fifo A (List.mem_append_left _ hAb) ent0 h0 ?_ ?_ ?_ e heOld
              · rw [hAside, hside0]
              · rw [hAprice, hprice0]
              · rw [← hts0]
                exact hAts
            · obtain ⟨A0, hA0, hsA⟩ := hsurv2 A hAS
              obtain ⟨_, _, hsideA, _, hpriceA, htsA⟩ := sameOrd_fields hsA
              refine hinv.fifo A0 (List.mem_append_right _ hA0) ent0 h0 ?_ ?_ ?_ e heOld
              · rw [← hsideA, hAside, hside0]
              · rw [← hpriceA, hAprice, hprice0]
              · rw [← htsA, ← hts0]
                exact hAts
          · rw [hseq]
            exact ⟨(attr_ts_lt hinv heOld).1.ne, (attr_ts_lt hinv heOld).2.1.ne⟩
        · obtain ⟨_, _, _, _, _, hbts2, _, ⟨m0, hm0, hm0ts, hm0p, hsts2, _⟩, hle2, hmin2⟩ :=
            hNT e heNew
          constructor
          · intro hq
            rw [hbts2] at hq
            obtain ⟨hsoN, _⟩ := hts_eq_seq ent hent hq.symm
            obtain ⟨_, _, hsideN, _, hpriceN, _⟩ := sameOrd_fields hsoN
            have hAbuy : A.side = Side.BUY := by
              rw [hAside, hsideN]
              exact hbuy
            rcases hAnotI with hAb | hAS
            · have hc := hinv.nocross A hAb m0 hm0
              rw [hm0p] at hc
              have hAp : A.price.val = price.val := by
                rw [hAprice, hpriceN]
                rfl
              linarith
            · have hc := hsidesell A hAS
              rw [hAbuy] at hc
              cases hc
          · intro hq
            rw [hsts2] at hq
            have hm0r : m0 ∈ restingOrders b := List.mem_append_right _ hm0
            obtain ⟨hsideM, hpriceM⟩ := hts_resting ent hent m0 hm0r hq.symm
            have hAsell : A.side = Side.SELL := by
              rw [hAside, hsideM]
              exact hinv.asks_side m0 hm0
            rcases hAnotI with hAb | hAS
            · have hc := hinv.bids_side A hAb
              rw [hAsell] at hc
              cases hc
            · refine hmin2 A hAS ⟨?_, ?_⟩
              · rw [hAprice, hpriceM, hm0p]
              · rw [← hm0ts, hq]
                exact hAts
      · intro ent hent
        rcases hent0split ent hent with ⟨ent0, h0, hso0, _⟩ | ⟨hso0, _, _⟩
        · rw [(sameOrd_fields hso0).2.2.2.1]
          exact hinv.store_pair ent0 h0
        · rw [(sameOrd_fields hso0).2.2.2.1]
          exact hpair
      · intro e he
        have he2 : e ∈ b.tradesA ++ nt := by
          rw [← hst0tr, ← hnt]
          exact he
        rcases List.mem_append.mp he2 with h | h
        · exact hinv.trade_pair e h
        · exact (hNT e h).1
    by_cases hposf : out.incoming.remaining.isPos = true
    · rw [if_pos hposf]
      have hX : (afterMatch b raw out).add out.incoming =
          { b with seq := b.seq + 1, bids := b.bids ++ [out.incoming], asks := out.side, idIndex := idxSet out.incoming.id out.incoming out.idIndex, tradesA := out.tradesA, store := out.store } := by
        rw [afterMatch, if_pos hbuy, OrderBook.add, if_pos hincside]
      rw [hX]
      refine hcore [out.incoming] _ ?_ ?_ (fun _ => hposf)
      · intro o ho
        rw [List.mem_singleton] at ho
        exact ho
      · simp [sideTs]
    · rw [if_neg hposf]
      have hX : afterMatch b raw out =
          { b with seq := b.seq + 1, bids := b.bids ++ [], asks := out.side, idIndex := out.idIndex, tradesA := out.tradesA, store := out.store } := by
        rw [afterMatch, if_pos hbuy]
        simp
      rw [hX]
      refine hcore [] _ ?_ ?_ (fun h => absurd rfl h)
      · intro o ho
        cases ho
      · simp [sideTs]
  · have hsell : raw.side = Side.SELL := by
      cases hs0 : raw.side
      · exact absurd hs0 hbuy
      · rfl
    have hdec : (decide (raw.side = Side.BUY)) = false := by simp [hbuy]
    have hst0side := hst0sideS hbuy
    have hincside : out.incoming.side = Side.SELL := by rw [hiside]; exact hsell
    have hincts : out.incoming.ts = b.seq := hits
    have hincprice : out.incoming.price = price := hiprice
    have hsurv2 : ∀ x ∈ out.side, ∃ x0 ∈ b.bids, SameOrd x0 x := by
      intro x hx
      obtain ⟨x0, hx0, hsx⟩ := hsurv x hx
      rw [hst0side] at hx0
      exact ⟨x0, hx0, hsx⟩
    have hosub2 : ∀ t ∈ sideTs out.side, t ∈ sideTs b.bids := by
      intro t ht
      have h1 := hosub t ht
      rwa [hst0side] at h1
    have hsidelt : ∀ x ∈ out.side, x.ts < b.seq := by
      intro x hx
      obtain ⟨x0, hx0, hsx⟩ := hsurv2 x hx
      rw [(sameOrd_fields hsx).2.2.2.2.2]
      exact resting_ts_lt hinv (List.mem_append_left _ hx0)
    have hsidebuy : ∀ x ∈ out.side, x.side = Side.BUY := by
      intro x hx
      obtain ⟨x0, hx0, hsx⟩ := hsurv2 x hx
      rw [(sameOrd_fields hsx).2.2.1]
      exact hinv.bids_side x0 hx0
    have haskstore : ∀ o ∈ b.asks, ∀ a0, (o, a0) ∈ b.store → (o, a0) ∈ out.store := by
      intro o ho a0 ha0
      refine huntouched (o, a0) ?_ ?_ ?_
      · rw [hst0store]
        exact List.mem_append_left _ ha0
      · rw [hst0side]
        intro hmem
        exact hresnd.2.2 hmem (List.mem_map.mpr ⟨o, ho, rfl⟩)
      · exact (resting_ts_lt hinv (List.mem_append_right _ ho)).ne
    have hNT : ∀ e ∈ nt, e.1.pair = b.pair ∧ e.1.price = Dec.toString e.2.makerPrice ∧
        e.1.amount = Dec.toString e.2.qty ∧
        e.2.takerTs = b.seq ∧ e.2.takerPrice = price ∧
        e.2.sellTs = b.seq ∧ e.1.sellOrderId = raw.order_id ∧
        (∃ m0 ∈ b.bids, m0.ts = e.2.makerTs ∧ m0.price = e.2.makerPrice ∧
          e.2.buyTs = m0.ts ∧ e.1.buyOrderId = m0.id) ∧
        price.val ≤ e.2.makerPrice.val ∧
        (∀ x ∈ out.side, ¬(x.price.val = e.2.makerPrice.val ∧ x.ts < e.2.makerTs)) := by
      intro e he
      obtain ⟨hepair, heprice, heamt, htkts, htkp, ⟨m0, hm0, hm0ts, hm0p, hcase⟩, hrel, hmin⟩ :=
        hntok e he
      rw [hst0side] at hm0
      rcases hcase with ⟨htrue, _⟩ | ⟨_, hsts, hbts, hsid, hbid⟩
      · rw [hdec] at htrue
        cases htrue
      · refine ⟨hepair, heprice, heamt, htkts, htkp, hsts, hsid,
          ⟨m0, hm0, hm0ts, hm0p, hbts, hbid⟩, ?_, hmin⟩
        have h1 := hrel.2 hdec
        rw [htkp] at h1
        exact h1
    have huncr2 : out.incoming.remaining.isPos = true →
        ∀ y ∈ out.side, y.price.val < price.val := by
      intro hp y hy
      exact (huncr hp y hy).2 hdec
    have hcore : ∀ incL : List BookOrder, ∀ idx : List (String × BookOrder),
        (∀ o ∈ incL, o = out.incoming) → (sideTs incL).Nodup →
        (incL ≠ [] → out.incoming.remaining.isPos = true) →
        BookInv { b with seq := b.seq + 1, bids := out.side, asks := b.asks ++ incL, idIndex := idx, tradesA := out.tradesA, store := out.store } := by
      intro incL idx hincL hndI hposL
      have hmemInc : ∀ o ∈ incL, o = out.incoming ∧ out.incoming.remaining.isPos = true :=
        fun o ho => ⟨hincL o ho, hposL (List.ne_nil_of_mem ho)⟩
      have hseqI : ∀ t ∈ sideTs incL, t = b.seq := by
        intro t ht
        obtain ⟨o, ho, rfl⟩ := List.mem_map.mp ht
        rw [(hmemInc o ho).1, hincts]
      constructor
      · intro o ho
        exact hsidebuy o ho
      · intro o ho
        rcases List.mem_append.mp ho with h | h
        · exact hinv.asks_side o h
        · rw [(hmemInc o h).1]
          exact hincside
      · intro o ho
        simp only [restingOrders] at ho
        rcases List.mem_append.mp ho with h | h
        · exact hsyncs o h
        · rcases List.mem_append.mp h with ha | hI
          · obtain ⟨a0, ha0⟩ := hinv.resting_store o (List.mem_append_right _ ha)
            exact ⟨a0, haskstore o ha a0 ha0⟩
          · rw [(hmemInc o hI).1]
            exact hsynci
      · show (storeTs out.store).Nodup
        rw [hstorets]
        exact hnd0
      · intro ent hent
        have h1 := hmaxts ent hent
        show ent.1.ts < b.seq + 1
        omega
      · show (sideTs (out.side ++ (b.asks ++ incL))).Nodup
        rw [sideTs_append, sideTs_append, List.nodup_append, List.nodup_append]
        refine ⟨hosnd, ⟨hresnd.2.1, hndI, ?_⟩, ?_⟩
        · intro t hta htI
          have h1 := hseqI t htI
          have h2 := hrest_lt t (by rw [restingOrders, sideTs_append]; exact List.mem_append_right _ hta)
          omega
        · intro t htS ht
          have htb : t ∈ sideTs b.bids := hosub2 t htS
          rcases List.mem_append.mp ht with hta | htI
          · exact hresnd.2.2 htb hta
          · have h1 := hseqI t htI
            have h2 := hrest_lt t (by rw [restingOrders, sideTs_append]; exact List.mem_append_left _ htb)
            omega
      · intro o ho
        simp only [restingOrders] at ho
        rcases List.mem_append.mp ho with h | h
        · exact hopos o h
        · rcases List.mem_append.mp h with ha | hI
          · exact hinv.resting_pos o (List.mem_append_right _ ha)
          · rw [(hmemInc o hI).1]
            exact (hmemInc o hI).2
      · intro x hx y hy
        rcases List.mem_append.mp hy with hya | hyI
        · obtain ⟨x0, hx0, hsx⟩ := hsurv2 x hx
          rw [(sameOrd_fields hsx).2.2.2.2.1]
          exact hinv.nocross x0 hx0 y hya
        · rw [(hmemInc y hyI).1, hincprice]
          exact huncr2 (hmemInc y hyI).2 x hx
      · intro ent hent
        exact hcons ent hent
      · intro e he
        have he2 : e ∈ b.tradesA ++ nt := by
          rw [← hst0tr, ← hnt]
          exact he
        rcases List.mem_append.mp he2 with h | h
        · refine AttrOK_transport hnd0 hstorets htrace (AttrOK_mono ?_ (hinv.attrok e h))
          intro ent hent
          rw [hst0store]
          exact List.mem_append_left _ hent
        · obtain ⟨hepair2, heprice2, heamt2, htkts2, htkp2, hsts2, hsid2,
            ⟨m0, hm0, hm0ts, hm0p, hbts2, hbid2⟩, hle2, hmin2⟩ := hNT e h
          obtain ⟨ai, hai⟩ := hsynci
          obtain ⟨am, ham⟩ := hinv.resting_store m0 (List.mem_append_left _ hm0)
          have hamst0 : (m0, am) ∈ (startState b raw price amount).store := by
            rw [hst0store]
            exact List.mem_append_left _ ham
          obtain ⟨em2, hem2, hemts, hemid, _, _, hemprice, _⟩ :=
            store_witness_transport hnd0 hstorets htrace hamst0
          refine ⟨heprice2, heamt2, ⟨em2, hem2, ?_, ?_⟩,
            ⟨(out.incoming, ai), hai, ?_, ?_⟩, ⟨em2, hem2, ?_, ?_⟩,
            ⟨(out.incoming, ai), hai, ?_, ?_⟩, ?_⟩
          · rw [hemts, hbts2]
          · rw [hemid, hbid2]
          · rw [hincts, hsts2]
          · rw [hsid2]
            exact hiid
          · rw [hemts, ← hm0ts]
          · rw [hemprice, hm0p]
          · rw [hincts, htkts2]
          · rw [hincprice, htkp2]
          · exact Or.inr ⟨by rw [hbts2, hm0ts], by rw [htkts2, hsts2]⟩
      · intro A hA ent hent hAside hAprice hAts e he
        simp only [restingOrders] at hA
        have he2 : e ∈ b.tradesA ++ nt := by
          rw [← hst0tr, ← hnt]
          exact he
        have hAnotI : A ∈ out.side ∨ A ∈ b.asks := by
          rcases List.mem_append.mp hA with hAS | hA1
          · exact Or.inl hAS
          · rcases List.mem_append.mp hA1 with hAa | hAI
            · exact Or.inr hAa
            · exfalso
              have h1 := (hmemInc A hAI).1
              have h2 := hmaxts ent hent
              rw [h1, hincts] at hAts
              omega
        rcases List.mem_append.mp he2 with heOld | heNew
        · rcases hent0split ent hent with ⟨ent0, h0, hso0, _⟩ | ⟨_, _, hseq⟩
          · obtain ⟨_, _, hside0, _, hprice0, hts0⟩ := sameOrd_fields hso0
            rw [hts0]
            rcases hAnotI with hAS | hAa
            · obtain ⟨A0, hA0, hsA⟩ := hsurv2 A hAS
              obtain ⟨_, _, hsideA, _, hpriceA, htsA⟩ := sameOrd_fields hsA
              refine hinv.fifo A0 (List.mem_append_left _ hA0) ent0 h0 ?_ ?_ ?_ e heOld
              · rw [← hsideA, hAside, hside0]
              · rw [← hpriceA, hAprice, hprice0]
              · rw [← htsA, ← hts0]
                exact hAts
            · refine hinv.fifo A (List.mem_append_right _ hAa) ent0 h0 ?_ ?_ ?_ e heOld
              · rw [hAside, hside0]
              · rw [hAprice, hprice0]
              · rw [← hts0]
                exact hAts
          · rw [hseq]
            exact ⟨(attr_ts_lt hinv heOld).1.ne, (attr_ts_lt hinv heOld).2.1.ne⟩
        · obtain ⟨_, _, _, _, _, hsts2, _, ⟨m0, hm0, hm0ts, hm0p, hbts2, _⟩, hle2, hmin2⟩ :=
            hNT e heNew
          constructor
          · intro hq
            rw [hbts2] at hq
            have hm0r : m0 ∈ restingOrders b := List.mem_append_left _ hm0
            obtain ⟨hsideM, hpriceM⟩ := hts_resting ent hent m0 hm0r hq.symm
            have hAbuy : A.side = Side.BUY := by
              rw [hAside, hsideM]
              exact hinv.bids_side m0 hm0
            rcases hAnotI with hAS | hAa
            · refine hmin2 A hAS ⟨?_, ?_⟩
              · rw [hAprice, hpriceM, hm0p]
              · rw [← hm0ts, hq]
                exact hAts
            · have hc := hinv.asks_side A hAa
              rw [hAbuy] at hc
              cases hc
          · intro hq
            rw [hsts2] at hq
            obtain ⟨hsoN, _⟩ := hts_eq_seq ent hent hq.symm
            obtain ⟨_, _, hsideN, _, hpriceN, _⟩ := sameOrd_fields hsoN
            have hAsell : A.side = Side.SELL := by
              rw [hAside, hsideN]
              exact hsell
            rcases hAnotI with hAS | hAa
            · have hc := hsidebuy A hAS
              rw [hAsell] at hc
              cases hc
            · have hc := hinv.nocross m0 hm0 A hAa
              rw [← hm0p] at hle2
              have hAp : A.price.val = price.val := by
                rw [hAprice, hpriceN]
                rfl
              linarith
      · intro ent hent
        rcases hent0split ent hent with ⟨ent0, h0, hso0, _⟩ | ⟨hso0, _, _⟩
        · rw [(sameOrd_fields hso0).2.2.2.1]
          exact hinv.store_pair ent0 h0
        · rw [(sameOrd_fields hso0).2.2.2.1]
          exact hpair
      · intro e he
        have he2 : e ∈ b.tradesA ++ nt := by
          rw [← hst0tr, ← hnt]
          exact he
        rcases List.mem_append.mp he2 with h | h
        · exact hinv.trade_pair e h
        · exact (hNT e h).1
    by_cases hposf : out.incoming.remaining.isPos = true
    · rw [if_pos hposf]
      have hsellne : ¬(out.incoming.side = Side.BUY) := by
        rw [hincside]
        simp
      have hX : (afterMatch b raw out).add out.incoming =
          { b with seq := b.seq + 1, bids := out.side, asks := b.asks ++ [out.incoming], idIndex := idxSet out.incoming.id out.incoming out.idIndex, tradesA := out.tradesA, store := out.store } := by
        rw [afterMatch, if_neg hbuy, OrderBook.add, if_neg hsellne]
      rw [hX]
      refine hcore [out.incoming] _ ?_ ?_ (fun _ => hposf)
      · intro o ho
        rw [List.mem_singleton] at ho
        exact ho
      · simp [sideTs]
    · rw [if_neg hposf]
      have hX : afterMatch b raw out =
          { b with seq := b.seq + 1, bids := out.side, asks := b.asks ++ [], idIndex := out.idIndex, tradesA := out.tradesA, store := out.store } := by
        rw [afterMatch, if_neg hbuy]
        simp
      rw [hX]
      refine hcore [] _ ?_ ?_ (fun h => absurd rfl h)
      · intro o ho
        cases ho
      · simp [sideTs]

/-- `process` preserves the book invariant: every reachable book state is
well-formed. -/
theorem BookInv.processInv {b b' : OrderBook} (hinv : BookInv b) {raw : RawOrder}
    (hpair : raw.pair = b.pair) (h : b.process raw = some b') : BookInv b' := by
  cases hop : raw.type_op with
  | DELETE =>
      unfold OrderBook.process at h
      rw [hop] at h
      dsimp only at h
      injection h with h
      rw [← h]
      cases hfound : idxGet raw.order_id b.idIndex with
      | none => exact hinv
      | some found => exact hinv.removeOrderInv found
  | CREATE =>
      cases hp : Dec.parseDec raw.limit_price with
      | none =>
          exfalso
          unfold OrderBook.process at h
          rw [hop] at h
          dsimp only at h
          rw [hp] at h
          cases ha : Dec.parseDec raw.amount with
          | none =>
              rw [ha] at h
              exact Option.noConfusion h
          | some amount =>
              rw [ha] at h
              exact Option.noConfusion h
      | some price =>
          cases ha : Dec.parseDec raw.amount with
          | none =>
              exfalso
              unfold OrderBook.process at h
              rw [hop] at h
              dsimp only at h
              rw [hp, ha] at h
              exact Option.noConfusion h
          | some amount =>
              obtain ⟨out, hout, hb'⟩ := process_create_char hop hp ha h
              rw [hb']
              exact hinv.createInv hpair hout

theorem removeOrder_pair (b : OrderBook) (o : BookOrder) :
    (b.removeOrder o).pair = b.pair := by
  unfold OrderBook.removeOrder
  split <;> rfl

theorem add_pair (b : OrderBook) (o : BookOrder) : (b.add o).pair = b.pair := by
  unfold OrderBook.add
  split <;> rfl

theorem afterMatch_pair (b : OrderBook) (raw : RawOrder) (out : MatchSt) :
    (afterMatch b raw out).pair = b.pair := by
  unfold afterMatch
  split <;> rfl

/-- A successful CREATE means both decimal strings parsed. -/
theorem process_create_parses {b b' : OrderBook} {raw : RawOrder}
    (hop : raw.type_op = OpType.CREATE) (h : b.process raw = some b') :
    ∃ price amount, Dec.parseDec raw.limit_price = some price ∧
      Dec.parseDec raw.amount = some amount := by
  cases hp : Dec.parseDec raw.limit_price with
  | none =>
      exfalso
      unfold OrderBook.process at h
      rw [hop] at h
      dsimp only at h
      rw [hp] at h
      cases ha : Dec.parseDec raw.amount with
      | none =>
          rw [ha] at h
          exact Option.noConfusion h
      | some a =>
          rw [ha] at h
          exact Option.noConfusion h
  | some price =>
      cases ha : Dec.parseDec raw.amount with
      | none =>
          exfalso
          unfold OrderBook.process at h
          rw [hop] at h
          dsimp only at h
          rw [hp, ha] at h
          exact Option.noConfusion h
      | some amount => exact ⟨price, amount, rfl, rfl⟩

/-- `process` never changes a book's pair. -/
theorem process_pair {b b' : OrderBook} {raw : RawOrder} (h : b.process raw = some b') :
    b'.pair = b.pair := by
  cases hop : raw.type_op with
  | DELETE =>
      unfold OrderBook.process at h
      rw [hop] at h
      dsimp only at h
      injection h with h
      rw [← h]
      cases hfound : idxGet raw.order_id b.idIndex with
      | none => rfl
      | some found => exact removeOrder_pair b found
  | CREATE =>
      obtain ⟨price, amount, hp, ha⟩ := process_create_parses hop h
      obtain ⟨out, hout, hb'⟩ := process_create_char hop hp ha h
      rw [hb']
      by_cases hq : out.incoming.remaining.isPos = true
      · rw [if_pos hq, add_pair, afterMatch_pair]
      · rw [if_neg hq, afterMatch_pair]

/-! ## The engine -/

/-- `MatcherEngine`: pair symbol to book, in insertion order. -/
structure MatcherEngine where
  books : List (String × OrderBook)
deriving Repr

/-- `new MatcherEngine()`. -/
def MatcherEngine.emptyEngine : MatcherEngine := { books := [] }

/-- `MatcherEngine.ingest`: resolve `bookFor(raw.pair)` (lazily creating and
registering an empty book) and forward the command to it. -/
def MatcherEngine.ingest (e : MatcherEngine) (raw : RawOrder) : Option MatcherEngine :=
  match (e.books.find? (fun p => p.1 = raw.pair)) with
  | some p =>
      (p.2.process raw).map (fun b' =>
        { books := e.books.map (fun q => if q.1 = raw.pair then (raw.pair, b') else q) })
  | none =>
      ((OrderBook.emptyBook raw.pair).process raw).map (fun b' =>
        { books := e.books ++ [(raw.pair, b')] })

/-- Apply a whole command stream to a fresh engine. -/
def MatcherEngine.ingestAll (cmds : List RawOrder) : Option MatcherEngine :=
  cmds.foldlM MatcherEngine.ingest MatcherEngine.emptyEngine

/-- `MatcherEngine.finish`, trades part: every book's trades, concatenated in
book-insertion order. -/
def MatcherEngine.allTrades (e : MatcherEngine) : List Trade :=
  (e.books.map (fun p => p.2.trades)).flatten

/-- The instrumented flat trade list. -/
def MatcherEngine.allTradesA (e : MatcherEngine) : List (Trade × TradeAttr) :=
  (e.books.map (fun p => p.2.tradesA)).flatten

/-- `MatcherEngine.finish`, orderbooks part: one snapshot per pair. -/
def MatcherEngine.snapshots (e : MatcherEngine) : List Snapshot :=
  e.books.map (fun p => p.2.normalize)

/-! ## The engine invariant -/

/-- The reachable-state invariant of the whole engine: pair keys are unique,
each registered book is keyed by its own pair, and every book is
well-formed. -/
structure EngInv (e : MatcherEngine) : Prop where
  keys_nodup : (e.books.map Prod.fst).Nodup
  book_pair : ∀ pb ∈ e.books, pb.2.pair = pb.1
  book_inv : ∀ pb ∈ e.books, BookInv pb.2

theorem EngInv.emptyEngine : EngInv MatcherEngine.emptyEngine := by
  constructor <;> simp [MatcherEngine.emptyEngine]

/-- `ingest` preserves the engine invariant. -/
theorem EngInv.ingestInv {e e' : MatcherEngine} (hinv : EngInv e) {raw : RawOrder}
    (h : e.ingest raw = some e') : EngInv e' := by
  unfold MatcherEngine.ingest at h
  cases hfind : e.books.find? (fun p => p.1 = raw.pair) with
  | some p =>
      rw [hfind] at h
      obtain ⟨b', hb', he'⟩ := Option.map_eq_some'.mp h
      have hpmem : p ∈ e.books := List.mem_of_find?_eq_some hfind
      have hpkey : p.1 = raw.pair := by
        have h1 := List.find?_some hfind
        simpa using h1
      have hbinv : BookInv b' :=
        BookInv.processInv (hinv.book_inv p hpmem)
          (by rw [hinv.book_pair p hpmem, hpkey]) hb'
      have hbpair : b'.pair = raw.pair := by
        rw [process_pair hb', hinv.book_pair p hpmem, hpkey]
      have hkeys : (e.books.map (fun q => if q.1 = raw.pair then (raw.pair, b') else q)).map
          Prod.fst = e.books.map Prod.fst := by
        rw [List.map_map]
        apply List.map_congr_left
        intro q hq
        by_cases hc : q.1 = raw.pair
        · simp [hc]
        · simp [hc]
      rw [← he']
      constructor
      · show ((e.books.map
            (fun q => if q.1 = raw.pair then (raw.pair, b') else q)).map Prod.fst).Nodup
        rw [hkeys]
        exact hinv.keys_nodup
      · intro pb hpb
        obtain ⟨q, hq, hqe⟩ := List.mem_map.mp hpb
        by_cases hc : q.1 = raw.pair
        · rw [if_pos hc] at hqe
          rw [← hqe]
          exact hbpair
        · rw [if_neg hc] at hqe
          rw [← hqe]
          exact hinv.book_pair q hq
      · intro pb hpb
        obtain ⟨q, hq, hqe⟩ := List.mem_map.mp hpb
        by_cases hc : q.1 = raw.pair
        · rw [if_pos hc] at hqe
          rw [← hqe]
          exact hbinv
        · rw [if_neg hc] at hqe
          rw [← hqe]
          exact hinv.book_inv q hq
  | none =>
      rw [hfind] at h
      obtain ⟨b', hb', he'⟩ := Option.map_eq_some'.mp h
      have hbinv : BookInv b' := BookInv.processInv (BookInv.emptyBook raw.pair) rfl hb'
      have hbpair : b'.pair = raw.pair := process_pair hb'
      have hnew : raw.pair ∉ e.books.map Prod.fst := by
        intro hmem
        obtain ⟨q, hq, hqe⟩ := List.mem_map.mp hmem
        have h1 := List.find?_eq_none.mp hfind q hq
        simp [hqe] at h1
      rw [← he']
      constructor
      · show ((e.books ++ [(raw.pair, b')]).map Prod.fst).Nodup
        rw [List.map_append, List.nodup_append]
        refine ⟨hinv.keys_nodup, by simp, ?_⟩
        intro t ht hmem
        simp at hmem
        rw [hmem] at ht
        exact hnew ht
      · intro pb hpb
        rcases List.mem_append.mp hpb with hq | hq
        · exact hinv.book_pair pb hq
        · rw [List.mem_singleton] at hq
          rw [hq]
          exact hbpair
      · intro pb hpb
        rcases List.mem_append.mp hpb with hq | hq
        · exact hinv.book_inv pb hq
        · rw [List.mem_singleton] at hq
          rw [hq]
          exact hbinv

/-- Every engine reachable from a full run is well-formed. -/
theorem EngInv.ingestAllInv {cmds : List RawOrder} {e : MatcherEngine}
    (h : MatcherEngine.ingestAll cmds = some e) : EngInv e := by
  have hgen : ∀ (l : List RawOrder) (e0 e1 : MatcherEngine), EngInv e0 →
      l.foldlM MatcherEngine.ingest e0 = some e1 → EngInv e1 := by
    intro l
    induction l with
    | nil =>
        intro e0 e1 h0 hf
        injection hf with hf
        rw [← hf]
        exact h0
    | cons a l ih =>
        intro e0 e1 h0 hf
        rw [List.foldlM_cons] at hf
        obtain ⟨em, hem, hrest⟩ := Option.bind_eq_some.mp hf
        exact ih em e1 (h0.ingestInv hem) hrest
  exact hgen cmds MatcherEngine.emptyEngine e EngInv.emptyEngine h

/-! ## The claims -/

/-- C2: No crossed book at quiescence.  After any fully applied command
stream, in every pair's book, every resting bid's price is strictly below
every resting ask's price (in particular the best bid is below the best
ask whenever both exist). -/
theorem claim_C2 {cmds : List RawOrder} {e : MatcherEngine}
    (h : MatcherEngine.ingestAll cmds = some e) :
    ∀ pb ∈ e.books, ∀ x ∈ pb.2.bids, ∀ y ∈ pb.2.asks, x.price.val < y.price.val := by
  intro pb hpb x hx y hy
  exact ((EngInv.ingestAllInv h).book_inv pb hpb).nocross x hx y hy

def wCmdsC2 : List RawOrder :=
  [ { type_op := OpType.CREATE, account_id := "1", amount := "1", order_id := "b1",
      pair := "BTC/USDC", limit_price := "10", side := Side.BUY },
    { type_op := OpType.CREATE, account_id := "2", amount := "1", order_id := "s1",
      pair := "BTC/USDC", limit_price := "20", side := Side.SELL } ]

def wEngC2 : MatcherEngine :=
  (MatcherEngine.ingestAll wCmdsC2).getD MatcherEngine.emptyEngine

theorem claim_C2_witness :
    MatcherEngine.ingestAll wCmdsC2 = some wEngC2 ∧
    ∀ pb ∈ wEngC2.books, ∀ x ∈ pb.2.bids, ∀ y ∈ pb.2.asks, x.price.val < y.price.val :=
  ⟨rfl, @claim_C2 wCmdsC2 wEngC2 rfl⟩

/-- C3: Price goes to the maker.  Every trade recorded by any run carries
the price string of the resting (maker) order that was matched: the trade's
`price` is the canonical rendering of the maker's limit price, the maker is
one of the two recorded participant objects, and whenever the taker's limit
price differs in value from the maker's, the trade price is not the
rendering of the taker's price. -/
theorem claim_C3 {cmds : List RawOrder} {e : MatcherEngine}
    (h : MatcherEngine.ingestAll cmds = some e) :
    ∀ pb ∈ e.books, ∀ ea ∈ pb.2.tradesA,
      ea.1.price = Dec.toString ea.2.makerPrice ∧
      (∃ em ∈ pb.2.store, em.1.ts = ea.2.makerTs ∧ em.1.price = ea.2.makerPrice) ∧
      (∃ et ∈ pb.2.store, et.1.ts = ea.2.takerTs ∧ et.1.price = ea.2.takerPrice) ∧
      ((ea.2.makerTs = ea.2.sellTs ∧ ea.2.takerTs = ea.2.buyTs) ∨
       (ea.2.makerTs = ea.2.buyTs ∧ ea.2.takerTs = ea.2.sellTs)) ∧
      (ea.2.takerPrice.val ≠ ea.2.makerPrice.val →
        ea.1.price ≠ Dec.toString ea.2.takerPrice) := by
  intro pb hpb ea hea
  obtain ⟨hprice, _, _, _, hm, ht, hd⟩ :=
    ((EngInv.ingestAllInv h).book_inv pb hpb).attrok ea hea
  refine ⟨hprice, ?_, ?_, hd, ?_⟩
  · obtain ⟨em, h1, h2, h3⟩ := hm
    exact ⟨em, h1, h2, h3⟩
  · obtain ⟨et, h1, h2, h3⟩ := ht
    exact ⟨et, h1, h2, h3⟩
  · intro hne hc
    rw [hprice] at hc
    exact hne (Dec.toString_val_inj hc.symm)

def wCmdsC3 : List RawOrder :=
  [ { type_op := OpType.CREATE, account_id := "1", amount := "2", order_id := "b1",
      pair := "BTC/USDC", limit_price := "10", side := Side.BUY },
    { type_op := OpType.CREATE, account_id := "2", amount := "1", order_id := "s1",
      pair := "BTC/USDC", limit_price := "9", side := Side.SELL } ]

def wEngC3 : MatcherEngine :=
  (MatcherEngine.ingestAll wCmdsC3).getD MatcherEngine.emptyEngine

theorem claim_C3_witness :
    MatcherEngine.ingestAll wCmdsC3 = some wEngC3 ∧
    ∀ pb ∈ wEngC3.books, ∀ ea ∈ pb.2.tradesA,
      ea.1.price = Dec.toString ea.2.makerPrice ∧
      (∃ em ∈ pb.2.store, em.1.ts = ea.2.makerTs ∧ em.1.price = ea.2.makerPrice) ∧
      (∃ et ∈ pb.2.store, et.1.ts = ea.2.takerTs ∧ et.1.price = ea.2.takerPrice) ∧
      ((ea.2.makerTs = ea.2.sellTs ∧ ea.2.takerTs = ea.2.buyTs) ∨
       (ea.2.makerTs = ea.2.buyTs ∧ ea.2.takerTs = ea.2.sellTs)) ∧
      (ea.2.takerPrice.val ≠ ea.2.makerPrice.val →
        ea.1.price ≠ Dec.toString ea.2.takerPrice) :=
  ⟨rfl, @claim_C3 wCmdsC3 wEngC3 rfl⟩

/-- C4: FIFO at equal price.  `ts` is the engine-assigned arrival sequence
number of a CREATE, so `A.ts < ent.1.ts` says A's CREATE arrived first.  In
every reachable state (hence at every moment of a run): while an earlier
same-side same-price order A still rests, no later order at that price has
participated in any trade — A must be fully consumed or deleted before a
later equal-priced order contributes.  Ties are thus broken by arrival
sequence alone, never by size. -/
theorem claim_C4 {cmds : List RawOrder} {e : MatcherEngine}
    (h : MatcherEngine.ingestAll cmds = some e) :
    ∀ pb ∈ e.books, ∀ A ∈ restingOrders pb.2, ∀ ent ∈ pb.2.store,
      A.side = ent.1.side → A.price.val = ent.1.price.val → A.ts < ent.1.ts →
      ∀ ea ∈ pb.2.tradesA, ea.2.buyTs ≠ ent.1.ts ∧ ea.2.sellTs ≠ ent.1.ts := by
  intro pb hpb A hA ent hent h1 h2 h3 ea hea
  exact ((EngInv.ingestAllInv h).book_inv pb hpb).fifo A hA ent hent h1 h2 h3 ea hea

def wCmdsC4 : List RawOrder :=
  [ { type_op := OpType.CREATE, account_id := "1", amount := "1", order_id := "a",
      pair := "BTC/USDC", limit_price := "10", side := Side.BUY },
    { type_op := OpType.CREATE, account_id := "2", amount := "1", order_id := "b",
      pair := "BTC/USDC", limit_price := "10", side := Side.BUY },
    { type_op := OpType.CREATE, account_id := "3", amount := "1", order_id := "s",
      pair := "BTC/USDC", limit_price := "10", side := Side.SELL } ]

def wEngC4 : MatcherEngine :=
  (MatcherEngine.ingestAll wCmdsC4).getD MatcherEngine.emptyEngine

theorem claim_C4_witness :
    MatcherEngine.ingestAll wCmdsC4 = some wEngC4 ∧
    ∀ pb ∈ wEngC4.books, ∀ A ∈ restingOrders pb.2, ∀ ent ∈ pb.2.store,
      A.side = ent.1.side → A.price.val = ent.1.price.val → A.ts < ent.1.ts →
      ∀ ea ∈ pb.2.tradesA, ea.2.buyTs ≠ ent.1.ts ∧ ea.2.sellTs ≠ ent.1.ts :=
  ⟨rfl, @claim_C4 wCmdsC4 wEngC4 rfl⟩

/-- C10: Termination of the crossing loop.  The fuel-indexed loop with one
unit of fuel per performed iteration completes within (size of the opposite
side) + 1 units on every input: each iteration either leaves the incoming
remaining nonpositive (the next check exits) or strictly shrinks the side. -/
theorem claim_C10 (isBuy : Bool) (pr : String) (st : MatchSt) :
    ∃ out, matchLoopF isBuy pr (st.side.length + 1) st = some out :=
  matchLoopF_enough isBuy pr (st.side.length + 1) st (by omega)

/-- C5: Match-step postcondition.  Whenever one iteration of the crossing
loop fires (incoming remaining positive, a best resting order exists and
the prices cross), the iteration is exactly `matchStep`; the emitted
trade's quantity is the decimal minimum of the two remainings; the buy and
sell order ids are assigned by the incoming side; both remainings are
decremented by exactly the traded quantity; and the resting order is
removed from the side and the id-index exactly when its remaining reaches
zero. -/
theorem claim_C5 (isBuy : Bool) (pr : String) (st : MatchSt) (best : BookOrder)
    (rest : List BookOrder) (fuel : ℕ)
    (hpos : st.incoming.remaining.isPos = true)
    (hex : extractBest (sidePrec isBuy) st.side = some (best, rest))
    (hcr : priceCross isBuy st.incoming best = true) :
    matchLoopF isBuy pr (fuel + 1) st =
      matchLoopF isBuy pr fuel (matchStep isBuy pr st best rest) ∧
    (tradeQty st.incoming best).val =
      min st.incoming.remaining.val best.remaining.val ∧
    (matchStep isBuy pr st best rest).tradesA = st.tradesA ++
      [(mkTrade isBuy pr st.incoming best (tradeQty st.incoming best),
        mkAttr isBuy st.incoming best (tradeQty st.incoming best))] ∧
    (mkTrade isBuy pr st.incoming best (tradeQty st.incoming best)).buyOrderId =
      (if isBuy = true then st.incoming.id else best.id) ∧
    (mkTrade isBuy pr st.incoming best (tradeQty st.incoming best)).sellOrderId =
      (if isBuy = true then best.id else st.incoming.id) ∧
    (mkTrade isBuy pr st.incoming best (tradeQty st.incoming best)).amount =
      Dec.toString (tradeQty st.incoming best) ∧
    (matchStep isBuy pr st best rest).incoming.remaining.val =
      st.incoming.remaining.val - (tradeQty st.incoming best).val ∧
    (best.remaining.val = (tradeQty st.incoming best).val →
      (matchStep isBuy pr st best rest).side = rest ∧
      (matchStep isBuy pr st best rest).idIndex = idxDel best.id st.idIndex) ∧
    (best.remaining.val ≠ (tradeQty st.incoming best).val →
      (matchStep isBuy pr st best rest).side =
        ({best with remaining := best.remaining.sub (tradeQty st.incoming best)}) :: rest ∧
      (best.remaining.sub (tradeQty st.incoming best)).val =
        best.remaining.val - (tradeQty st.incoming best).val ∧
      (matchStep isBuy pr st best rest).idIndex = st.idIndex) := by
  have hziff : (best.remaining.sub (tradeQty st.incoming best)).isZero = true ↔
      best.remaining.val = (tradeQty st.incoming best).val := by
    rw [Dec.isZero_iff, Dec.sub_val]
    constructor
    · intro h1
      linarith
    · intro h1
      linarith
  refine ⟨matchLoopF_cross hpos hex hcr, Dec.min_sel_val _ _, ?_, rfl, rfl, rfl, ?_, ?_, ?_⟩
  · unfold matchStep
    split <;> rfl
  · unfold matchStep
    by_cases hz : (best.remaining.sub (tradeQty st.incoming best)).isZero = true
    · rw [if_pos hz]
      show (st.incoming.remaining.sub (tradeQty st.incoming best)).val = _
      rw [Dec.sub_val]
    · rw [if_neg hz]
      show (st.incoming.remaining.sub (tradeQty st.incoming best)).val = _
      rw [Dec.sub_val]
  · intro hz
    unfold matchStep
    rw [if_pos (hziff.mpr hz)]
    exact ⟨rfl, rfl⟩
  · intro hz
    unfold matchStep
    rw [if_neg (fun hc => hz (hziff.mp hc))]
    exact ⟨rfl, Dec.sub_val _ _, rfl⟩

def wIncC5 : BookOrder :=
  { id := "t", account := "1", side := Side.BUY, pair := "P",
    price := { m := 10, e := 0 }, remaining := { m := 3, e := 0 }, ts := 1 }

def wBestC5 : BookOrder :=
  { id := "m", account := "2", side := Side.SELL, pair := "P",
    price := { m := 10, e := 0 }, remaining := { m := 2, e := 0 }, ts := 0 }

def wStC5 : MatchSt :=
  { incoming := wIncC5, side := [wBestC5], idIndex := [], tradesA := [], store := [] }

theorem claim_C5_witness :
    wStC5.incoming.remaining.isPos = true ∧
    (matchStep true "P" wStC5 wBestC5 []).incoming.remaining.val =
      wStC5.incoming.remaining.val - (tradeQty wStC5.incoming wBestC5).val :=
  ⟨by decide,
    (claim_C5 true "P" wStC5 wBestC5 [] 0 (by decide) (by decide) (by decide)).2.2.2.2.2.2.1⟩

/-- Snapshots only read the pair and the two sides. -/
theorem normalize_congr {b1 b2 : OrderBook} (hp : b1.pair = b2.pair)
    (hb : b1.bids = b2.bids) (ha : b1.asks = b2.asks) :
    b1.normalize = b2.normalize := by
  unfold OrderBook.normalize
  rw [hp, hb, ha]

/-- C7: Zero-amount CREATE is skipped.  A CREATE whose amount parses to the
decimal zero emits no trade, is never entered into the id-index or either
side, is never matched, and leaves the book's snapshot unchanged. -/
theorem claim_C7 {b b' : OrderBook} {raw : RawOrder} {amount : Dec}
    (hop : raw.type_op = OpType.CREATE)
    (ha : Dec.parseDec raw.amount = some amount)
    (hz : amount.val = 0)
    (h : b.process raw = some b') :
    b'.pair = b.pair ∧ b'.bids = b.bids ∧ b'.asks = b.asks ∧
    b'.idIndex = b.idIndex ∧ b'.trades = b.trades ∧ b'.normalize = b.normalize := by
  obtain ⟨price, amount2, hp, ha2⟩ := process_create_parses hop h
  obtain ⟨out, hout, hb'⟩ := process_create_char hop hp ha h
  have hnp : (startState b raw price amount).incoming.remaining.isPos = false := by
    show amount.isPos = false
    cases hq : amount.isPos
    · rfl
    · exact absurd ((Dec.isPos_iff amount).mp hq) (by rw [hz]; exact lt_irrefl 0)
  have hloop := @matchLoopF_not_pos (decide (raw.side = Side.BUY)) b.pair
    ((if raw.side = Side.BUY then b.asks else b.bids).length + 1)
    (startState b raw price amount) hnp
  rw [hout] at hloop
  have hsame : out = startState b raw price amount := Option.some.inj hloop
  have hcond : ¬(out.incoming.remaining.isPos = true) := by
    rw [hsame, hnp]
    exact Bool.false_ne_true
  rw [if_neg hcond] at hb'
  rw [hb', hsame]
  have hpair : (afterMatch b raw (startState b raw price amount)).pair = b.pair :=
    afterMatch_pair b raw _
  by_cases hbuy : raw.side = Side.BUY
  · have h2 : (afterMatch b raw (startState b raw price amount)).bids = b.bids := by
      unfold afterMatch
      rw [if_pos hbuy]
    have h3 : (afterMatch b raw (startState b raw price amount)).asks = b.asks := by
      unfold afterMatch
      rw [if_pos hbuy]
      exact if_pos hbuy
    have h4 : (afterMatch b raw (startState b raw price amount)).idIndex = b.idIndex := by
      unfold afterMatch
      rw [if_pos hbuy]
      rfl
    have h5 : (afterMatch b raw (startState b raw price amount)).trades = b.trades := by
      unfold OrderBook.trades afterMatch
      rw [if_pos hbuy]
      rfl
    exact ⟨hpair, h2, h3, h4, h5, normalize_congr hpair h2 h3⟩
  · have h2 : (afterMatch b raw (startState b raw price amount)).bids = b.bids := by
      unfold afterMatch
      rw [if_neg hbuy]
      exact if_neg hbuy
    have h3 : (afterMatch b raw (startState b raw price amount)).asks = b.asks := by
      unfold afterMatch
      rw [if_neg hbuy]
    have h4 : (afterMatch b raw (startState b raw price amount)).idIndex = b.idIndex := by
      unfold afterMatch
      rw [if_neg hbuy]
      rfl
    have h5 : (afterMatch b raw (startState b raw price amount)).trades = b.trades := by
      unfold OrderBook.trades afterMatch
      rw [if_neg hbuy]
      rfl
    exact ⟨hpair, h2, h3, h4, h5, normalize_congr hpair h2 h3⟩

def wRawC7 : RawOrder :=
  { type_op := OpType.CREATE, account_id := "1", amount := "0", order_id := "z",
    pair := "BTC/USDC", limit_price := "10", side := Side.BUY }

def wBookC7 : OrderBook :=
  ((OrderBook.emptyBook "BTC/USDC").process wRawC7).getD (OrderBook.emptyBook "BTC/USDC")

theorem claim_C7_witness :
    (OrderBook.emptyBook "BTC/USDC").process wRawC7 = some wBookC7 ∧
    wBookC7.bids = (OrderBook.emptyBook "BTC/USDC").bids ∧
    wBookC7.idIndex = (OrderBook.emptyBook "BTC/USDC").idIndex := by
  refine ⟨rfl, ?_, ?_⟩
  · exact (@claim_C7 (OrderBook.emptyBook "BTC/USDC") wBookC7 wRawC7
      { m := 0, e := 0 } rfl (by decide) (by simp [Dec.val]) rfl).2.1
  · exact (@claim_C7 (OrderBook.emptyBook "BTC/USDC") wBookC7 wRawC7
      { m := 0, e := 0 } rfl (by decide) (by simp [Dec.val]) rfl).2.2.2.1

/-- C8: Decimal round-trip canonicalization.  Every string the engine emits
for a price or amount is `Dec.toString` of a parsed decimal: such a string
is always in canonical form (no superfluous trailing zeros, no trailing
point, no leading zeros), parsing it back preserves the exact value, and
any two parsed decimals with the same exact value render to the same
string — so the emitted string for an input D is the canonical form of D.
Modelled from the spec: the decimal type is the external big.js package;
spec section 4.1 pins parse/to_string and the canonical form. -/
theorem claim_C8 {s : String} {d : Dec} (h : Dec.parseDec s = some d) :
    Dec.IsCanonical (Dec.toString d) = true ∧
    (∃ d', Dec.parseDec (Dec.toString d) = some d' ∧ d'.val = d.val) ∧
    (∀ s2 d2, Dec.parseDec s2 = some d2 → d2.val = d.val →
      Dec.toString d2 = Dec.toString d) :=
  ⟨Dec.toString_canonical d, Dec.parseDec_toString d,
    fun _ _ _ hv => Dec.toString_congr hv⟩

theorem claim_C8_witness :
    Dec.parseDec "0.00230" = some { m := 230, e := -5 } ∧
    Dec.IsCanonical (Dec.toString ({ m := 230, e := -5 } : Dec)) = true :=
  ⟨by decide, (claim_C8 (s := "0.00230") (by decide)).1⟩

theorem idxGet_idxSet_self (k : String) (v : BookOrder) (l : List (String × BookOrder)) :
    idxGet k (idxSet k v l) = some v := by
  unfold idxSet
  by_cases hany : l.any (fun p => p.1 = k) = true
  · rw [if_pos hany]
    unfold idxGet
    induction l with
    | nil => simp at hany
    | cons q l ih =>
        rw [List.map_cons]
        by_cases hq : q.1 = k
        · rw [if_pos hq, List.find?_cons_of_pos _ (by simp)]
          rfl
        · rw [if_neg hq, List.find?_cons_of_neg _ (by simp [hq])]
          apply ih
          rw [List.any_cons] at hany
          simpa [hq] using hany
  · rw [if_neg hany]
    unfold idxGet
    rw [List.find?_append]
    have h1 : l.find? (fun p => decide (p.1 = k)) = none := by
      rw [List.find?_eq_none]
      intro x hx
      simp only [decide_eq_true_eq]
      intro hc
      exact hany (List.any_eq_true.mpr ⟨x, hx, by simp [hc]⟩)
    rw [h1, Option.none_or, List.find?_cons_of_pos _ (by simp)]
    rfl

def wRawC6 : RawOrder :=
  { type_op := OpType.DELETE, account_id := "1", amount := "1", order_id := "x",
    pair := "BTC/USDC", limit_price := "1", side := Side.BUY }

/-- C6 counterexample: a DELETE addressed at a pair the engine has never
seen is not a no-op on the whole engine: `bookFor` lazily creates and
registers a fresh empty book for that pair, so the engine state (and hence
the emitted snapshot list) changes. -/
theorem claim_C6_counterexample :
    ∃ e', MatcherEngine.emptyEngine.ingest wRawC6 = some e' ∧
      e'.books.length ≠ MatcherEngine.emptyEngine.books.length :=
  ⟨_, rfl, by decide⟩

/-- C6 (amended): DELETE of an unknown id is a no-op on the addressed book,
and whenever the command's pair is already registered, the entire engine
state is unchanged.  (Without that proviso the engine still registers a
fresh empty book for an unseen pair: see the counterexample.) -/
theorem claim_C6_amended {cmds : List RawOrder} {e : MatcherEngine}
    (h : MatcherEngine.ingestAll cmds = some e) {raw : RawOrder} {e' : MatcherEngine}
    (hop : raw.type_op = OpType.DELETE)
    (hpair : raw.pair ∈ e.books.map Prod.fst)
    (hid : ∀ p ∈ e.books, p.1 = raw.pair → idxGet raw.order_id p.2.idIndex = none)
    (hing : e.ingest raw = some e') :
    e' = e := by
  have hinv := EngInv.ingestAllInv h
  unfold MatcherEngine.ingest at hing
  cases hfind : e.books.find? (fun p => p.1 = raw.pair) with
  | none =>
      exfalso
      obtain ⟨q, hq, hqe⟩ := List.mem_map.mp hpair
      have h1 := List.find?_eq_none.mp hfind q hq
      simp [hqe] at h1
  | some p =>
      rw [hfind] at hing
      have hpmem : p ∈ e.books := List.mem_of_find?_eq_some hfind
      have hpkey : p.1 = raw.pair := by
        have h1 := List.find?_some hfind
        simpa using h1
      have hproc : p.2.process raw = some p.2 := by
        unfold OrderBook.process
        rw [hop]
        dsimp only
        rw [hid p hpmem hpkey]
      dsimp only at hing
      rw [hproc] at hing
      have hmapid : e.books.map (fun q => if q.1 = raw.pair then (raw.pair, p.2) else q) =
          e.books := by
        conv_rhs => rw [← List.map_id e.books]
        apply List.map_congr_left
        intro q hq
        show _ = q
        by_cases hc : q.1 = raw.pair
        · rw [if_pos hc]
          have hqp : q = p := List.inj_on_of_nodup_map hinv.keys_nodup hq hpmem
            (by rw [hc, hpkey])
          rw [hqp]
          exact Prod.ext hpkey.symm rfl
        · rw [if_neg hc]
      have hing2 : some ({ books := e.books.map (fun q => if q.1 = raw.pair then (raw.pair, p.2) else q) } : MatcherEngine) = some e' := hing
      have he' : e' = { books := e.books } := by
        rw [← hmapid]
        exact (Option.some.inj hing2).symm
      rw [he']

def wCmdsC6 : List RawOrder :=
  [ { type_op := OpType.CREATE, account_id := "1", amount := "1", order_id := "b1",
      pair := "BTC/USDC", limit_price := "10", side := Side.BUY } ]

def wEngC6 : MatcherEngine :=
  (MatcherEngine.ingestAll wCmdsC6).getD MatcherEngine.emptyEngine

def wRawC6b : RawOrder :=
  { type_op := OpType.DELETE, account_id := "1", amount := "1", order_id := "nope",
    pair := "BTC/USDC", limit_price := "1", side := Side.BUY }

def wEngC6b : MatcherEngine :=
  (wEngC6.ingest wRawC6b).getD MatcherEngine.emptyEngine

theorem claim_C6_witness :
    MatcherEngine.ingestAll wCmdsC6 = some wEngC6 ∧
    wEngC6.ingest wRawC6b = some wEngC6b ∧
    wEngC6b = wEngC6 :=
  ⟨rfl, rfl, @claim_C6_amended wCmdsC6 wEngC6 rfl wRawC6b wEngC6b rfl
    (by decide) (by decide) rfl⟩

def wCmdsC9 : List RawOrder :=
  [ { type_op := OpType.CREATE, account_id := "1", amount := "1", order_id := "X",
      pair := "BTC/USDC", limit_price := "10", side := Side.SELL },
    { type_op := OpType.CREATE, account_id := "2", amount := "2", order_id := "X",
      pair := "BTC/USDC", limit_price := "10", side := Side.BUY } ]

/-- C9 counterexample: a duplicate-id CREATE that crosses the old resting
order consumes it; although the old order (timestamp 0) was resting with
the same id when the new CREATE arrived and the new order keeps a positive
remaining (it rests, timestamp 1), the old order is no longer in any heap
— "the heap retains both" fails. -/
theorem claim_C9_counterexample :
    ∃ e, MatcherEngine.ingestAll wCmdsC9 = some e ∧
      ∀ pb ∈ e.books,
        (∃ o ∈ pb.2.bids, o.ts = 1 ∧ o.id = "X" ∧ o.remaining.isPos = true) ∧
        ∀ o ∈ restingOrders pb.2, o.ts ≠ 0 :=
  ⟨_, rfl, by decide⟩

/-- C9 (amended): when the duplicate-id CREATE rests on the same side as
the old order — so the crossing loop, which only consumes the opposite
side, cannot touch it — and the new order has positive remaining after
matching, the id-index entry is overwritten with the new order object
while both the old and the new order remain in the side heap. -/
theorem claim_C9_amended {b b' : OrderBook} (hinv : BookInv b) {raw : RawOrder}
    {price amount : Dec} {old : BookOrder}
    (hop : raw.type_op = OpType.CREATE)
    (hp : Dec.parseDec raw.limit_price = some price)
    (ha : Dec.parseDec raw.amount = some amount)
    (hold : old ∈ (if raw.side = Side.BUY then b.bids else b.asks))
    (hid : old.id = raw.order_id)
    (h : b.process raw = some b') :
    ∃ out, matchLoopF (decide (raw.side = Side.BUY)) b.pair
        ((if raw.side = Side.BUY then b.asks else b.bids).length + 1)
        (startState b raw price amount) = some out ∧
      (out.incoming.remaining.isPos = true →
        old ∈ (if raw.side = Side.BUY then b'.bids else b'.asks) ∧
        out.incoming ∈ (if raw.side = Side.BUY then b'.bids else b'.asks) ∧
        out.incoming.id = raw.order_id ∧
        old.ts ≠ out.incoming.ts ∧
        idxGet raw.order_id b'.idIndex = some out.incoming) := by
  obtain ⟨out, hout, hb'⟩ := process_create_char hop hp ha h
  obtain ⟨hso, _, _, _, _⟩ := matchLoopF_frame hout
  obtain ⟨hiid, _, hiside, _, _, hits⟩ := sameOrd_fields hso
  refine ⟨out, hout, ?_⟩
  intro hposf
  rw [if_pos hposf] at hb'
  have hiid2 : out.incoming.id = raw.order_id := hiid
  have hits2 : out.incoming.ts = b.seq := hits
  have holdts : old.ts ≠ out.incoming.ts := by
    rw [hits2]
    refine (resting_ts_lt hinv ?_).ne
    by_cases hbuy : raw.side = Side.BUY
    · rw [if_pos hbuy] at hold
      exact List.mem_append_left _ hold
    · rw [if_neg hbuy] at hold
      exact List.mem_append_right _ hold
  by_cases hbuy : raw.side = Side.BUY
  · have hincside : out.incoming.side = Side.BUY := by rw [hiside]; exact hbuy
    have hX : (afterMatch b raw out).add out.incoming = { b with seq := b.seq + 1, bids := b.bids ++ [out.incoming], asks := out.side, idIndex := idxSet out.incoming.id out.incoming out.idIndex, tradesA := out.tradesA, store := out.store } := by
      rw [afterMatch, if_pos hbuy, OrderBook.add, if_pos hincside]
    rw [hX] at hb'
    rw [hb']
    rw [if_pos hbuy] at hold ⊢
    refine ⟨List.mem_append_left _ hold, List.mem_append_right _ (List.mem_singleton.mpr rfl),
      hiid2, holdts, ?_⟩
    show idxGet raw.order_id (idxSet out.incoming.id out.incoming out.idIndex) = some out.incoming
    rw [hiid2]
    exact idxGet_idxSet_self _ _ _
  · have hincside : ¬(out.incoming.side = Side.BUY) := by
      rw [hiside]
      exact hbuy
    have hX : (afterMatch b raw out).add out.incoming = { b with seq := b.seq + 1, bids := out.side, asks := b.asks ++ [out.incoming], idIndex := idxSet out.incoming.id out.incoming out.idIndex, tradesA := out.tradesA, store := out.store } := by
      rw [afterMatch, if_neg hbuy, OrderBook.add, if_neg hincside]
    rw [hX] at hb'
    rw [hb']
    rw [if_neg hbuy] at hold ⊢
    refine ⟨List.mem_append_left _ hold, List.mem_append_right _ (List.mem_singleton.mpr rfl),
      hiid2, holdts, ?_⟩
    show idxGet raw.order_id (idxSet out.incoming.id out.incoming out.idIndex) = some out.incoming
    rw [hiid2]
    exact idxGet_idxSet_self _ _ _

def wRawC9a : RawOrder :=
  { type_op := OpType.CREATE, account_id := "1", amount := "1", order_id := "X",
    pair := "BTC/USDC", limit_price := "10", side := Side.BUY }

def wRawC9b : RawOrder :=
  { type_op := OpType.CREATE, account_id := "2", amount := "1", order_id := "X",
    pair := "BTC/USDC", limit_price := "20", side := Side.BUY }

def wBookC9 : OrderBook :=
  ((OrderBook.emptyBook "BTC/USDC").process wRawC9a).getD (OrderBook.emptyBook "BTC/USDC")

def wBookC9b : OrderBook :=
  (wBookC9.process wRawC9b).getD wBookC9

def wOldC9 : BookOrder :=
  { id := "X", account := "1", side := Side.BUY, pair := "BTC/USDC",
    price := { m := 10, e := 0 }, remaining := { m := 1, e := 0 }, ts := 0 }

theorem claim_C9_witness :
    wBookC9.process wRawC9b = some wBookC9b ∧
    (∃ out, matchLoopF (decide (wRawC9b.side = Side.BUY)) wBookC9.pair
        ((if wRawC9b.side = Side.BUY then wBookC9.asks else wBookC9.bids).length + 1)
        (startState wBookC9 wRawC9b { m := 20, e := 0 } { m := 1, e := 0 }) = some out ∧
      (out.incoming.remaining.isPos = true →
        wOldC9 ∈ (if wRawC9b.side = Side.BUY then wBookC9b.bids else wBookC9b.asks) ∧
        out.incoming ∈ (if wRawC9b.side = Side.BUY then wBookC9b.bids else wBookC9b.asks) ∧
        out.incoming.id = wRawC9b.order_id ∧
        wOldC9.ts ≠ out.incoming.ts ∧
        idxGet wRawC9b.order_id wBookC9b.idIndex = some out.incoming)) :=
  ⟨rfl, @claim_C9_amended wBookC9 wBookC9b
    (@BookInv.processInv (OrderBook.emptyBook "BTC/USDC") wBookC9
      (BookInv.emptyBook "BTC/USDC") wRawC9a rfl rfl)
    wRawC9b { m := 20, e := 0 } { m := 1, e := 0 } wOldC9
    (by decide) (by decide) (by decide) (by decide) (by decide) rfl⟩

/-! ## Order ids of the store, across the engine -/

/-- The order ids of the store, in creation order. -/
def storeIds (store : List (BookOrder × Dec)) : List String :=
  store.map (fun ent => ent.1.id)

theorem storeIds_updStore (t : ℕ) (r : Dec) (l : List (BookOrder × Dec)) :
    storeIds (updStore t r l) = storeIds l := by
  unfold storeIds updStore
  rw [List.map_map]
  apply List.map_congr_left
  intro ent hent
  by_cases hc : ent.1.ts = t
  · simp [hc]
  · simp [hc]

/-- The loop never changes which ids the store holds, nor their order. -/
theorem matchLoopF_storeIds {isBuy : Bool} {pr : String} :
    ∀ {fuel : ℕ} {st out : MatchSt}, matchLoopF isBuy pr fuel st = some out →
      storeIds out.store = storeIds st.store := by
  intro fuel
  induction fuel with
  | zero =>
      intro st out h
      rcases matchLoopF_cases h with ⟨heq, _⟩ | ⟨_, _, _, hf, _⟩
      · subst heq
        rfl
      · omega
  | succ f ih =>
      intro st out h
      rcases matchLoopF_cases h with ⟨heq, _⟩ | ⟨best, rest, f', hf, hpos, hex, hcr, hrec⟩
      · subst heq
        rfl
      · have hf' : f' = f := by omega
        subst hf'
        rw [ih hrec]
        unfold matchStep
        split <;> simp [storeIds_updStore]

theorem removeOrder_store (b : OrderBook) (o : BookOrder) :
    (b.removeOrder o).store = b.store := by
  unfold OrderBook.removeOrder
  split <;> rfl

theorem process_store_delete {b b' : OrderBook} {raw : RawOrder}
    (hop : raw.type_op = OpType.DELETE) (h : b.process raw = some b') :
    b'.store = b.store := by
  unfold OrderBook.process at h
  rw [hop] at h
  dsimp only at h
  injection h with h
  rw [← h]
  cases hfound : idxGet raw.order_id b.idIndex with
  | none => rfl
  | some found => exact removeOrder_store b found

/-- The ids a command adds to a book's store: a CREATE appends exactly its
order id, a DELETE appends none. -/
def newIds (raw : RawOrder) : List String :=
  if raw.type_op = OpType.CREATE then [raw.order_id] else []

theorem process_storeIds {b b' : OrderBook} {raw : RawOrder}
    (h : b.process raw = some b') :
    storeIds b'.store = storeIds b.store ++ newIds raw := by
  cases hop : raw.type_op with
  | DELETE =>
      unfold newIds
      rw [if_neg (by rw [hop]; intro hc; cases hc)]
      rw [process_store_delete hop h, List.append_nil]
  | CREATE =>
      unfold newIds
      rw [if_pos hop]
      obtain ⟨price, amount, hp, ha⟩ := process_create_parses hop h
      obtain ⟨out, hout, hb'⟩ := process_create_char hop hp ha h
      have hl := matchLoopF_storeIds hout
      have hst0 : storeIds (startState b raw price amount).store =
          storeIds b.store ++ [raw.order_id] := by
        show storeIds (b.store ++ [(newOrder b raw price amount, amount)]) = _
        unfold storeIds
        rw [List.map_append]
        rfl
      have hb's : b'.store = out.store := by
        rw [hb']
        by_cases hq : out.incoming.remaining.isPos = true
        · rw [if_pos hq]
          show ((afterMatch b raw out).add out.incoming).store = out.store
          unfold OrderBook.add afterMatch
          split <;> split <;> rfl
        · rw [if_neg hq]
          unfold afterMatch
          split <;> rfl
      rw [hb's, hl, hst0]

/-- All order ids the engine's books hold, in book order. -/
def engIds (e : MatcherEngine) : List String :=
  (e.books.map (fun pb => storeIds pb.2.store)).flatten

def createIds : List RawOrder → List String
  | [] => []
  | c :: cs => newIds c ++ createIds cs

/-- Replacing the (unique) entry with key `k` rewrites the book list
pointwise at that entry alone. -/
theorem books_replace_split {books : List (String × OrderBook)} {k : String}
    (hnd : (books.map Prod.fst).Nodup) {p : String × OrderBook} (hp : p ∈ books)
    (hk : p.1 = k) (b' : OrderBook) :
    ∃ l1 l2, books = l1 ++ p :: l2 ∧
      books.map (fun q => if q.1 = k then (k, b') else q) = l1 ++ (k, b') :: l2 := by
  obtain ⟨l1, l2, rfl⟩ := List.append_of_mem hp
  refine ⟨l1, l2, rfl, ?_⟩
  rw [List.map_append, List.map_cons, if_pos hk]
  have hnd' := hnd
  rw [List.map_append, List.map_cons, List.nodup_append] at hnd'
  congr 1
  · conv_rhs => rw [← List.map_id l1]
    apply List.map_congr_left
    intro q hq
    show _ = q
    rw [if_neg]
    intro hc
    exact hnd'.2.2 (List.mem_map.mpr ⟨q, hq, rfl⟩)
      (by rw [hc, ← hk]; exact List.mem_cons_self _ _)
  · congr 1
    conv_rhs => rw [← List.map_id l2]
    apply List.map_congr_left
    intro q hq
    show _ = q
    rw [if_neg]
    intro hc
    exact (List.nodup_cons.mp hnd'.2.1).1
      (by rw [hk, ← hc]; exact List.mem_map.mpr ⟨q, hq, rfl⟩)

/-- One ingest appends exactly the command's new id to the engine's ids, up
to the position of the addressed book. -/
theorem engIds_mk (L : List (String × OrderBook)) :
    engIds { books := L } = (L.map (fun pb => storeIds pb.2.store)).flatten := rfl

theorem ingest_engIds {e e' : MatcherEngine} (hinv : EngInv e) {raw : RawOrder}
    (h : e.ingest raw = some e') :
    List.Perm (engIds e') (engIds e ++ newIds raw) := by
  unfold MatcherEngine.ingest at h
  cases hfind : e.books.find? (fun p => p.1 = raw.pair) with
  | some p =>
      rw [hfind] at h
      dsimp only at h
      obtain ⟨b', hb', he'⟩ := Option.map_eq_some'.mp h
      have hpmem : p ∈ e.books := List.mem_of_find?_eq_some hfind
      have hpkey : p.1 = raw.pair := by simpa using List.find?_some hfind
      have hb'ids : storeIds b'.store = storeIds p.2.store ++ newIds raw :=
        process_storeIds hb'
      obtain ⟨l1, l2, hsplit, hmap⟩ := books_replace_split hinv.keys_nodup hpmem hpkey b'
      rw [← he', engIds_mk, hmap]
      unfold engIds
      rw [hsplit]
      rw [List.map_append, List.map_cons, List.flatten_append, List.flatten_cons,
        List.map_append, List.map_cons, List.flatten_append, List.flatten_cons]
      show List.Perm (_ ++ (storeIds b'.store ++ _)) _
      rw [hb'ids]
      rw [List.perm_iff_count]
      intro a
      simp only [List.count_append]
      omega
  | none =>
      rw [hfind] at h
      dsimp only at h
      obtain ⟨b', hb', he'⟩ := Option.map_eq_some'.mp h
      have hb'ids : storeIds b'.store = newIds raw := by
        rw [process_storeIds hb']
        rfl
      rw [← he', engIds_mk, List.map_append, List.flatten_append]
      unfold engIds
      simp [hb'ids]

/-- Over a whole successful run, the engine's store ids are a permutation of
the stream's CREATE ids. -/
theorem ingestAll_engIds {cmds : List RawOrder} {e : MatcherEngine}
    (h : MatcherEngine.ingestAll cmds = some e) :
    List.Perm (engIds e) (createIds cmds) := by
  have hgen : ∀ (l : List RawOrder) (e0 e1 : MatcherEngine), EngInv e0 →
      l.foldlM MatcherEngine.ingest e0 = some e1 →
      List.Perm (engIds e1) (engIds e0 ++ createIds l) := by
    intro l
    induction l with
    | nil =>
        intro e0 e1 h0 hf
        injection hf with hf
        rw [← hf]
        simp [createIds]
    | cons a l ih =>
        intro e0 e1 h0 hf
        rw [List.foldlM_cons] at hf
        obtain ⟨em, hem, hrest⟩ := Option.bind_eq_some.mp hf
        have h1 := ingest_engIds h0 hem
        have h2 := ih em e1 (h0.ingestInv hem) hrest
        refine h2.trans ?_
        have h3 : List.Perm (engIds em ++ createIds l)
            ((engIds e0 ++ newIds a) ++ createIds l) := h1.append_right _
        refine h3.trans ?_
        rw [List.append_assoc]
        show List.Perm _ (engIds e0 ++ createIds (a :: l))
        exact List.Perm.refl _
  have h4 := hgen cmds MatcherEngine.emptyEngine e EngInv.emptyEngine h
  refine h4.trans ?_
  show List.Perm ((([] : List (String × OrderBook)).map _).flatten ++ createIds cmds) _
  simp

/-- The exact decimal value of a trade's emitted amount string. -/
def tradeAmountVal (t : Trade) : ℚ := ((Dec.parseDec t.amount).map Dec.val).getD 0

/-- The id-attributed volume of an order id in a trade list: the exact sum
of the amounts of the trades naming the id as buyer or seller. -/
def idAttrSum (ts : List Trade) (oid : String) : ℚ :=
  (ts.map (fun t =>
    if t.buyOrderId = oid ∨ t.sellOrderId = oid then tradeAmountVal t else 0)).sum

/-- The same volume computed from the instrumentation's exact quantities. -/
def idAttrSumA (l : List (Trade × TradeAttr)) (oid : String) : ℚ :=
  (l.map (fun ea =>
    if ea.1.buyOrderId = oid ∨ ea.1.sellOrderId = oid then ea.2.qty.val else 0)).sum

theorem idAttrSum_append (l1 l2 : List Trade) (oid : String) :
    idAttrSum (l1 ++ l2) oid = idAttrSum l1 oid + idAttrSum l2 oid := by
  unfold idAttrSum
  rw [List.map_append, List.sum_append]

/-- In a well-formed book every emitted amount string parses back to the
trade's exact quantity, so the two id-attributed sums agree. -/
theorem idAttrSum_trades_eq {bq : OrderBook} (hq : BookInv bq) (oid : String) :
    idAttrSum bq.trades oid = idAttrSumA bq.tradesA oid := by
  unfold idAttrSum idAttrSumA OrderBook.trades
  rw [List.map_map]
  apply congrArg List.sum
  apply List.map_congr_left
  intro ea hea
  obtain ⟨_, hax, _, _, _, _, _⟩ := hq.attrok ea hea
  show (if ea.1.buyOrderId = oid ∨ ea.1.sellOrderId = oid then tradeAmountVal ea.1 else 0) = _
  have hval : tradeAmountVal ea.1 = ea.2.qty.val := by
    unfold tradeAmountVal
    rw [hax]
    obtain ⟨d', hd', hdv⟩ := Dec.parseDec_toString ea.2.qty
    rw [hd']
    simpa using hdv
  rw [hval]

/-- A trade list of a well-formed book never names an id absent from the
book's store. -/
theorem idAttrSum_zero_of_absent {bq : OrderBook} (hq : BookInv bq) {oid : String}
    (habs : oid ∉ storeIds bq.store) : idAttrSum bq.trades oid = 0 := by
  unfold idAttrSum OrderBook.trades
  rw [List.map_map]
  rw [List.sum_eq_zero]
  intro x hx
  obtain ⟨ea, hea, rfl⟩ := List.mem_map.mp hx
  obtain ⟨_, _, ⟨eb, hbmem, _, hbid⟩, ⟨es, hsmem, _, hsid⟩, _, _, _⟩ := hq.attrok ea hea
  show (if ea.1.buyOrderId = oid ∨ ea.1.sellOrderId = oid then tradeAmountVal ea.1 else 0) = 0
  rw [if_neg]
  rintro (hc | hc)
  · exact habs (List.mem_map.mpr ⟨eb, hbmem, by rw [hbid, hc]⟩)
  · exact habs (List.mem_map.mpr ⟨es, hsmem, by rw [hsid, hc]⟩)

theorem idAttrSum_flatten_zero {L : List (String × OrderBook)} {oid : String}
    (h : ∀ q ∈ L, BookInv q.2 ∧ oid ∉ storeIds q.2.store) :
    idAttrSum ((L.map (fun pb => pb.2.trades)).flatten) oid = 0 := by
  induction L with
  | nil => rfl
  | cons q L ih =>
      rw [List.map_cons, List.flatten_cons, idAttrSum_append]
      rw [idAttrSum_zero_of_absent (h q (List.mem_cons_self _ _)).1
        (h q (List.mem_cons_self _ _)).2]
      rw [ih (fun r hr => h r (List.mem_cons_of_mem _ hr))]
      ring

/-- The id-attributed and timestamp-attributed volumes agree for a store
entry of a well-formed book whose store ids are free of duplicates. -/
theorem idAttrSum_eq_attrsSum {bq : OrderBook} (hq : BookInv bq)
    {ent : BookOrder × Dec} (hent : ent ∈ bq.store)
    (hidnd : (storeIds bq.store).Nodup) :
    idAttrSumA bq.tradesA ent.1.id = attrsSum bq.tradesA ent.1.ts := by
  unfold idAttrSumA attrsSum
  apply congrArg List.sum
  apply List.map_congr_left
  intro ea hea
  obtain ⟨_, _, ⟨eb, hbmem, hbts, hbid⟩, ⟨es, hsmem, hsts, hsid⟩, _, _, _⟩ := hq.attrok ea hea
  have hiff : (ea.1.buyOrderId = ent.1.id ∨ ea.1.sellOrderId = ent.1.id) ↔
      (ea.2.buyTs = ent.1.ts ∨ ea.2.sellTs = ent.1.ts) := by
    constructor
    · rintro (hc | hc)
      · left
        have hebent : eb = ent :=
          List.inj_on_of_nodup_map hidnd hbmem hent (by rw [hbid, hc])
        rw [← hbts, hebent]
      · right
        have hesent : es = ent :=
          List.inj_on_of_nodup_map hidnd hsmem hent (by rw [hsid, hc])
        rw [← hsts, hesent]
    · rintro (hc | hc)
      · left
        have hebent : eb = ent :=
          store_ts_unique hq.store_nodup hbmem hent (by rw [hbts, hc])
        rw [← hbid, hebent]
      · right
        have hesent : es = ent :=
          store_ts_unique hq.store_nodup hsmem hent (by rw [hsts, hc])
        rw [← hsid, hesent]
  by_cases hcond : ea.1.buyOrderId = ent.1.id ∨ ea.1.sellOrderId = ent.1.id
  · rw [if_pos hcond, if_pos (hiff.mp hcond)]
  · rw [if_neg hcond, if_neg (fun hc => hcond (hiff.mpr hc))]

/-- C1 (amended): Conservation of quantity, for streams whose CREATE
commands carry pairwise distinct order ids.  For every order object a
CREATE materialized (every store entry, whose recorded initial amount is
the CREATE's parsed amount), the initial amount equals the exact decimal
sum of the amounts of all emitted trades naming the order's id as buyer or
seller, plus the order's residual remaining at quiescence.  Without the
uniqueness proviso the id-attributed sum over-counts (see the
counterexample): trade participation is recorded by order id, and the
engine happily recycles ids. -/
theorem claim_C1_amended {cmds : List RawOrder} {e : MatcherEngine}
    (hids : (createIds cmds).Nodup)
    (h : MatcherEngine.ingestAll cmds = some e) :
    ∀ pb ∈ e.books, ∀ ent ∈ pb.2.store,
      ent.2.val = idAttrSum (MatcherEngine.allTrades e) ent.1.id +
        ent.1.remaining.val := by
  intro pb hpb ent hent
  have hinv := EngInv.ingestAllInv h
  have hbinv := hinv.book_inv pb hpb
  have hnd : (engIds e).Nodup := ((ingestAll_engIds h).nodup_iff).mpr hids
  obtain ⟨l1, l2, hsplit⟩ := List.append_of_mem hpb
  have hnd2 : ((l1.map (fun pb' => storeIds pb'.2.store)).flatten ++
      (storeIds pb.2.store ++
        (l2.map (fun pb' => storeIds pb'.2.store)).flatten)).Nodup := by
    have h0 := hnd
    unfold engIds at h0
    rw [hsplit, List.map_append, List.map_cons, List.flatten_append,
      List.flatten_cons] at h0
    exact h0
  rw [List.nodup_append] at hnd2
  obtain ⟨hndF1, hnd3, hdisj1⟩ := hnd2
  rw [List.nodup_append] at hnd3
  obtain ⟨hndSp, hndF2, hdisj2⟩ := hnd3
  have hentid : ent.1.id ∈ storeIds pb.2.store := List.mem_map.mpr ⟨ent, hent, rfl⟩
  have hzero1 : idAttrSum ((l1.map (fun pb' => pb'.2.trades)).flatten) ent.1.id = 0 := by
    apply idAttrSum_flatten_zero
    intro q hq
    refine ⟨hinv.book_inv q (by rw [hsplit]; exact List.mem_append_left _ hq), ?_⟩
    intro hc
    exact hdisj1
      (List.mem_flatten.mpr ⟨storeIds q.2.store,
        List.mem_map.mpr ⟨q, hq, rfl⟩, hc⟩)
      (List.mem_append_left _ hentid)
  have hzero2 : idAttrSum ((l2.map (fun pb' => pb'.2.trades)).flatten) ent.1.id = 0 := by
    apply idAttrSum_flatten_zero
    intro q hq
    refine ⟨hinv.book_inv q
      (by rw [hsplit]; exact List.mem_append_right _ (List.mem_cons_of_mem _ hq)), ?_⟩
    intro hc
    exact hdisj2 hentid
      (List.mem_flatten.mpr ⟨storeIds q.2.store, List.mem_map.mpr ⟨q, hq, rfl⟩, hc⟩)
  have hsum : idAttrSum (MatcherEngine.allTrades e) ent.1.id =
      attrsSum pb.2.tradesA ent.1.ts := by
    have hallT : MatcherEngine.allTrades e =
        ((l1.map (fun pb' => pb'.2.trades)).flatten) ++
          (pb.2.trades ++ ((l2.map (fun pb' => pb'.2.trades)).flatten)) := by
      unfold MatcherEngine.allTrades
      rw [hsplit, List.map_append, List.map_cons, List.flatten_append, List.flatten_cons]
    rw [hallT, idAttrSum_append, idAttrSum_append, hzero1, hzero2,
      idAttrSum_trades_eq hbinv, idAttrSum_eq_attrsSum hbinv hent hndSp]
    ring
  rw [hsum]
  exact hbinv.conserve ent hent

def wCmdsC1 : List RawOrder :=
  [ { type_op := OpType.CREATE, account_id := "1", amount := "1", order_id := "X",
      pair := "BTC/USDC", limit_price := "10", side := Side.BUY },
    { type_op := OpType.CREATE, account_id := "2", amount := "1", order_id := "Y",
      pair := "BTC/USDC", limit_price := "10", side := Side.SELL },
    { type_op := OpType.CREATE, account_id := "3", amount := "1", order_id := "X",
      pair := "BTC/USDC", limit_price := "10", side := Side.BUY },
    { type_op := OpType.CREATE, account_id := "4", amount := "1", order_id := "Z",
      pair := "BTC/USDC", limit_price := "10", side := Side.SELL } ]

def wEngC1 : MatcherEngine :=
  (MatcherEngine.ingestAll wCmdsC1).getD MatcherEngine.emptyEngine

def wBookC1 : OrderBook :=
  (wEngC1.books.map Prod.snd).headD (OrderBook.emptyBook "BTC/USDC")

def wJunkC1 : BookOrder × Dec :=
  ({ id := "", account := "", side := Side.BUY, pair := "",
     price := { m := 0, e := 0 }, remaining := { m := 0, e := 0 }, ts := 0 },
   { m := 0, e := 0 })

def wEntC1 : BookOrder × Dec := wBookC1.store.headD wJunkC1

def wDec1 : Dec := { m := 1, e := 0 }

def wDec10 : Dec := { m := 10, e := 0 }

def wT1C1 : Trade :=
  { pair := "BTC/USDC", buyOrderId := "X", sellOrderId := "Y",
    price := Dec.toString wDec10, amount := Dec.toString wDec1 }

def wT2C1 : Trade :=
  { pair := "BTC/USDC", buyOrderId := "X", sellOrderId := "Z",
    price := Dec.toString wDec10, amount := Dec.toString wDec1 }

/-- C1 counterexample: the engine recycles order ids, and trade
participation is recorded by id.  In the stream `wCmdsC1` the id "X" is
used by two different CREATEs; both trades name "X" as the buyer, so the
first X order object (initial amount 1, fully filled) is id-attributed a
volume of 2: its initial amount does not equal attributed volume plus
residual. -/
theorem claim_C1_counterexample :
    MatcherEngine.ingestAll wCmdsC1 = some wEngC1 ∧
    ("BTC/USDC", wBookC1) ∈ wEngC1.books ∧
    wEntC1 ∈ wBookC1.store ∧
    wEntC1.2.val ≠ idAttrSum (MatcherEngine.allTrades wEngC1) wEntC1.1.id +
      wEntC1.1.remaining.val := by
  refine ⟨rfl, List.mem_singleton.mpr rfl, List.mem_cons_self _ _, ?_⟩
  have hA : MatcherEngine.allTrades wEngC1 = [wT1C1, wT2C1] := rfl
  have hq : tradeAmountVal { pair := "BTC/USDC", buyOrderId := "X", sellOrderId := "Y", price := Dec.toString wDec10, amount := Dec.toString wDec1 } = 1 := by
    unfold tradeAmountVal
    obtain ⟨d', hd', hdv⟩ := Dec.parseDec_toString wDec1
    show ((Dec.parseDec (Dec.toString wDec1)).map Dec.val).getD 0 = 1
    rw [hd']
    show d'.val = 1
    rw [hdv]
    show ((1 : ℤ) : ℚ) * (10 : ℚ) ^ (0 : ℤ) = 1
    norm_num
  have hq2 : tradeAmountVal { pair := "BTC/USDC", buyOrderId := "X", sellOrderId := "Z", price := Dec.toString wDec10, amount := Dec.toString wDec1 } = 1 := by
    unfold tradeAmountVal
    obtain ⟨d', hd', hdv⟩ := Dec.parseDec_toString wDec1
    show ((Dec.parseDec (Dec.toString wDec1)).map Dec.val).getD 0 = 1
    rw [hd']
    show d'.val = 1
    rw [hdv]
    show ((1 : ℤ) : ℚ) * (10 : ℚ) ^ (0 : ℤ) = 1
    norm_num
  have hS : idAttrSum (MatcherEngine.allTrades wEngC1) wEntC1.1.id = 2 := by
    rw [hA]
    show (if wT1C1.buyOrderId = wEntC1.1.id ∨ wT1C1.sellOrderId = wEntC1.1.id then
        tradeAmountVal wT1C1 else 0) +
      ((if wT2C1.buyOrderId = wEntC1.1.id ∨ wT2C1.sellOrderId = wEntC1.1.id then
        tradeAmountVal wT2C1 else 0) + 0) = 2
    rw [if_pos (by left; rfl), if_pos (by left; rfl)]
    rw [show tradeAmountVal wT1C1 = 1 from hq, show tradeAmountVal wT2C1 = 1 from hq2]
    norm_num
  rw [hS]
  show ((1 : ℤ) : ℚ) * (10 : ℚ) ^ (0 : ℤ) ≠ 2 + ((0 : ℤ) : ℚ) * (10 : ℚ) ^ (0 : ℤ)
  norm_num

theorem claim_C1_witness :
    (createIds wCmdsC3).Nodup ∧
    MatcherEngine.ingestAll wCmdsC3 = some wEngC3 ∧
    ∀ pb ∈ wEngC3.books, ∀ ent ∈ pb.2.store,
      ent.2.val = idAttrSum (MatcherEngine.allTrades wEngC3) ent.1.id +
        ent.1.remaining.val :=
  ⟨by decide, rfl, @claim_C1_amended wCmdsC3 wEngC3 (by decide) rfl⟩
